import Mathlib

/-!
BEJ decoder: shallow embedding and verified properties.

Embedding of `src/bej_reader.c`, `src/bej_dict.c`, `src/bej_json.c` and
`src/bej_decode.c`, with the encoders of `tests/test_bej.cpp` / `tests/test_bej_c.c`.

Conventions of the embedding
* `uint8_t` is `Fin 256`; wider machine integers are `Nat` reduced modulo `2^w`
  wherever the C arithmetic can leave the range (`size_t` and `uint64_t` are 64 bit,
  `uint32_t`/`unsigned`/`int` are 32 bit, LP64).
* A `(const uint8_t* d, size_t n)` pair is a function `Nat → Byte` with a length: the
  memory the pointer designates and the number of bytes the caller declared.
* A function returning `0`/`1` through out-parameters returns `Option`; the decoder,
  which also writes to the sink before failing, returns a `Run` carrying the status,
  the writer and the cursor as the C call leaves them.
* A shift by 64 or more (undefined in C) takes the count modulo 64, as x86-64 and
  AArch64 do.
-/

namespace Bej

/-! ## Machine integers -/

/-- An octet (`uint8_t`). -/
abbrev Byte := Fin 256

/-- Reduction to `size_t` / `uint64_t`. -/
def wrap64 (x : Nat) : Nat := x % 2 ^ 64

/-- Reduction to `uint32_t`. -/
def wrap32 (x : Nat) : Nat := x % 2 ^ 32

/-- Reduction to `uint16_t`. -/
def wrap16 (x : Nat) : Nat := x % 2 ^ 16

/-- Subtraction of two `size_t` values. -/
def sub64 (a b : Nat) : Nat := (a + 2 ^ 64 - b % 2 ^ 64) % 2 ^ 64

/-- The conversion `(int)x` of an unsigned value: low 32 bits, two's complement. -/
def to_int (x : Nat) : Int :=
  if x % 2 ^ 32 < 2 ^ 31 then ((x % 2 ^ 32 : Nat) : Int) else ((x % 2 ^ 32 : Nat) : Int) - 2 ^ 32

/-- The value of a 64-bit pattern read as `long long`. -/
def to_i64 (x : Nat) : Int :=
  if x % 2 ^ 64 < 2 ^ 63 then ((x % 2 ^ 64 : Nat) : Int) else ((x % 2 ^ 64 : Nat) : Int) - 2 ^ 64

/-- The 64-bit left shift `x << s`; the count is taken modulo 64. -/
def shl64 (x s : Nat) : Nat := (x <<< (s % 64)) % 2 ^ 64

/-- Little-endian 16-bit value `(uint16_t)(lo | (hi << 8))`. -/
def le16 (lo hi : Byte) : Nat := wrap16 (lo.val ||| (hi.val <<< 8))

/-- ASCII text as octets. -/
def ascii (s : String) : List Byte := s.toList.map (fun c => Fin.ofNat c.toNat)

/-- A byte list seen as memory: reads past the end give 0. -/
def mem_of (l : List Byte) : Nat → Byte := fun i => l.getD i 0

/-! ## bej_reader.c -/

/-- The reader `struct bej_br`: buffer, length, position. -/
structure bej_br where
  d : Nat → Byte
  n : Nat
  p : Nat

/-- The C function `bej_br_init`. -/
def bej_br_init (d : Nat → Byte) (n : Nat) : bej_br := ⟨d, n, 0⟩

/-- The C function `bej_br_u8`: one byte, or `none` (returns 0) when `p >= n`. -/
def bej_br_u8 (b : bej_br) : Option (Byte × bej_br) :=
  if b.p ≥ b.n then none else some (b.d b.p, { b with p := wrap64 (b.p + 1) })

/-- The C function `bej_br_seek`. -/
def bej_br_seek (b : bej_br) (pos : Nat) : Option bej_br :=
  if pos > b.n then none else some { b with p := pos }

/-- The C function `bej_br_left`: `(int)(n - p)`. -/
def bej_br_left (b : bej_br) : Int := to_int (sub64 b.n b.p)

/-- The accumulation loop of `bej_read_nnint`:
`for(i=0;i<N;i++) v |= (uint64_t)d[p+i] << (8*i)`. -/
def nnint_value (b : bej_br) (N : Nat) : Nat :=
  (List.range N).foldl (fun v i => v ||| shl64 (b.d (wrap64 (b.p + i))).val (8 * i)) 0

/-- The C function `bej_read_nnint`: length byte `N`, then `N` little-endian bytes. -/
def bej_read_nnint (b : bej_br) : Option (Nat × bej_br) :=
  match bej_br_u8 b with
  | none => none
  | some (N, b1) =>
    if wrap64 (b1.p + N.val) > b1.n then none
    else some (nnint_value b1 N.val, { b1 with p := wrap64 (b1.p + N.val) })

/-! ## Encoders of the tests -/

/-- The digit loop of the tests' `push_nnint`:
`while(val){ buf[N++] = val & 0xFF; val >>= 8; }`, at most 8 rounds for a 64-bit value. -/
def nnint_digits : Nat → Nat → List Byte
  | 0, _ => []
  | k + 1, val => if val = 0 then [] else Fin.ofNat (val % 256) :: nnint_digits k (val / 256)

/-- The tests' `push_nnint`: the bytes appended for `val`. -/
def push_nnint (val : Nat) : List Byte :=
  let buf := if val = 0 then [0] else nnint_digits 8 val
  Fin.ofNat buf.length :: buf

/-! ## bej_dict.c -/

/-- One dictionary record (`bej_dict_entry`). -/
structure bej_dict_entry where
  fmt : Byte
  seq : Nat
  child_off : Nat
  child_cnt : Nat
  name_len : Byte
  name_off : Nat
  deriving DecidableEq

instance : Inhabited bej_dict_entry := ⟨⟨0, 0, 0, 0, 0, 0⟩⟩

/-- The parsed dictionary (`bej_dict`); the field `n` of the C struct is the length of
`ent`. -/
structure bej_dict where
  ent : List bej_dict_entry
  entries_ofs : Nat
  names_ofs : Nat
  blob : Nat → Byte
  blob_n : Nat

/-- The entry count `D->n`. -/
def bej_dict.n (D : bej_dict) : Nat := D.ent.length

/-- A cluster descriptor (`bej_cluster`): `uint32_t start_idx`, `uint16_t count`. -/
structure bej_cluster where
  start_idx : Nat
  count : Nat
  deriving DecidableEq

/-- The body of the entry loop of `bej_dict_load`: the record in the 10 bytes at `p`. -/
def entry_at (d : Nat → Byte) (p : Nat) : bej_dict_entry :=
  { fmt := d p
    seq := le16 (d (p + 1)) (d (p + 2))
    child_off := le16 (d (p + 3)) (d (p + 4))
    child_cnt := le16 (d (p + 5)) (d (p + 6))
    name_len := d (p + 7)
    name_off := le16 (d (p + 8)) (d (p + 9)) }

/-- The entry loop of `bej_dict_load`: `k` records from offset `p`, 10 bytes apart
(`p += 10` each round); returns the records and the final `p`. -/
def load_entries (d : Nat → Byte) : Nat → Nat → List bej_dict_entry × Nat
  | 0, p => ([], p)
  | k + 1, p =>
    let r := load_entries d k (p + 10)
    (entry_at d p :: r.1, r.2)

/-- The C function `bej_dict_load` on a non-null blob; `calloc` is taken to return a
block (as glibc does, also for zero records). `none` is the return value 0. -/
def bej_dict_load (d : Nat → Byte) (n : Nat) : Option bej_dict :=
  if n < 12 then none
  else
    let entryCount := le16 (d 2) (d 3)
    let p := 12
    if n < wrap64 (p + entryCount * 10) then none
    else
      let r := load_entries d entryCount p
      some { ent := r.1
             entries_ofs := p
             names_ofs := r.2
             blob := d
             blob_n := n }

/-- The scan of `bej_dict_name_at`, `while(i < blob_n && blob[i]!=0) i++`, with the list
of blob indices it has read; `k` bounds the rounds. Returns the final `i`. -/
def name_scan (blob : Nat → Byte) (blob_n : Nat) : Nat → Nat → List Nat → Nat × List Nat
  | 0, i, reads => (i, reads)
  | k + 1, i, reads =>
    if i < blob_n then
      if blob i ≠ 0 then name_scan blob blob_n k (i + 1) (reads ++ [i])
      else (i, reads ++ [i])
    else (i, reads)

/-- The C function `bej_dict_name_at` with its read trace: the C string at `name_off`
(the bytes before the terminator the scan found) or `none` for NULL, and the blob
indices read. -/
def bej_dict_name_at_traced (D : bej_dict) (name_off : Nat) : Option (List Byte) × List Nat :=
  if name_off = 0 then (none, [])
  else if name_off ≥ D.blob_n then (none, [])
  else
    let r := name_scan D.blob D.blob_n (D.blob_n - name_off) name_off []
    if r.1 ≥ D.blob_n then (none, r.2)
    else (some ((List.range' name_off (r.1 - name_off)).map D.blob), r.2)

/-- The C function `bej_dict_name_at`. -/
def bej_dict_name_at (D : bej_dict) (name_off : Nat) : Option (List Byte) :=
  (bej_dict_name_at_traced D name_off).1

/-- The loop of `bej_cluster_lookup_seq`, `for(; i<end; ++i)`, with the list of entry
indices it has read; the first argument is `end - i`. -/
def lookup_loop (ent : List bej_dict_entry) (seq : Nat) :
    Nat → Nat → List Nat → Option Nat × List Nat
  | 0, _, reads => (none, reads)
  | k + 1, i, reads =>
    if (ent.getD i default).seq = seq then (some i, reads ++ [i])
    else lookup_loop ent seq k (i + 1) (reads ++ [i])

/-- The C function `bej_cluster_lookup_seq` with its read trace: the index of the entry
the returned pointer designates (`none` for NULL), and the entry indices read. -/
def bej_cluster_lookup_traced (D : bej_dict) (c : bej_cluster) (seq : Nat) :
    Option Nat × List Nat :=
  let i := c.start_idx
  let e := wrap32 (i + c.count)
  let e := if e > D.n then wrap32 D.n else e
  lookup_loop D.ent seq (e - i) i []

/-- The index form of `bej_cluster_lookup_seq`. -/
def bej_cluster_lookup_idx (D : bej_dict) (c : bej_cluster) (seq : Nat) : Option Nat :=
  (bej_cluster_lookup_traced D c seq).1

/-- The C function `bej_cluster_lookup_seq`: the entry found, `none` for NULL. -/
def bej_cluster_lookup_seq (D : bej_dict) (c : bej_cluster) (seq : Nat) :
    Option bej_dict_entry :=
  (bej_cluster_lookup_idx D c seq).map (fun i => D.ent.getD i default)

/-- The child cluster of an entry, as the decoder and the tests derive it:
`start_idx = (uint32_t)(((size_t)child_off - entries_ofs)/10)`, `count = child_cnt`. -/
def child_cluster (D : bej_dict) (e : bej_dict_entry) : bej_cluster :=
  { start_idx := wrap32 (sub64 e.child_off D.entries_ofs / 10), count := e.child_cnt }

/-! ## bej_json.c -/

/-- The writer `struct bej_jsonw`; `f` holds the bytes written to the `FILE*` so far. -/
structure bej_jsonw where
  f : List Byte
  ind : Int
  need_comma : Bool
  deriving DecidableEq

/-- The C function `fputs` / `fputc` on the writer's file. -/
def fputs (s : List Byte) (j : bej_jsonw) : bej_jsonw := { j with f := j.f ++ s }

/-- The C function `bej_jw_init`. -/
def bej_jw_init : bej_jsonw := ⟨[], 0, false⟩

/-- The indentation loop `for(int i=0;i<j->ind;i++) fputs("   ", j->f)`. -/
def indent (ind : Int) : List Byte := (List.replicate ind.toNat (ascii "   ")).flatten

/-- The C function `bej_jw_nl`. -/
def bej_jw_nl (j : bej_jsonw) : bej_jsonw := fputs (ascii "\n" ++ indent j.ind) j

/-- The C function `bej_jw_begin_obj`. -/
def bej_jw_begin_obj (j : bej_jsonw) : bej_jsonw :=
  bej_jw_nl { fputs (ascii "\x7b") j with ind := j.ind + 1, need_comma := false }

/-- The C function `bej_jw_end_obj`. -/
def bej_jw_end_obj (j : bej_jsonw) : bej_jsonw :=
  let j1 := bej_jw_nl j
  { fputs (ascii "\x7d") { j1 with ind := j1.ind - 1 } with need_comma := true }

/-- The C function `bej_jw_begin_arr`. -/
def bej_jw_begin_arr (j : bej_jsonw) : bej_jsonw :=
  { fputs (ascii "[") j with ind := j.ind + 1, need_comma := false }

/-- The C function `bej_jw_end_arr`. -/
def bej_jw_end_arr (j : bej_jsonw) : bej_jsonw :=
  { fputs (ascii "]") { j with ind := j.ind - 1 } with need_comma := true }

/-- The character loop of `bej_jw_key` over the C string at `k`: stops at the first
zero byte; escapes `"` and `\`. -/
def key_chars : List Byte → List Byte
  | [] => []
  | c :: cs =>
    if c = 0 then []
    else (if c = 34 ∨ c = 92 then [92, c] else [c]) ++ key_chars cs

/-- The character loop of `bej_jw_str` over the C string at `s`: stops at the first zero
byte; escapes `"`, `\` and newline. -/
def str_chars : List Byte → List Byte
  | [] => []
  | c :: cs =>
    if c = 0 then []
    else (if c = 34 ∨ c = 92 then [92, c] else if c = 10 then [92, 110] else [c])
      ++ str_chars cs

/-- The C function `bej_jw_key`. -/
def bej_jw_key (j : bej_jsonw) (k : List Byte) : bej_jsonw :=
  let j1 := if j.need_comma then fputs (ascii ",\n") j else { j with need_comma := true }
  fputs (indent j1.ind ++ [34] ++ key_chars k ++ ascii "\": ") j1

/-- The C function `bej_jw_str` on a non-null string. -/
def bej_jw_str (j : bej_jsonw) (s : List Byte) : bej_jsonw :=
  fputs ([34] ++ str_chars s ++ [34]) j

/-- Decimal digits of an unsigned value (`%u`). -/
def decimal (n : Nat) : List Byte := (Nat.toDigits 10 n).map (fun c => Fin.ofNat c.toNat)

/-- The C function `bej_jw_int`: `%lld`. -/
def bej_jw_int (j : bej_jsonw) (v : Int) : bej_jsonw :=
  fputs (if v < 0 then 45 :: decimal v.natAbs else decimal v.natAbs) j

/-! ## bej_decode.c -/

/-- How a call ends: it returns 1, it returns 0, the C program leaves defined behaviour
(a null pointer is read, a copy runs past the buffer), or the recursion bound of the
embedding is used up. -/
inductive Status where
  | ok
  | fail
  | fault
  | nofuel
  deriving DecidableEq

/-- The end of a decoder call: status, writer and cursor. When the status is not `ok`
the cursor is the one before the read that stopped the call. -/
structure Run where
  st : Status
  jw : bej_jsonw
  br : bej_br

/-- The end of `bej_br_get`: the `k` bytes copied and the advanced reader; return value
0; or a copy of `k` bytes that runs past the `n` bytes of the buffer. -/
inductive Get where
  | ok (bytes : List Byte) (b : bej_br)
  | fail
  | fault

/-- The C function `bej_br_get`: `if(p+k>n) return 0; memcpy(dst, d+p, k); p+=k;`, the
sum in `size_t`. -/
def bej_br_get (b : bej_br) (k : Nat) : Get :=
  if wrap64 (b.p + k) > b.n then Get.fail
  else if b.p + k > b.n then Get.fault
  else Get.ok ((List.range' b.p k).map b.d) { b with p := wrap64 (b.p + k) }

/-- The skip used for annotation, Null, unknown, Enum and array-element payloads:
`if(bej_br_left(br) < (int)L) return 0; br->p += (size_t)L;`. -/
def skip_payload (br : bej_br) (L : Nat) : Option bej_br :=
  if bej_br_left br < to_int L then none else some { br with p := wrap64 (br.p + L) }

/-- The loop of `decode_value_int`, `for(i=0;i<L;i++)`; the first argument is `L - i`.
`v` is the bit pattern of the `long long` accumulator. -/
def int_loop : Nat → Nat → Nat → bej_br → Option (Nat × bej_br)
  | 0, _, v, br => some (v, br)
  | k + 1, i, v, br =>
    match bej_br_u8 br with
    | none => none
    | some (b, br1) => int_loop k (i + 1) (v ||| shl64 b.val (wrap64 (8 * i))) br1

/-- The C function `decode_value_int`. -/
def decode_value_int (jw : bej_jsonw) (br : bej_br) (L : Nat) : Run :=
  match int_loop L 0 0 br with
  | none => ⟨Status.fail, jw, br⟩
  | some (v, br1) => ⟨Status.ok, bej_jw_int jw (to_i64 v), br1⟩

/-- The request `malloc(size)` returns a block: requests of `2^63` bytes or more
(above `PTRDIFF_MAX`) return NULL; running out of memory is not modelled. -/
def malloc_ok (size : Nat) : Bool := decide (size < 2 ^ 63)

/-- The loop `for(long i=(long)L-1; i>=0; --i){ if(s[i]==0) s[i]=0; else break; }` of
`decode_value_string`; the first argument is `i + 1`. -/
def strip_loop : Nat → List Byte → List Byte
  | 0, s => s
  | i + 1, s => if s.getD i 0 = 0 then strip_loop i (s.set i 0) else s

/-- The C function `decode_value_string`. -/
def decode_value_string (jw : bej_jsonw) (br : bej_br) (L : Nat) : Run :=
  if malloc_ok (wrap64 (L + 1)) then
    match bej_br_get br L with
    | Get.fail => ⟨Status.fail, jw, br⟩
    | Get.fault => ⟨Status.fault, jw, br⟩
    | Get.ok bytes br1 =>
      let s := strip_loop L (bytes ++ [0])
      ⟨Status.ok, bej_jw_str jw s, br1⟩
  else ⟨Status.fail, jw, br⟩

/-- Name resolution of a Set member:
`name = (de && de->name_off)? bej_dict_name_at(D, de->name_off): NULL;`
`if(!name){ snprintf(tmp,sizeof(tmp),"seq_%u",(unsigned)seq); name = tmp; }`. -/
def member_name (D : bej_dict) (de : Option bej_dict_entry) (seq : Nat) : List Byte :=
  let name : Option (List Byte) :=
    match de with
    | some e => if e.name_off ≠ 0 then bej_dict_name_at D e.name_off else none
    | none => none
  match name with
  | some s => s
  | none => ascii "seq_" ++ decimal seq

/-- The cluster a nested Set is decoded against: `(0,0)` unless `de && de->child_off`. -/
def descent_cluster (D : bej_dict) (de : Option bej_dict_entry) : bej_cluster :=
  match de with
  | some e => if e.child_off ≠ 0 then child_cluster D e else ⟨0, 0⟩
  | none => ⟨0, 0⟩

/-- The option name of an Enum value: `"EnumOption"` unless the member's entry has a
child cluster holding the ordinal with a non-zero name offset; then whatever
`bej_dict_name_at` returns, `none` (NULL) included. -/
def enum_optname (D : bej_dict) (de : Option bej_dict_entry) (opt_idx : Nat) :
    Option (List Byte) :=
  match de with
  | some e =>
    if e.child_off ≠ 0 ∧ e.child_cnt ≠ 0 then
      match bej_cluster_lookup_seq D (child_cluster D e) (wrap16 opt_idx) with
      | some opt => if opt.name_off ≠ 0 then bej_dict_name_at D opt.name_off
                    else some (ascii "EnumOption")
      | none => some (ascii "EnumOption")
    else some (ascii "EnumOption")
  | none => some (ascii "EnumOption")

/-- The element loop of the Array branch, `for(k=0;k<cnt;k++)`; the first argument is
`cnt - k`. -/
def decode_array_elems : Nat → Nat → bej_jsonw → bej_br → Run
  | 0, _, jw, br => ⟨Status.ok, jw, br⟩
  | rem + 1, k, jw, br =>
    match bej_read_nnint br with
    | none => ⟨Status.fail, jw, br⟩
    | some (_, br1) =>
      match bej_br_u8 br1 with
      | none => ⟨Status.fail, jw, br1⟩
      | some (Fe, br2) =>
        let fmt_e := Fe.val >>> 4
        match bej_read_nnint br2 with
        | none => ⟨Status.fail, jw, br2⟩
        | some (Le, br3) =>
          let jw1 := if k > 0 then fputs (ascii ", ") jw else jw
          let r : Run :=
            if fmt_e = 3 then decode_value_int jw1 br3 Le
            else if fmt_e = 5 then decode_value_string jw1 br3 Le
            else
              match skip_payload br3 Le with
              | none => ⟨Status.fail, jw1, br3⟩
              | some br4 => ⟨Status.ok, fputs (ascii "null") jw1, br4⟩
          match r.st with
          | Status.ok => decode_array_elems rem (wrap64 (k + 1)) r.jw r.br
          | _ => r

/-- The dispatch on `fmt` in the member loop of `decode_value_set`, after the key has
been written; `descend` is the recursive call of `decode_value_set`. -/
def decode_member_value (descend : bej_jsonw → bej_br → bej_cluster → Run) (D : bej_dict)
    (de : Option bej_dict_entry) (fmt L : Nat) (jw : bej_jsonw) (br : bej_br) : Run :=
  if fmt = 3 then decode_value_int jw br L
  else if fmt = 5 then decode_value_string jw br L
  else if fmt = 0 then descend jw br (descent_cluster D de)
  else if fmt = 1 then
    match bej_read_nnint br with
    | none => ⟨Status.fail, jw, br⟩
    | some (cnt, br1) =>
      let r := decode_array_elems cnt 0 (bej_jw_begin_arr jw) br1
      match r.st with
      | Status.ok => ⟨Status.ok, bej_jw_end_arr r.jw, r.br⟩
      | _ => r
  else if fmt = 4 then
    match bej_read_nnint br with
    | none => ⟨Status.fail, jw, br⟩
    | some (opt_idx, _) =>
      match skip_payload br L with
      | none => ⟨Status.fail, jw, br⟩
      | some br1 =>
        match enum_optname D de opt_idx with
        | none => ⟨Status.fault, jw, br1⟩
        | some optname => ⟨Status.ok, bej_jw_str jw optname, br1⟩
  else
    match skip_payload br L with
    | none => ⟨Status.fail, jw, br⟩
    | some br1 => ⟨Status.ok, fputs (ascii "null") jw, br1⟩

/-- The tuple header read at the start of each round: sequence nnint `S`, format byte
`F`, length nnint `L`. -/
def read_header (br : bej_br) : Option (Nat × Byte × Nat × bej_br) :=
  match bej_read_nnint br with
  | none => none
  | some (S, br1) =>
    match bej_br_u8 br1 with
    | none => none
    | some (F, br2) =>
      match bej_read_nnint br2 with
      | none => none
      | some (L, br3) => some (S, F, L, br3)

/-- One round of the member loop of `decode_value_set`. -/
def decode_member (descend : bej_jsonw → bej_br → bej_cluster → Run) (D : bej_dict)
    (c : bej_cluster) (jw : bej_jsonw) (br : bej_br) : Run :=
  match read_header br with
  | none => ⟨Status.fail, jw, br⟩
  | some (S, F, L, br3) =>
    let is_annotation := S &&& 1 ≠ 0
    let seq := wrap16 (S >>> 1)
    let fmt := F.val >>> 4
    if is_annotation then
      match skip_payload br3 L with
      | none => ⟨Status.fail, jw, br3⟩
      | some br4 => ⟨Status.ok, jw, br4⟩
    else
      let de := bej_cluster_lookup_seq D c seq
      let name := member_name D de seq
      decode_member_value descend D de fmt L (bej_jw_key jw name) br3

/-- The member loop of `decode_value_set`, `for(i=0;i<count;i++)`; the first argument
is `count - i`. -/
def decode_members (descend : bej_jsonw → bej_br → bej_cluster → Run) (D : bej_dict)
    (c : bej_cluster) : Nat → bej_jsonw → bej_br → Run
  | 0, jw, br => ⟨Status.ok, jw, br⟩
  | rem + 1, jw, br =>
    let r := decode_member descend D c jw br
    match r.st with
    | Status.ok => decode_members descend D c rem r.jw r.br
    | _ => r

/-- The C function `decode_value_set`; the first argument bounds the depth of the
recursion, and a call that needs more ends with `Status.nofuel`. -/
def decode_value_set : Nat → bej_jsonw → bej_br → bej_dict → bej_cluster → Run
  | 0, jw, br, _, _ => ⟨Status.nofuel, jw, br⟩
  | fuel + 1, jw, br, D, this_cluster =>
    match bej_read_nnint br with
    | none => ⟨Status.fail, jw, br⟩
    | some (count, br1) =>
      let r := decode_members (fun jw br c => decode_value_set fuel jw br D c) D
        this_cluster count (bej_jw_begin_obj jw) br1
      match r.st with
      | Status.ok => ⟨Status.ok, bej_jw_end_obj r.jw, r.br⟩
      | _ => r

/-- The root cluster: `(0,0)` unless `D->n>0 && D->ent[0].child_off`. -/
def root_cluster (D : bej_dict) : bej_cluster :=
  if D.n > 0 ∧ (D.ent.getD 0 default).child_off ≠ 0 then child_cluster D (D.ent.getD 0 default)
  else ⟨0, 0⟩

/-- The C function `bej_decode_to_json` on non-null arguments, with recursion bound `fuel`. -/
def bej_decode_to_json (fuel : Nat) (bej : Nat → Byte) (bej_n : Nat) (D : bej_dict) : Run :=
  let br := bej_br_init bej bej_n
  let jw := bej_jw_init
  if bej_br_left br < 7 then ⟨Status.fail, jw, br⟩
  else
    let br := { br with p := wrap64 (br.p + 4) }
    let br := { br with p := wrap64 (br.p + 2) }
    match bej_br_u8 br with
    | none => ⟨Status.fail, jw, br⟩
    | some (_, br1) =>
      let rootc := root_cluster D
      match read_header br1 with
      | none => ⟨Status.fail, jw, br1⟩
      | some (_, F, _, br2) =>
        let fmt := F.val >>> 4
        if fmt ≠ 0 then ⟨Status.fail, jw, br2⟩
        else
          let r := decode_value_set fuel jw br2 D rootc
          match r.st with
          | Status.ok => ⟨Status.ok, fputs (ascii "\n") r.jw, r.br⟩
          | _ => r

/-! ## Specification-side definitions

These follow the wording of the specification, not the source; the theorems compare
them with the embedding of the code. -/

/-- The escaping the specification gives for keys and string values: `"` becomes `\"`,
`\` becomes `\\`, a newline byte becomes the two characters `\n`, every other byte is
copied unchanged. -/
def json_escape (s : List Byte) : List Byte :=
  s.flatMap (fun c =>
    if c = 34 then [92, 34] else if c = 92 then [92, 92] else if c = 10 then [92, 110]
    else [c])

/-- A byte string with all of its trailing zero bytes removed and nothing else removed. -/
def strip_trailing_zeros (s : List Byte) : List Byte :=
  (s.reverse.dropWhile (fun c => decide (c = 0))).reverse

/-! ## Fixtures -/

/-- The tests' `push_u8`. -/
def push_u8 (v : List Byte) (x : Byte) : List Byte := v ++ [x]

/-- The tests' `push_u16le`. -/
def push_u16le (v : List Byte) (x : Nat) : List Byte :=
  v ++ [Fin.ofNat (x &&& 0xFF), Fin.ofNat ((x >>> 8) &&& 0xFF)]

/-- The tests' `push_u32le`. -/
def push_u32le (v : List Byte) (x : Nat) : List Byte :=
  v ++ [Fin.ofNat (x &&& 0xFF), Fin.ofNat ((x >>> 8) &&& 0xFF),
        Fin.ofNat ((x >>> 16) &&& 0xFF), Fin.ofNat ((x >>> 24) &&& 0xFF)]

/-- The tests' `push_cstr`: the characters of `s` and a terminator. -/
def push_cstr (v : List Byte) (s : List Byte) : List Byte := v ++ s ++ [0]

/-- The tests' `set_entry`: the 10 bytes of record `idx` written in place. -/
def set_entry (dict : List Byte) (entries_ofs idx : Nat) (fmt : Byte)
    (seq child_off child_cnt : Nat) (name_len : Byte) (name_off : Nat) : List Byte :=
  let p := entries_ofs + idx * 10
  let dict := dict.set (p + 0) fmt
  let dict := dict.set (p + 1) (Fin.ofNat (seq &&& 0xFF))
  let dict := dict.set (p + 2) (Fin.ofNat ((seq >>> 8) &&& 0xFF))
  let dict := dict.set (p + 3) (Fin.ofNat (child_off &&& 0xFF))
  let dict := dict.set (p + 4) (Fin.ofNat ((child_off >>> 8) &&& 0xFF))
  let dict := dict.set (p + 5) (Fin.ofNat (child_cnt &&& 0xFF))
  let dict := dict.set (p + 6) (Fin.ofNat ((child_cnt >>> 8) &&& 0xFF))
  let dict := dict.set (p + 7) name_len
  let dict := dict.set (p + 8) (Fin.ofNat (name_off &&& 0xFF))
  dict.set (p + 9) (Fin.ofNat ((name_off >>> 8) &&& 0xFF))

/-- The dictionary blob of `TEST(Min, DictLoadAndLookup)` / `test_dict_load_lookup`:
a root with one child, sequence number 1, named `Foo`. -/
def test_dict : List Byte :=
  let dict := push_u8 [] 0x01
  let dict := push_u8 dict 0x00
  let dict := push_u16le dict 2
  let dict := push_u32le dict 0
  let dict := push_u32le dict 0
  let entries_ofs := dict.length
  let dict := dict ++ List.replicate 20 0
  let off_root := dict.length
  let dict := push_cstr dict (ascii "Root")
  let off_foo := dict.length
  let dict := push_cstr dict (ascii "Foo")
  let child_off_root := entries_ofs + 10
  let dict := set_entry dict entries_ofs 0 0x00 0 child_off_root 1 5 off_root
  set_entry dict entries_ofs 1 0x33 1 0 0 4 off_foo

/-- The dictionary `bej_dict_load` builds from `test_dict`. -/
def D_test : bej_dict :=
  { ent := [⟨0x00, 0, 22, 1, 5, 32⟩, ⟨0x33, 1, 0, 0, 4, 37⟩]
    entries_ofs := 12
    names_ofs := 32
    blob := mem_of test_dict
    blob_n := 41 }

/-- A dictionary without entries. -/
def D_empty : bej_dict :=
  { ent := []
    entries_ofs := 12
    names_ofs := 12
    blob := mem_of [1, 0, 0, 0, 0, 0, 0, 0, 0, 0, 0, 0]
    blob_n := 12 }

/-- The stream of scenario S6: one Integer member with sequence number 99, value 3. -/
def bej_S6 : List Byte :=
  [0, 0, 0, 0, 0, 0, 0, 1, 0, 0x00, 1, 7, 1, 1, 1, 198, 0x30, 1, 1, 3]

/-- A stream whose Set holds one annotation tuple declaring `L = 2^32 - 1` with no
payload byte behind it. -/
def bej_skip_forward : List Byte :=
  [0, 0, 0, 0, 0, 0, 0, 1, 0, 0x00, 1, 9, 1, 1, 1, 1, 0x00, 4, 255, 255, 255, 255]

/-- A stream whose Set holds one annotation tuple declaring `L = 2^64 - 1` with no
payload byte behind it. -/
def bej_skip_backward : List Byte :=
  [0, 0, 0, 0, 0, 0, 0, 1, 0, 0x00, 1, 9, 1, 1, 1, 1, 0x00,
   8, 255, 255, 255, 255, 255, 255, 255, 255]

/-- A Set payload: count 1, one Null member with sequence number 0 and `L = 0`. -/
def set_plain : List Byte := [1, 1, 0, 0x20, 0]

/-- The payload `set_plain` with an annotation tuple inserted before its member and the
count raised to 2: the annotation has `S = 1`, format byte 0, `L = 2^31 - 1` and
`2^31 - 1` zero payload bytes (indices 10 to `2^31 + 8`); the member of `set_plain`
follows at indices `2^31 + 9` to `2^31 + 11`. The buffer has `2^31 + 12` bytes. -/
def set_annotated : Nat → Byte := fun i =>
  if i = 2 ^ 31 + 10 then 0x20 else mem_of [1, 2, 1, 1, 0x00, 4, 255, 255, 255, 127] i

/-- A 23-byte stream with second header byte `h1`: the Set holds two members, the first
a Null tuple declaring `L = 2^64 - 23`. -/
def bej_header_reread (h1 : Byte) : List Byte :=
  [0, h1, 0, 0, 0, 0, 0, 0, 0x00, 0, 1, 2, 0, 0x20,
   8, 0xE9, 255, 255, 255, 255, 255, 255, 255]

/-- The dictionary blob of scenario S2: root, its child `N` (a Set) and the child `X`
(an Integer) of `N`; three records, names pool at offset 42. -/
def dict_S2 : List Byte :=
  [1, 0, 3, 0, 0, 0, 0, 0, 0, 0, 0, 0,
   0x00, 0, 0, 22, 0, 1, 0, 5, 42, 0,
   0x00, 0, 0, 32, 0, 1, 0, 2, 47, 0,
   0x30, 0, 0, 0, 0, 0, 0, 2, 49, 0]
  ++ ascii "Root" ++ [0] ++ ascii "N" ++ [0] ++ ascii "X" ++ [0]

/-- The dictionary `bej_dict_load` builds from `dict_S2`. -/
def D_S2 : bej_dict :=
  { ent := [⟨0x00, 0, 22, 1, 5, 42⟩, ⟨0x00, 0, 32, 1, 2, 47⟩, ⟨0x30, 0, 0, 0, 2, 49⟩]
    entries_ofs := 12
    names_ofs := 42
    blob := mem_of dict_S2
    blob_n := 51 }

/-- The stream of scenario S2: a Set member (sequence number 0) holding one Integer
member (sequence number 0) of value 7. -/
def bej_S2 : List Byte :=
  [0, 0, 0, 0, 0, 0, 0, 1, 0, 0x00, 1, 12, 1, 1,
   1, 0, 0x00, 1, 7, 1, 1, 1, 0, 0x30, 1, 1, 7]

/-- The dictionary blob of scenario S4: root, its child `State` (an Enum) and the options
`Off` (sequence number 0) and `On` (sequence number 1); names pool at offset 52. -/
def dict_S4 : List Byte :=
  [1, 0, 4, 0, 0, 0, 0, 0, 0, 0, 0, 0,
   0x00, 0, 0, 22, 0, 1, 0, 5, 52, 0,
   0x40, 0, 0, 32, 0, 2, 0, 6, 57, 0,
   0x00, 0, 0, 0, 0, 0, 0, 4, 63, 0,
   0x00, 1, 0, 0, 0, 0, 0, 3, 67, 0]
  ++ ascii "Root" ++ [0] ++ ascii "State" ++ [0] ++ ascii "Off" ++ [0] ++ ascii "On" ++ [0]

/-- The dictionary `bej_dict_load` builds from `dict_S4`. -/
def D_S4 : bej_dict :=
  { ent := [⟨0x00, 0, 22, 1, 5, 52⟩, ⟨0x40, 0, 32, 2, 6, 57⟩, ⟨0x00, 0, 0, 0, 4, 63⟩,
            ⟨0x00, 1, 0, 0, 3, 67⟩]
    entries_ofs := 12
    names_ofs := 52
    blob := mem_of dict_S4
    blob_n := 70 }

/-- A dictionary blob whose Enum `State` has two options with sequence number 1: the
first without a name (`name_off = 0`), the second named `On`. -/
def dict_enum_dup : List Byte :=
  [1, 0, 4, 0, 0, 0, 0, 0, 0, 0, 0, 0,
   0x00, 0, 0, 22, 0, 1, 0, 5, 52, 0,
   0x40, 0, 0, 32, 0, 2, 0, 6, 57, 0,
   0x00, 1, 0, 0, 0, 0, 0, 0, 0, 0,
   0x00, 1, 0, 0, 0, 0, 0, 3, 63, 0]
  ++ ascii "Root" ++ [0] ++ ascii "State" ++ [0] ++ ascii "On" ++ [0]

/-- The dictionary `bej_dict_load` builds from `dict_enum_dup`. -/
def D_enum_dup : bej_dict :=
  { ent := [⟨0x00, 0, 22, 1, 5, 52⟩, ⟨0x40, 0, 32, 2, 6, 57⟩, ⟨0x00, 1, 0, 0, 0, 0⟩,
            ⟨0x00, 1, 0, 0, 3, 63⟩]
    entries_ofs := 12
    names_ofs := 52
    blob := mem_of dict_enum_dup
    blob_n := 66 }

/-- A dictionary blob whose Enum `State` has one option, sequence number 1, with the
name offset 200 in a blob of 53 bytes. -/
def dict_enum_bad : List Byte :=
  [1, 0, 3, 0, 0, 0, 0, 0, 0, 0, 0, 0,
   0x00, 0, 0, 22, 0, 1, 0, 5, 42, 0,
   0x40, 0, 0, 32, 0, 1, 0, 6, 47, 0,
   0x00, 1, 0, 0, 0, 0, 0, 3, 200, 0]
  ++ ascii "Root" ++ [0] ++ ascii "State" ++ [0]

/-- The dictionary `bej_dict_load` builds from `dict_enum_bad`. -/
def D_enum_bad : bej_dict :=
  { ent := [⟨0x00, 0, 22, 1, 5, 42⟩, ⟨0x40, 0, 32, 1, 6, 47⟩, ⟨0x00, 1, 0, 0, 3, 200⟩]
    entries_ofs := 12
    names_ofs := 42
    blob := mem_of dict_enum_bad
    blob_n := 53 }

/-- The stream of scenario S4: one Enum member, sequence number 0, `L = 2`, whose
payload is the nnint 1. -/
def bej_S4 : List Byte :=
  [0, 0, 0, 0, 0, 0, 0, 1, 0, 0x00, 1, 7, 1, 1, 1, 0, 0x40, 1, 2, 1, 1]

/-- A stream of `2^32 + 8` bytes: top-level Set with two members, a Null member
(sequence number 0, `L = 0`) and a String member (sequence number 1, `L = 2^32 - 15`)
whose payload bytes, all present, are zero. -/
def bej_large_null : Nat → Byte :=
  mem_of [0, 0, 0, 0, 0, 0, 0, 0, 0x00, 0, 1, 2, 0, 0x20, 0,
          1, 2, 0x50, 4, 0xF1, 0xFF, 0xFF, 0xFF]

/-- The 24-byte counterpart of `bej_large_null`: the String member has `L = 1` and the
payload `a`. -/
def bej_small_null : List Byte :=
  [0, 0, 0, 0, 0, 0, 0, 0, 0x00, 0, 1, 2, 0, 0x20, 0, 1, 2, 0x50, 4, 1, 0, 0, 0, 0x61]

/-- A stream of `2^32 + 8` bytes: top-level Set with two members, an Array member
(sequence number 0) holding one Null element with `Le = 0`, and a String member
(sequence number 1, `L = 2^32 - 21`) whose payload bytes, all present, are zero. -/
def bej_large_array : Nat → Byte :=
  mem_of [0, 0, 0, 0, 0, 0, 0, 0, 0x00, 0, 1, 2, 0, 0x10, 1, 5, 1, 1, 0, 0x20, 0,
          1, 2, 0x50, 4, 0xEB, 0xFF, 0xFF, 0xFF]

/-- The 30-byte counterpart of `bej_large_array`: the String member has `L = 1` and the
payload `a`. -/
def bej_small_array : List Byte :=
  [0, 0, 0, 0, 0, 0, 0, 0, 0x00, 0, 1, 2, 0, 0x10, 1, 5, 1, 1, 0, 0x20, 0,
   1, 2, 0x50, 4, 1, 0, 0, 0, 0x61]

/-- The outcome of a `bej_br_get` call as a status. -/
def Get.st : Get → Status
  | Get.ok _ _ => Status.ok
  | Get.fail => Status.fail
  | Get.fault => Status.fault

/-- A 23-byte stream whose Set holds one String member declaring `L = 2^64 - 1`. -/
def bej_string_wrap : List Byte :=
  [0, 0, 0, 0, 0, 0, 0, 0, 0x00, 0, 1, 1, 0, 0x50,
   8, 255, 255, 255, 255, 255, 255, 255, 255]

/-- The stream of scenario S6 with the sequence field `131270 = 2 * (65536 + 99)` in place of
`2 * 99`. -/
def bej_S6_high : List Byte :=
  [0, 0, 0, 0, 0, 0, 0, 1, 0, 0x00, 1, 9, 1, 1, 3, 0xC6, 0x00, 0x02, 0x30, 1, 1, 3]

/-- A 23-byte stream: top-level Set tuple at offset 7 (`S`, `F`, `L` one byte each),
count 2 at offset 10, then a Null member declaring `L = 2^64 - 16`, whose header ends at
the end of the stream. -/
def bej_reenter : List Byte :=
  [0, 0, 0, 0, 0, 0, 0, 0, 0x00, 0, 1, 2, 0, 0x20,
   8, 0xF0, 255, 255, 255, 255, 255, 255, 255]

/-- The stream of scenario S6 with the top-level length field 99 in place of 7 and two
extra bytes `AA BB` after the member list. -/
def bej_trailing : List Byte :=
  [0, 0, 0, 0, 0, 0, 0, 1, 0, 0x00, 1, 99, 1, 1, 1, 198, 0x30, 1, 1, 3, 0xAA, 0xBB]

/-- A 16-byte stream whose Set holds one Set member declaring `L = 0` followed by a
one-byte member list (count 0). -/
def bej_set_len : List Byte :=
  [0, 0, 0, 0, 0, 0, 0, 0, 0x00, 0, 1, 1, 0, 0x00, 0, 0]

/-- The member list of a Set that holds `k` Set tuples nested in one another: count 1 and
a Set member header (`S = 0`, `F = 0x00`, `L = 0`) at each level, count 0 innermost. -/
def nested_set_payload : Nat → List Byte
  | 0 => [0]
  | k + 1 => [1, 1, 0, 0x00, 0] ++ nested_set_payload k

/-- A stream of `5 * k + 11` bytes whose top-level Set holds `k` Set tuples nested in one
another, `k + 1` levels of Sets in all. -/
def bej_nested (k : Nat) : List Byte :=
  [0, 0, 0, 0, 0, 0, 0, 0, 0x00, 0] ++ nested_set_payload k

/-! ## Document trees

The shape of a well-formed output document, following the specification: one object,
whose members are keys each followed by exactly one value; a value is an integer, a
string, null, an array or a nested object. The rendering is the layout of the writer
(`bej_json.c`) for such a tree. -/

/-- An integer, string or null value of the document. -/
inductive JScalar where
  | int (v : Int)
  | str (s : List Byte)
  | null

mutual
/-- A value of the document: a scalar, a flat array of scalars, or an object. -/
inductive JVal where
  | scalar (s : JScalar)
  | arr (es : List JScalar)
  | obj (ms : JMembers)
/-- The members of an object in order: key and value, then the remaining members. -/
inductive JMembers where
  | nil
  | cons (key : List Byte) (v : JVal) (rest : JMembers)
end

/-- The text of a scalar: `%lld`, or the quoted string, or `null`. -/
def render_scalar : JScalar → List Byte
  | JScalar.int v => if v < 0 then 45 :: decimal v.natAbs else decimal v.natAbs
  | JScalar.str s => [34] ++ str_chars s ++ [34]
  | JScalar.null => ascii "null"

/-- The elements of an array, separated by one `, `; the flag tells whether the next
element is the first. -/
def render_elems : Bool → List JScalar → List Byte
  | _, [] => []
  | first, e :: es =>
    (if first then [] else ascii ", ") ++ render_scalar e ++ render_elems false es

mutual
/-- The text of a value written at indentation level `ind`. -/
def render_value (ind : Int) : JVal → List Byte
  | JVal.scalar s => render_scalar s
  | JVal.arr es => ascii "[" ++ render_elems true es ++ ascii "]"
  | JVal.obj ms =>
    ascii "\x7b" ++ (ascii "\n" ++ indent (ind + 1)) ++ render_members (ind + 1) false ms
      ++ (ascii "\n" ++ indent (ind + 1)) ++ ascii "\x7d"
/-- The text of the members of an object at indentation level `ind`; the flag tells
whether a member was written before, in which case one `,` and a newline come first. -/
def render_members (ind : Int) (comma : Bool) : JMembers → List Byte
  | JMembers.nil => []
  | JMembers.cons key v rest =>
    (if comma then ascii ",\n" else []) ++ indent ind ++ [34] ++ key_chars key
      ++ ascii "\": " ++ render_value ind v ++ render_members ind true rest
end

/-- An element tuple of an Array: an Integer (payload bit pattern), a String (payload
bytes), or a tuple of any other format, Set included, whose payload is passed over. -/
inductive TElem where
  | int (v : Nat)
  | str (s : List Byte)
  | other (fmt : Nat)

mutual
/-- The payload of a member tuple by format: the member tuples of a Set, the element
tuples of an Array, an Integer (bit pattern), a String (payload bytes), an Enum
(ordinal), or a payload that is passed over. -/
inductive TVal where
  | set (ms : TMembers)
  | array (es : List TElem)
  | int (v : Nat)
  | str (s : List Byte)
  | enum (k : Nat)
  | other (fmt : Nat)
/-- The member tuples of a Set in stream order, each with its sequence field `S`. -/
inductive TMembers where
  | nil
  | cons (S : Nat) (v : TVal) (rest : TMembers)
end

/-- The scalar an element tuple stands for: Integer and String elements are
interpreted, every other element is `null`. -/
def json_elem : TElem → JScalar
  | TElem.int v => JScalar.int (to_i64 v)
  | TElem.str s => JScalar.str (s ++ [0])
  | TElem.other _ => JScalar.null

mutual
/-- The document value of a member tuple whose dictionary entry is `de`: a Set is an
object of its members, named in the child cluster of `de`; an Array is the array of its
elements; an Enum is the name of its option. -/
def json_value (D : bej_dict) (de : Option bej_dict_entry) : TVal → JVal
  | TVal.set ms => JVal.obj (json_members D (descent_cluster D de) ms)
  | TVal.array es => JVal.arr (es.map json_elem)
  | TVal.int v => JVal.scalar (JScalar.int (to_i64 v))
  | TVal.str s => JVal.scalar (JScalar.str (s ++ [0]))
  | TVal.enum k => JVal.scalar (JScalar.str ((enum_optname D de k).getD []))
  | TVal.other _ => JVal.scalar JScalar.null
/-- The document members of the member tuples of a Set decoded against cluster `c`:
annotation tuples are dropped, every other tuple gives one member, named by its
sequence number `(S / 2) mod 65536` in `c`. -/
def json_members (D : bej_dict) (c : bej_cluster) : TMembers → JMembers
  | TMembers.nil => JMembers.nil
  | TMembers.cons S v rest =>
    if S % 2 = 0 then
      JMembers.cons
        (member_name D (bej_cluster_lookup_seq D c (S / 2 % 65536)) (S / 2 % 65536))
        (json_value D (bej_cluster_lookup_seq D c (S / 2 % 65536)) v)
        (json_members D c rest)
    else json_members D c rest
end

/-! # Theorems -/

/-! ## Name resolution of Set members (C1) -/

theorem and_one_eq_mod (S : Nat) : S &&& 1 = S % 2 := Nat.and_one_is_mod S

/-- C1: for a non-annotation member tuple (header `S`, `F`, `L`, with `S` even and
`n = S / 2 <= 65535`) of a Set decoded against cluster `c`: when the lookup of `n` in `c`
returns an entry with a non-zero name offset that `bej_dict_name_at` resolves, the key
handed to the writer is that name; on a lookup miss, a zero name offset or an
unresolvable offset the key is `seq_` followed by the decimal digits of `n`; in both
cases the member goes on to the decoding of its value, as without the miss. -/
theorem member_key_resolution (descend : bej_jsonw → bej_br → bej_cluster → Run)
    (D : bej_dict) (c : bej_cluster) (jw : bej_jsonw) (br br3 : bej_br) (S L : Nat) (F : Byte)
    (hdr : read_header br = some (S, F, L, br3)) (hS : S % 2 = 0) (hn : S / 2 ≤ 65535) :
    (∀ e name, bej_cluster_lookup_seq D c (S / 2) = some e → e.name_off ≠ 0 →
        bej_dict_name_at D e.name_off = some name →
        decode_member descend D c jw br =
          decode_member_value descend D (some e) (F.val >>> 4) L (bej_jw_key jw name) br3) ∧
    ((bej_cluster_lookup_seq D c (S / 2) = none ∨
        ∃ e, bej_cluster_lookup_seq D c (S / 2) = some e ∧
          (e.name_off = 0 ∨ bej_dict_name_at D e.name_off = none)) →
        decode_member descend D c jw br =
          decode_member_value descend D (bej_cluster_lookup_seq D c (S / 2)) (F.val >>> 4) L
            (bej_jw_key jw (ascii "seq_" ++ decimal (S / 2))) br3) := by
  have hseq : wrap16 (S >>> 1) = S / 2 := by
    rw [Nat.shiftRight_eq_div_pow]
    simp only [wrap16, pow_one]
    omega
  have hann : ¬ (S &&& 1 ≠ 0) := by
    rw [and_one_eq_mod]; omega
  constructor
  · intro e name he hoff hname
    simp only [decode_member, hdr, hann, if_false, hseq, he, member_name, hoff, ne_eq,
      not_false_eq_true, if_true, hname]
  · intro h
    rcases h with h | ⟨e, he, h⟩
    · simp only [decode_member, hdr, hann, if_false, hseq, h, member_name]
    · rcases h with h | h
      · simp only [decode_member, hdr, hann, if_false, hseq, he, member_name, h, ne_eq,
          not_true_eq_false]
      · by_cases hoff : e.name_off = 0
        · simp only [decode_member, hdr, hann, if_false, hseq, he, member_name, hoff, ne_eq,
            not_true_eq_false]
        · simp only [decode_member, hdr, hann, if_false, hseq, he, member_name, hoff, ne_eq,
            not_false_eq_true, if_true, h]

theorem member_key_resolution_witness :
    (bej_cluster_lookup_seq D_test ⟨1, 1⟩ (198 / 2) = none ∨
        ∃ e, bej_cluster_lookup_seq D_test ⟨1, 1⟩ (198 / 2) = some e ∧
          (e.name_off = 0 ∨ bej_dict_name_at D_test e.name_off = none)) ∧
    decode_member (fun jw br _ => ⟨Status.fail, jw, br⟩) D_test ⟨1, 1⟩ bej_jw_init
        ⟨mem_of bej_S6, 20, 14⟩ =
      decode_member_value (fun jw br _ => ⟨Status.fail, jw, br⟩) D_test
        (bej_cluster_lookup_seq D_test ⟨1, 1⟩ (198 / 2)) ((0x30 : Byte).val >>> 4) 1
        (bej_jw_key bej_jw_init (ascii "seq_" ++ decimal (198 / 2))) ⟨mem_of bej_S6, 20, 19⟩ :=
  ⟨Or.inl (by decide),
   (member_key_resolution (fun jw br _ => ⟨Status.fail, jw, br⟩) D_test ⟨1, 1⟩ bej_jw_init
      ⟨mem_of bej_S6, 20, 14⟩ ⟨mem_of bej_S6, 20, 19⟩ 198 1 0x30 (by rfl) (by decide)
      (by decide)).2 (Or.inl (by decide))⟩

/-! ## The nnint reader (C2, C3) -/

theorem shl64_byte (x : Byte) (N : Nat) (hN : N < 8) : shl64 x.val (8 * N) = 2 ^ (8 * N) * x.val := by
  have hx := x.isLt
  have h1 : 8 * N % 64 = 8 * N := Nat.mod_eq_of_lt (by omega)
  have h2 : (2:Nat) ^ (8 * N) ≤ 2 ^ 56 := Nat.pow_le_pow_right (by norm_num) (by omega)
  have h3 : x.val * 2 ^ (8 * N) < 2 ^ 64 := by
    calc x.val * 2 ^ (8 * N) ≤ 255 * 2 ^ 56 := Nat.mul_le_mul (by omega) h2
      _ < 2 ^ 64 := by norm_num
  rw [shl64, h1, Nat.shiftLeft_eq, Nat.mod_eq_of_lt h3, Nat.mul_comm]

theorem nnint_value_succ (b : bej_br) (N : Nat) :
    nnint_value b (N + 1) =
      nnint_value b N ||| shl64 (b.d (wrap64 (b.p + N))).val (8 * N) := by
  simp [nnint_value, List.range_succ, List.foldl_append]

theorem nnint_value_sum (b : bej_br) (hp : b.p + 8 < 2 ^ 64) (N : Nat) (hN : N ≤ 8) :
    nnint_value b N = ∑ i ∈ Finset.range N, (b.d (b.p + i)).val * 256 ^ i ∧
      nnint_value b N < 2 ^ (8 * N) := by
  induction N with
  | zero => simp [nnint_value]
  | succ N ih =>
    obtain ⟨ihv, ihlt⟩ := ih (by omega)
    have hw : wrap64 (b.p + N) = b.p + N := Nat.mod_eq_of_lt (by omega)
    have hx := (b.d (b.p + N)).isLt
    have hor : nnint_value b N ||| shl64 (b.d (b.p + N)).val (8 * N)
        = 2 ^ (8 * N) * (b.d (b.p + N)).val + nnint_value b N := by
      rw [shl64_byte _ _ (by omega), Nat.or_comm]
      exact (Nat.mul_add_lt_is_or ihlt _).symm
    have hpow : (256 : Nat) ^ N = 2 ^ (8 * N) := by
      rw [show (256 : Nat) = 2 ^ 8 by norm_num, ← pow_mul]
    rw [nnint_value_succ, hw, hor, Finset.sum_range_succ, ← ihv, hpow]
    constructor
    · ring
    · have : (2:Nat) ^ (8 * (N + 1)) = 2 ^ (8 * N) * 256 := by
        rw [show 8 * (N + 1) = 8 * N + 8 by ring, pow_add]; norm_num
      rw [this]
      have hpos : 0 < (2:Nat) ^ (8 * N) := Nat.two_pow_pos _
      nlinarith

theorem size_div_256 (v : Nat) (hv : 256 ≤ v) : Nat.size (v / 256) + 8 = Nat.size v := by
  apply le_antisymm
  · have h : ¬ Nat.size v ≤ 8 := by
      rw [Nat.size_le]; omega
    have : Nat.size (v / 256) ≤ Nat.size v - 8 := by
      rw [Nat.size_le]
      have h2 := Nat.lt_size_self v
      have : Nat.size v = (Nat.size v - 8) + 8 := by omega
      rw [this, pow_add] at h2
      exact Nat.div_lt_of_lt_mul (by simpa [Nat.mul_comm] using h2)
    omega
  · rw [Nat.size_le, pow_add]
    have h2 := Nat.lt_size_self (v / 256)
    have := Nat.div_add_mod v 256
    have := Nat.mod_lt v (show 0 < 256 by norm_num)
    norm_num
    nlinarith

theorem nnint_digits_length (k v : Nat) (hv : v < 256 ^ k) :
    (nnint_digits k v).length = (Nat.size v + 7) / 8 ∧ (nnint_digits k v).length ≤ k := by
  induction k generalizing v with
  | zero =>
    have : v = 0 := by simpa using hv
    subst this
    simp [nnint_digits]
  | succ k ih =>
    by_cases h0 : v = 0
    · subst h0; simp [nnint_digits]
    · have hdiv : v / 256 < 256 ^ k := by
        rw [pow_succ] at hv
        exact Nat.div_lt_of_lt_mul (by simpa [Nat.mul_comm] using hv)
      obtain ⟨ih1, ih2⟩ := ih (v / 256) hdiv
      simp only [nnint_digits, h0, if_false, List.length_cons, ih1]
      refine ⟨?_, by omega⟩
      by_cases h256 : 256 ≤ v
      · have := size_div_256 v h256
        omega
      · have hz : v / 256 = 0 := Nat.div_eq_of_lt (by omega)
        have h1 : Nat.size v ≤ 8 := by rw [Nat.size_le]; omega
        have h2 : 0 < Nat.size v := Nat.size_pos.mpr (by omega)
        rw [hz]
        simp only [Nat.size_zero]
        omega

theorem nnint_digits_sum (k v : Nat) (hv : v < 256 ^ k) :
    ∑ i ∈ Finset.range (nnint_digits k v).length, ((nnint_digits k v).getD i 0).val * 256 ^ i = v := by
  induction k generalizing v with
  | zero =>
    have : v = 0 := by simpa using hv
    subst this
    simp [nnint_digits]
  | succ k ih =>
    by_cases h0 : v = 0
    · subst h0; simp [nnint_digits]
    · have hdiv : v / 256 < 256 ^ k := by
        rw [pow_succ] at hv
        exact Nat.div_lt_of_lt_mul (by simpa [Nat.mul_comm] using hv)
      have ih1 := ih (v / 256) hdiv
      simp only [nnint_digits, h0, if_false, List.length_cons]
      rw [Finset.sum_range_succ']
      simp only [List.getD_cons_succ, List.getD_cons_zero, pow_zero, mul_one, pow_succ]
      have : ∑ i ∈ Finset.range (nnint_digits k (v / 256)).length,
          ((nnint_digits k (v / 256)).getD i 0).val * (256 ^ i * 256)
          = 256 * ∑ i ∈ Finset.range (nnint_digits k (v / 256)).length,
          ((nnint_digits k (v / 256)).getD i 0).val * 256 ^ i := by
        rw [Finset.mul_sum]
        apply Finset.sum_congr rfl
        intro i _
        ring
      rw [this, ih1]
      have hm : (Fin.ofNat (v % 256) : Byte).val = v % 256 := by
        simp [Fin.ofNat]
      rw [hm]
      omega

theorem read_nnint_ok (b : bej_br) (hn : b.n < 2 ^ 63) (hp : b.p < b.n)
    (hfit : b.p + (b.d b.p).val + 1 ≤ b.n) :
    bej_read_nnint b =
      some (nnint_value { b with p := b.p + 1 } (b.d b.p).val,
            { b with p := b.p + 1 + (b.d b.p).val }) := by
  have h1 : wrap64 (b.p + 1) = b.p + 1 := Nat.mod_eq_of_lt (by omega)
  have h2 : wrap64 (b.p + 1 + (b.d b.p).val) = b.p + 1 + (b.d b.p).val :=
    Nat.mod_eq_of_lt (by omega)
  have h3 : ¬ b.n ≤ b.p := by omega
  have h4 : ¬ b.p + 1 + (b.d b.p).val > b.n := by omega
  simp only [bej_read_nnint, bej_br_u8, ge_iff_le, h3, if_false, h1, h2, h4]

theorem read_nnint_short (b : bej_br) (hn : b.n < 2 ^ 63) (hp : b.p < b.n)
    (hfit : ¬ b.p + (b.d b.p).val + 1 ≤ b.n) : bej_read_nnint b = none := by
  have h1 : wrap64 (b.p + 1) = b.p + 1 := Nat.mod_eq_of_lt (by omega)
  have hx := (b.d b.p).isLt
  have h2 : wrap64 (b.p + 1 + (b.d b.p).val) = b.p + 1 + (b.d b.p).val :=
    Nat.mod_eq_of_lt (by omega)
  have h3 : ¬ b.n ≤ b.p := by omega
  have h4 : b.p + 1 + (b.d b.p).val > b.n := by omega
  simp only [bej_read_nnint, bej_br_u8, ge_iff_le, h3, if_false, h1, h2, h4, if_true]

theorem read_nnint_empty (b : bej_br) (hp : b.n ≤ b.p) : bej_read_nnint b = none := by
  simp only [bej_read_nnint, bej_br_u8, ge_iff_le, hp, if_true]

/-- C3: on a reader over a buffer of fewer than `2^63` bytes, `bej_read_nnint` fails on
an empty cursor; when a byte remains and the next byte `N` is at most 8, it succeeds
exactly when `N + 1` bytes remain, and then returns the little-endian sum of the `N`
bytes after the length byte and moves the position by `1 + N`. -/
theorem read_nnint_spec (b : bej_br) (hn : b.n < 2 ^ 63) :
    (b.n ≤ b.p → bej_read_nnint b = none) ∧
    (b.p < b.n → (b.d b.p).val ≤ 8 →
      ((bej_read_nnint b).isSome ↔ b.p + (b.d b.p).val + 1 ≤ b.n) ∧
      (∀ v b1, bej_read_nnint b = some (v, b1) →
        v = ∑ i ∈ Finset.range (b.d b.p).val, (b.d (b.p + 1 + i)).val * 256 ^ i ∧
        b1.p = b.p + 1 + (b.d b.p).val ∧ b1.d = b.d ∧ b1.n = b.n)) := by
  refine ⟨read_nnint_empty b, ?_⟩
  intro hp hN
  by_cases hfit : b.p + (b.d b.p).val + 1 ≤ b.n
  · have hok := read_nnint_ok b hn hp hfit
    refine ⟨by simp [hok, hfit], ?_⟩
    intro v b1 h
    rw [hok] at h
    simp only [Option.some.injEq, Prod.mk.injEq] at h
    obtain ⟨hv, hb⟩ := h
    subst hb
    refine ⟨?_, rfl, rfl, rfl⟩
    rw [← hv]
    exact (nnint_value_sum { b with p := b.p + 1 } (by simp only; omega) _ hN).1
  · have hno := read_nnint_short b hn hp hfit
    refine ⟨by simp [hno, hfit], ?_⟩
    intro v b1 h
    rw [hno] at h
    exact absurd h (by simp)

theorem read_nnint_spec_witness :
    (3 : Nat) < 2 ^ 63 ∧ (0 : Nat) < 3 ∧ ((mem_of [2, 0x2C, 1]) 0).val ≤ 8 ∧
    ((bej_read_nnint ⟨mem_of [2, 0x2C, 1], 3, 0⟩).isSome ↔
      0 + ((mem_of [2, 0x2C, 1]) 0).val + 1 ≤ 3) :=
  ⟨by decide, by decide, by decide,
   ((read_nnint_spec ⟨mem_of [2, 0x2C, 1], 3, 0⟩ (by decide)).2 (by decide) (by decide)).1⟩

/-- C2: for every 64-bit `v`, `bej_read_nnint` on a reader over exactly the bytes of the
tests' `push_nnint v` succeeds with value `v` and no byte left, having consumed
`1 + ceil(bits(v)/8)` bytes when `v > 0` and 2 bytes when `v = 0`. -/
theorem nnint_round_trip (v : Nat) (hv : v < 2 ^ 64) :
    ∃ b1, bej_read_nnint (bej_br_init (mem_of (push_nnint v)) (push_nnint v).length)
        = some (v, b1) ∧
      bej_br_left b1 = 0 ∧ b1.p = (push_nnint v).length ∧
      (push_nnint v).length = if v = 0 then 2 else 1 + (Nat.size v + 7) / 8 := by
  by_cases h0 : v = 0
  · subst h0
    exact ⟨_, rfl, by decide, rfl, by decide⟩
  · have h256 : v < 256 ^ 8 := by norm_num at hv ⊢; exact hv
    obtain ⟨hlen, hle⟩ := nnint_digits_length 8 v h256
    have hsum := nnint_digits_sum 8 v h256
    have hpush : push_nnint v = Fin.ofNat (nnint_digits 8 v).length :: nnint_digits 8 v := by
      simp [push_nnint, h0]
    have hN : ((Fin.ofNat (nnint_digits 8 v).length : Byte)).val = (nnint_digits 8 v).length := by
      simp only [Fin.ofNat]
      exact Nat.mod_eq_of_lt (by omega)
    have hd0 : mem_of (push_nnint v) 0 = Fin.ofNat (nnint_digits 8 v).length := by
      rw [hpush]; rfl
    have hok := read_nnint_ok (bej_br_init (mem_of (push_nnint v)) (push_nnint v).length)
      (by simp only [bej_br_init, hpush, List.length_cons]; omega)
      (by simp only [bej_br_init, hpush, List.length_cons]; omega)
      (by simp only [bej_br_init, hd0, hN]; simp only [hpush, List.length_cons]; omega)
    simp only [bej_br_init, hd0, hN] at hok
    have hs := (nnint_value_sum
        { d := mem_of (push_nnint v), n := (push_nnint v).length, p := 0 + 1 }
        (by simp only; omega) (nnint_digits 8 v).length hle).1
    have hval : nnint_value
        { d := mem_of (push_nnint v), n := (push_nnint v).length, p := 0 + 1 }
        (nnint_digits 8 v).length = v := by
      rw [hs]
      refine Eq.trans (Finset.sum_congr rfl ?_) hsum
      intro i _
      simp only [hpush]
      simp [mem_of, Nat.add_comm 1 i]
    rw [hval] at hok
    refine ⟨_, hok, ?_, ?_, ?_⟩
    · simp only [bej_br_left]
      have : sub64 (push_nnint v).length (0 + 1 + (nnint_digits 8 v).length) = 0 := by
        simp only [hpush, List.length_cons, sub64]
        have : (0 + 1 + (nnint_digits 8 v).length) % 2 ^ 64 = 1 + (nnint_digits 8 v).length :=
          Nat.mod_eq_of_lt (by omega)
        rw [this]
        omega
      rw [this]; decide
    · simp only [hpush, List.length_cons]; omega
    · simp only [hpush, List.length_cons, h0, if_false, hlen]; omega

theorem nnint_round_trip_witness :
    (300 : Nat) < 2 ^ 64 ∧
    ∃ b1, bej_read_nnint (bej_br_init (mem_of (push_nnint 300)) (push_nnint 300).length)
        = some (300, b1) ∧
      bej_br_left b1 = 0 ∧ b1.p = (push_nnint 300).length ∧
      (push_nnint 300).length = if 300 = 0 then 2 else 1 + (Nat.size 300 + 7) / 8 :=
  ⟨by decide, nnint_round_trip 300 (by decide)⟩

/-! ## The recursion bound -/

theorem decode_value_set_succ (fuel : Nat) (jw : bej_jsonw) (br : bej_br) (D : bej_dict)
    (c : bej_cluster) :
    decode_value_set (fuel + 1) jw br D c =
      match bej_read_nnint br with
      | none => ⟨Status.fail, jw, br⟩
      | some (count, br1) =>
        let r := decode_members (fun jw br c => decode_value_set fuel jw br D c) D
          c count (bej_jw_begin_obj jw) br1
        match r.st with
        | Status.ok => ⟨Status.ok, bej_jw_end_obj r.jw, r.br⟩
        | _ => r := rfl

theorem decode_member_value_mono (f g : bej_jsonw → bej_br → bej_cluster → Run)
    (h : ∀ jw br c, (f jw br c).st ≠ Status.nofuel → g jw br c = f jw br c)
    (D : bej_dict) (de : Option bej_dict_entry) (fmt L : Nat) (jw : bej_jsonw) (br : bej_br)
    (hr : (decode_member_value f D de fmt L jw br).st ≠ Status.nofuel) :
    decode_member_value g D de fmt L jw br = decode_member_value f D de fmt L jw br := by
  unfold decode_member_value at hr ⊢
  by_cases h3 : fmt = 3
  · simp only [h3, if_true]
  · by_cases h5 : fmt = 5
    · simp only [h5, if_true, if_false, h3]
    · by_cases h0 : fmt = 0
      · simp only [h3, h5, h0, if_true, if_false] at hr ⊢
        simp only [OfNat.zero_ne_ofNat, if_false] at hr ⊢
        exact h _ _ _ hr
      · simp only [h3, h5, h0, if_false]

theorem decode_member_mono (f g : bej_jsonw → bej_br → bej_cluster → Run)
    (h : ∀ jw br c, (f jw br c).st ≠ Status.nofuel → g jw br c = f jw br c)
    (D : bej_dict) (c : bej_cluster) (jw : bej_jsonw) (br : bej_br)
    (hr : (decode_member f D c jw br).st ≠ Status.nofuel) :
    decode_member g D c jw br = decode_member f D c jw br := by
  unfold decode_member at hr ⊢
  cases hh : read_header br with
  | none => rfl
  | some x =>
    obtain ⟨S, F, L, br3⟩ := x
    simp only [hh] at hr
    dsimp only
    by_cases ha : S &&& 1 ≠ 0
    · rw [if_pos ha, if_pos ha]
    · rw [if_neg ha] at hr
      rw [if_neg ha, if_neg ha]
      exact decode_member_value_mono f g h _ _ _ _ _ _ hr

theorem decode_members_mono (f g : bej_jsonw → bej_br → bej_cluster → Run)
    (h : ∀ jw br c, (f jw br c).st ≠ Status.nofuel → g jw br c = f jw br c)
    (D : bej_dict) (c : bej_cluster) (rem : Nat) (jw : bej_jsonw) (br : bej_br)
    (hr : (decode_members f D c rem jw br).st ≠ Status.nofuel) :
    decode_members g D c rem jw br = decode_members f D c rem jw br := by
  induction rem generalizing jw br with
  | zero => rfl
  | succ rem ih =>
    unfold decode_members at hr ⊢
    have key : (decode_member f D c jw br).st ≠ Status.nofuel := by
      intro hno
      simp only [hno] at hr
      exact hr rfl
    rw [decode_member_mono f g h D c jw br key]
    cases hst : (decode_member f D c jw br).st with
    | ok =>
      simp only [hst] at hr ⊢
      exact ih _ _ hr
    | fail => simp only [hst]
    | fault => simp only [hst]
    | nofuel => exact absurd hst key

/-- A call of `decode_value_set` that ends within the recursion bound ends the same way
under every larger bound. -/
theorem decode_value_set_mono (fuel : Nat) (D : bej_dict) :
    ∀ (jw : bej_jsonw) (br : bej_br) (c : bej_cluster),
      (decode_value_set fuel jw br D c).st ≠ Status.nofuel →
      decode_value_set (fuel + 1) jw br D c = decode_value_set fuel jw br D c := by
  induction fuel with
  | zero =>
    intro jw br c hr
    exact absurd rfl hr
  | succ fuel ih =>
    intro jw br c hr
    rw [decode_value_set_succ (fuel + 1), decode_value_set_succ fuel]
    rw [decode_value_set_succ fuel] at hr
    cases hh : bej_read_nnint br with
    | none => rfl
    | some x =>
      obtain ⟨count, br1⟩ := x
      simp only [hh] at hr ⊢
      have key : (decode_members (fun jw br c => decode_value_set fuel jw br D c) D c count
          (bej_jw_begin_obj jw) br1).st ≠ Status.nofuel := by
        intro hno
        simp only [hno] at hr
        exact hr rfl
      rw [decode_members_mono _ (fun jw br c => decode_value_set (fuel + 1) jw br D c)
        (fun jw br c => ih jw br c) D c count _ _ key]

theorem decode_value_set_fuel (fuel k : Nat) (D : bej_dict) (jw : bej_jsonw) (br : bej_br)
    (c : bej_cluster) (hr : (decode_value_set fuel jw br D c).st ≠ Status.nofuel) :
    decode_value_set (fuel + k) jw br D c = decode_value_set fuel jw br D c := by
  induction k with
  | zero => rfl
  | succ k ih =>
    rw [← Nat.add_assoc, decode_value_set_mono (fuel + k) D jw br c (by rw [ih]; exact hr), ih]

/-- A run of `bej_decode_to_json` that ends within the recursion bound ends the same way
under every larger bound. -/
theorem decode_to_json_fuel (fuel k : Nat) (bej : Nat → Byte) (n : Nat) (D : bej_dict)
    (hr : (bej_decode_to_json fuel bej n D).st ≠ Status.nofuel) :
    bej_decode_to_json (fuel + k) bej n D = bej_decode_to_json fuel bej n D := by
  unfold bej_decode_to_json at hr ⊢
  simp only at hr ⊢
  split
  · rfl
  · rename_i hlt
    simp only [hlt, if_false] at hr
    split
    · rfl
    · rename_i x b1 hb
      simp only [hb] at hr
      split
      · rfl
      · rename_i S F L br2 hh
        simp only [hh] at hr
        by_cases hf : F.val >>> 4 ≠ 0
        · rw [if_pos hf, if_pos hf]
        · rw [if_neg hf] at hr
          rw [if_neg hf, if_neg hf]
          have key : (decode_value_set fuel bej_jw_init br2 D (root_cluster D)).st
              ≠ Status.nofuel := by
            intro hno
            simp only [hno] at hr
            exact hr rfl
          rw [decode_value_set_fuel fuel k D _ _ _ key]

/-! ## Cluster lookup (C6) -/

theorem lookup_loop_spec (ent : List bej_dict_entry) (seq : Nat) (k : Nat) :
    ∀ (i : Nat) (reads : List Nat),
      (∀ j, (lookup_loop ent seq k i reads).1 = some j ↔
        (i ≤ j ∧ j < i + k ∧ (ent.getD j default).seq = seq ∧
          ∀ m, i ≤ m → m < j → (ent.getD m default).seq ≠ seq)) ∧
      ((lookup_loop ent seq k i reads).1 = none ↔
        ∀ m, i ≤ m → m < i + k → (ent.getD m default).seq ≠ seq) ∧
      (∀ x ∈ (lookup_loop ent seq k i reads).2, x ∈ reads ∨ (i ≤ x ∧ x < i + k)) := by
  induction k with
  | zero =>
    intro i reads
    refine ⟨?_, ?_, ?_⟩
    · intro j
      simp only [lookup_loop]
      constructor
      · intro h; exact absurd h (by simp)
      · rintro ⟨h1, h2, _⟩; omega
    · simp only [lookup_loop, true_iff]
      intro m h1 h2; omega
    · intro x hx
      exact Or.inl hx
  | succ k ih =>
    intro i reads
    by_cases hi : (ent.getD i default).seq = seq
    · simp only [lookup_loop, hi, if_true]
      refine ⟨?_, ?_, ?_⟩
      · intro j
        constructor
        · intro h
          have hj : i = j := by simpa using h
          subst hj
          exact ⟨le_refl _, by omega, hi, fun m h1 h2 => by omega⟩
        · rintro ⟨h1, _, _, h4⟩
          by_cases hij : i = j
          · rw [hij]
          · exact absurd hi (h4 i (le_refl _) (by omega))
      · constructor
        · intro h; exact absurd h (by simp)
        · intro h; exact absurd hi (h i (le_refl _) (by omega))
      · intro x hx
        rcases List.mem_append.mp hx with h | h
        · exact Or.inl h
        · have : x = i := by simpa using h
          exact Or.inr ⟨by omega, by omega⟩
    · simp only [lookup_loop, hi, if_false]
      obtain ⟨ih1, ih2, ih3⟩ := ih (i + 1) (reads ++ [i])
      refine ⟨?_, ?_, ?_⟩
      · intro j
        rw [ih1 j]
        constructor
        · rintro ⟨h1, h2, h3, h4⟩
          refine ⟨by omega, by omega, h3, ?_⟩
          intro m hm1 hm2
          by_cases hmi : m = i
          · rw [hmi]; exact hi
          · exact h4 m (by omega) hm2
        · rintro ⟨h1, h2, h3, h4⟩
          have hne : i ≠ j := fun h => hi (h ▸ h3)
          exact ⟨by omega, by omega, h3, fun m hm1 hm2 => h4 m (by omega) hm2⟩
      · rw [ih2]
        constructor
        · intro h m hm1 hm2
          by_cases hmi : m = i
          · rw [hmi]; exact hi
          · exact h m (by omega) (by omega)
        · intro h m hm1 hm2
          exact h m (by omega) (by omega)
      · intro x hx
        rcases ih3 x hx with h | h
        · rcases List.mem_append.mp h with h | h
          · exact Or.inl h
          · have : x = i := by simpa using h
            exact Or.inr ⟨by omega, by omega⟩
        · exact Or.inr ⟨by omega, by omega⟩

theorem lookup_range (n s cnt : Nat) (hE : n ≤ 65535) (hs : s < 2 ^ 32) (hc : cnt < 2 ^ 16) :
    s + ((if wrap32 (s + cnt) > n then wrap32 n else wrap32 (s + cnt)) - s)
      = max s (min (s + cnt) n) := by
  simp only [wrap32]
  norm_num at hs hc ⊢
  split_ifs <;> omega

/-- C6: for a dictionary of at most 65535 entries (the entry count is a `uint16_t` in the
blob), a cluster `(start_idx, count)` within its field widths and any `seq`,
`bej_cluster_lookup_seq` returns the entry at the least index `i` with
`start_idx <= i < min(start_idx + count, E)` and `ent[i].seq = seq`, returns none exactly
when there is no such index, and reads entries only at indices of that range. -/
theorem cluster_lookup_spec (D : bej_dict) (c : bej_cluster) (seq : Nat)
    (hE : D.n ≤ 65535) (hs : c.start_idx < 2 ^ 32) (hc : c.count < 2 ^ 16) :
    (∀ i, bej_cluster_lookup_idx D c seq = some i ↔
      (c.start_idx ≤ i ∧ i < min (c.start_idx + c.count) D.n ∧
        (D.ent.getD i default).seq = seq ∧
        ∀ j, c.start_idx ≤ j → j < i → (D.ent.getD j default).seq ≠ seq)) ∧
    (bej_cluster_lookup_idx D c seq = none ↔
      ∀ j, c.start_idx ≤ j → j < min (c.start_idx + c.count) D.n →
        (D.ent.getD j default).seq ≠ seq) ∧
    (bej_cluster_lookup_seq D c seq =
      (bej_cluster_lookup_idx D c seq).map (fun i => D.ent.getD i default)) ∧
    (∀ r ∈ (bej_cluster_lookup_traced D c seq).2,
      c.start_idx ≤ r ∧ r < min (c.start_idx + c.count) D.n) := by
  have hr := lookup_range D.n c.start_idx c.count hE hs hc
  obtain ⟨h1, h2, h3⟩ := lookup_loop_spec D.ent seq
    ((if wrap32 (c.start_idx + c.count) > D.n then wrap32 D.n
      else wrap32 (c.start_idx + c.count)) - c.start_idx) c.start_idx []
  rw [hr] at h1 h2 h3
  refine ⟨?_, ?_, rfl, ?_⟩
  · intro i
    show (lookup_loop _ _ _ _ _).1 = some i ↔ _
    rw [h1 i]
    constructor
    · rintro ⟨a, b, c1, d⟩
      exact ⟨a, by omega, c1, d⟩
    · rintro ⟨a, b, c1, d⟩
      exact ⟨a, by omega, c1, d⟩
  · show (lookup_loop _ _ _ _ _).1 = none ↔ _
    rw [h2]
    constructor
    · intro h j a b
      exact h j a (by omega)
    · intro h j a b
      exact h j a (by omega)
  · intro r hr'
    rcases h3 r hr' with h | h
    · exact absurd h (by simp)
    · exact ⟨h.1, by omega⟩

theorem cluster_lookup_spec_witness :
    D_test.n ≤ 65535 ∧ (1 : Nat) < 2 ^ 32 ∧ (1 : Nat) < 2 ^ 16 ∧
    (bej_cluster_lookup_idx D_test ⟨1, 1⟩ 1 = none ↔
      ∀ j, 1 ≤ j → j < min (1 + 1) D_test.n → (D_test.ent.getD j default).seq ≠ 1) :=
  ⟨by decide, by decide, by decide,
   (cluster_lookup_spec D_test ⟨1, 1⟩ 1 (by decide) (by decide) (by decide)).2.1⟩

/-! ## Name resolution (C7) -/

theorem name_scan_spec (blob : Nat → Byte) (n : Nat) (k : Nat) :
    ∀ (i : Nat) (reads : List Nat), n - i ≤ k → i ≤ n →
      i ≤ (name_scan blob n k i reads).1 ∧ (name_scan blob n k i reads).1 ≤ n ∧
      (∀ j, i ≤ j → j < (name_scan blob n k i reads).1 → blob j ≠ 0) ∧
      ((name_scan blob n k i reads).1 < n → blob (name_scan blob n k i reads).1 = 0) ∧
      (∀ x ∈ (name_scan blob n k i reads).2, x ∈ reads ∨ (i ≤ x ∧ x < n)) := by
  induction k with
  | zero =>
    intro i reads hk hi
    have : i = n := by omega
    subst this
    simp only [name_scan]
    exact ⟨le_refl _, le_refl _, fun j h1 h2 => by omega, fun h => by omega,
      fun x hx => Or.inl hx⟩
  | succ k ih =>
    intro i reads hk hi
    by_cases hin : i < n
    · by_cases hb : blob i ≠ 0
      · have e : name_scan blob n (k + 1) i reads = name_scan blob n k (i + 1) (reads ++ [i]) := by
          simp only [name_scan]
          rw [if_pos hin, if_pos hb]
        rw [e]
        obtain ⟨h1, h2, h3, h4, h5⟩ := ih (i + 1) (reads ++ [i]) (by omega) (by omega)
        refine ⟨by omega, h2, ?_, h4, ?_⟩
        · intro j hj1 hj2
          by_cases hji : j = i
          · rw [hji]; exact hb
          · exact h3 j (by omega) hj2
        · intro x hx
          rcases h5 x hx with h | h
          · rcases List.mem_append.mp h with h | h
            · exact Or.inl h
            · have : x = i := by simpa using h
              exact Or.inr ⟨by omega, by omega⟩
          · exact Or.inr ⟨by omega, h.2⟩
      · have e : name_scan blob n (k + 1) i reads = (i, reads ++ [i]) := by
          simp only [name_scan]
          rw [if_pos hin, if_neg hb]
        rw [e]
        refine ⟨le_refl _, hi, fun j h1 h2 => by omega, fun _ => by simpa using hb, ?_⟩
        intro x hx
        rcases List.mem_append.mp hx with h | h
        · exact Or.inl h
        · have : x = i := by simpa using h
          exact Or.inr ⟨by omega, by omega⟩
    · have : i = n := by omega
      have e : name_scan blob n (k + 1) i reads = (i, reads) := by
        simp only [name_scan]
        rw [if_neg hin]
      rw [e, this]
      exact ⟨le_refl _, le_refl _, fun j h1 h2 => by omega, fun h => by omega,
        fun x hx => Or.inl hx⟩

theorem name_at_found (D : bej_dict) (off z : Nat) (h0 : off ≠ 0) (hz1 : off ≤ z)
    (hz2 : z < D.blob_n) (hz3 : D.blob z = 0) (hz4 : ∀ j, off ≤ j → j < z → D.blob j ≠ 0) :
    bej_dict_name_at D off = some ((List.range' off (z - off)).map D.blob) := by
  have hge : ¬ off ≥ D.blob_n := by omega
  obtain ⟨h1, _, h3, h4, _⟩ := name_scan_spec D.blob D.blob_n (D.blob_n - off) off []
    (le_refl _) (by omega)
  have hez : (name_scan D.blob D.blob_n (D.blob_n - off) off []).1 = z := by
    rcases Nat.lt_trichotomy (name_scan D.blob D.blob_n (D.blob_n - off) off []).1 z
      with h | h | h
    · exact absurd (h4 (by omega)) (hz4 _ h1 h)
    · exact h
    · exact absurd hz3 (h3 z hz1 h)
  have hend : ¬ (name_scan D.blob D.blob_n (D.blob_n - off) off []).1 ≥ D.blob_n := by
    rw [hez]; omega
  simp only [bej_dict_name_at, bej_dict_name_at_traced, h0, hge, if_false]
  rw [if_neg hend, hez]

/-- C7: `bej_dict_name_at` returns none when the offset is 0, when it is not below the
blob length `n`, or when no zero byte occurs in `[off, n)`; otherwise it returns the
bytes `blob[off .. z)` up to the first zero byte at `z < n`; and every blob index it
reads is below `n`. -/
theorem name_at_spec (D : bej_dict) (off : Nat) :
    ((off = 0 ∨ D.blob_n ≤ off ∨ ∀ z, off ≤ z → z < D.blob_n → D.blob z ≠ 0) →
      bej_dict_name_at D off = none) ∧
    (∀ z, off ≠ 0 → off ≤ z → z < D.blob_n → D.blob z = 0 →
      (∀ j, off ≤ j → j < z → D.blob j ≠ 0) →
      bej_dict_name_at D off = some ((List.range' off (z - off)).map D.blob)) ∧
    (∀ r ∈ (bej_dict_name_at_traced D off).2, r < D.blob_n) := by
  refine ⟨?_, fun z h0 hz1 hz2 hz3 hz4 => name_at_found D off z h0 hz1 hz2 hz3 hz4, ?_⟩
  · by_cases h0 : off = 0
    · intro _
      simp [bej_dict_name_at, bej_dict_name_at_traced, h0]
    by_cases hge : D.blob_n ≤ off
    · intro _
      simp [bej_dict_name_at, bej_dict_name_at_traced, h0, hge]
    obtain ⟨h1, _, _, h4, _⟩ := name_scan_spec D.blob D.blob_n (D.blob_n - off) off []
      (le_refl _) (by omega)
    have hge1 : ¬ off ≥ D.blob_n := hge
    rintro (h | h | h)
    · exact absurd h h0
    · exact absurd h hge
    · have hend : (name_scan D.blob D.blob_n (D.blob_n - off) off []).1 ≥ D.blob_n := by
        by_contra hlt
        exact h _ h1 (by omega) (h4 (by omega))
      simp only [bej_dict_name_at, bej_dict_name_at_traced, h0, hge1, if_false, hend,
        if_true]
  · intro r hr
    by_cases h0 : off = 0
    · simp [bej_dict_name_at_traced, h0] at hr
    by_cases hge : D.blob_n ≤ off
    · simp [bej_dict_name_at_traced, h0, hge] at hr
    obtain ⟨_, _, _, _, h5⟩ := name_scan_spec D.blob D.blob_n (D.blob_n - off) off []
      (le_refl _) (by omega)
    have hge1 : ¬ off ≥ D.blob_n := hge
    have hr1 : r ∈ (name_scan D.blob D.blob_n (D.blob_n - off) off []).2 := by
      simp only [bej_dict_name_at_traced, h0, hge1, if_false] at hr
      split at hr <;> exact hr
    rcases h5 r hr1 with h | h
    · exact absurd h (by simp)
    · exact h.2

/-! ## Dictionary loading (C8, C9) -/

theorem le16_eq (lo hi : Byte) : le16 lo hi = lo.val + 256 * hi.val := by
  have h1 := lo.isLt
  have h2 := hi.isLt
  have hor : lo.val ||| hi.val <<< 8 = 2 ^ 8 * hi.val + lo.val := by
    rw [Nat.shiftLeft_eq, Nat.or_comm, Nat.mul_comm]
    exact (Nat.mul_add_lt_is_or (by norm_num) _).symm
  rw [le16, hor, wrap16]
  norm_num
  omega

theorem le16_lt (lo hi : Byte) : le16 lo hi < 65536 := by
  rw [le16_eq]
  have h1 := lo.isLt
  have h2 := hi.isLt
  omega

theorem load_entries_spec (d : Nat → Byte) (k : Nat) :
    ∀ p, (load_entries d k p).1.length = k ∧ (load_entries d k p).2 = p + 10 * k ∧
      ∀ i, i < k → (load_entries d k p).1.getD i default = entry_at d (p + 10 * i) := by
  induction k with
  | zero =>
    intro p
    exact ⟨rfl, rfl, fun i hi => by omega⟩
  | succ k ih =>
    intro p
    obtain ⟨h1, h2, h3⟩ := ih (p + 10)
    simp only [load_entries, List.length_cons, h1, h2]
    refine ⟨trivial, by omega, ?_⟩
    intro i hi
    cases i with
    | zero => simp
    | succ i =>
      simp only [List.getD_cons_succ]
      rw [h3 i (by omega)]
      congr 1
      omega

theorem load_entries_congr (d d1 : Nat → Byte) (k : Nat) :
    ∀ p, (∀ i, p ≤ i → d1 i = d i) → load_entries d1 k p = load_entries d k p := by
  induction k with
  | zero => intro p _; rfl
  | succ k ih =>
    intro p h
    simp only [load_entries]
    rw [ih (p + 10) (fun i hi => h i (by omega))]
    simp only [entry_at]
    rw [h p (le_refl _), h (p + 1) (by omega), h (p + 2) (by omega), h (p + 3) (by omega),
      h (p + 4) (by omega), h (p + 5) (by omega), h (p + 6) (by omega), h (p + 7) (by omega),
      h (p + 8) (by omega), h (p + 9) (by omega)]

theorem dict_load_eq (d : Nat → Byte) (n : Nat) :
    bej_dict_load d n =
      if n < 12 ∨ n < 12 + 10 * ((d 2).val + 256 * (d 3).val) then none
      else some { ent := (load_entries d ((d 2).val + 256 * (d 3).val) 12).1
                  entries_ofs := 12
                  names_ofs := (load_entries d ((d 2).val + 256 * (d 3).val) 12).2
                  blob := d
                  blob_n := n } := by
  have hlt := le16_lt (d 2) (d 3)
  have heq := le16_eq (d 2) (d 3)
  have hw : wrap64 (12 + le16 (d 2) (d 3) * 10) = 12 + 10 * le16 (d 2) (d 3) := by
    rw [wrap64]
    norm_num
    omega
  simp only [bej_dict_load, hw]
  simp only [heq]
  by_cases h1 : n < 12
  · simp [h1]
  · by_cases h2 : n < 12 + 10 * ((d 2).val + 256 * (d 3).val)
    · simp [h1, h2]
    · simp [h1, h2]

/-- C8: with `E` the little-endian 16-bit value of bytes 2..3, `bej_dict_load` fails
exactly when the blob is shorter than 12 bytes or shorter than `12 + 10*E`; on success
the dictionary has `E` entries, `entries_ofs = 12` and `names_ofs = 12 + 10*E`; and
changing the version tag, flags, schema version and dictionary size bytes (0, 1, 4..11)
changes neither the outcome nor the entries and offsets. -/
theorem dict_load_spec (d : Nat → Byte) (n : Nat) :
    (bej_dict_load d n = none ↔ n < 12 ∨ n < 12 + 10 * ((d 2).val + 256 * (d 3).val)) ∧
    (∀ D, bej_dict_load d n = some D →
      D.n = (d 2).val + 256 * (d 3).val ∧ D.entries_ofs = 12 ∧
      D.names_ofs = 12 + 10 * ((d 2).val + 256 * (d 3).val)) ∧
    (∀ d1 : Nat → Byte, d1 2 = d 2 → d1 3 = d 3 → (∀ i, 12 ≤ i → d1 i = d i) →
      (bej_dict_load d1 n).map (fun D => (D.ent, D.entries_ofs, D.names_ofs, D.blob_n)) =
      (bej_dict_load d n).map (fun D => (D.ent, D.entries_ofs, D.names_ofs, D.blob_n))) := by
  refine ⟨?_, ?_, ?_⟩
  · rw [dict_load_eq]
    by_cases h : n < 12 ∨ n < 12 + 10 * ((d 2).val + 256 * (d 3).val)
    · simp [h]
    · simp [h]
  · intro D hD
    rw [dict_load_eq] at hD
    by_cases h : n < 12 ∨ n < 12 + 10 * ((d 2).val + 256 * (d 3).val)
    · rw [if_pos h] at hD
      exact absurd hD (by simp)
    · rw [if_neg h] at hD
      have hD' := Option.some.inj hD
      obtain ⟨h1, h2, _⟩ := load_entries_spec d ((d 2).val + 256 * (d 3).val) 12
      subst hD'
      exact ⟨h1, rfl, h2⟩
  · intro d1 e2 e3 hrest
    rw [dict_load_eq, dict_load_eq, e2, e3, load_entries_congr d d1 _ 12 hrest]
    by_cases h : n < 12 ∨ n < 12 + 10 * ((d 2).val + 256 * (d 3).val)
    · rw [if_pos h, if_pos h]
    · rw [if_neg h, if_neg h]
      rfl

theorem map_range_eq (blob : Nat → Byte) (off : Nat) (name : List Byte)
    (h : ∀ j, j < name.length → blob (off + j) = name.getD j 0) :
    (List.range' off name.length).map blob = name := by
  apply List.ext_getElem
  · simp
  · intro j h1 h2
    simp only [List.getElem_map, List.getElem_range', one_mul]
    rw [h j h2]
    simp [List.getD_eq_getElem?_getD, h2]

theorem lookup_second (D : bej_dict) (s : Nat) (hn : 2 ≤ D.n)
    (hs : (D.ent.getD 1 default).seq = s) :
    bej_cluster_lookup_seq D ⟨1, 1⟩ s = some (D.ent.getD 1 default) := by
  have h2 : ¬ wrap32 (1 + 1) > D.n := by
    simp only [wrap32]; omega
  have h3 : wrap32 (1 + 1) - 1 = 1 := by simp [wrap32]
  simp only [bej_cluster_lookup_seq, bej_cluster_lookup_idx, bej_cluster_lookup_traced, h2,
    if_false, h3, lookup_loop, hs, if_true, Option.map_some']

/-- C9: after a successful `bej_dict_load`, entry `i < E` holds the fields of the 10
bytes at `q = 12 + 10*i` (`fmt = blob[q]`, `seq`, `child_off`, `child_cnt` the
little-endian 16-bit values at `q+1`, `q+3`, `q+5`, `name_len = blob[q+7]`, `name_off`
the value at `q+8`); and when entry 0 has `child_off = 22`, `child_cnt = 1` and entry 1
has sequence number `s` and a name offset at which the NUL-terminated `name` lies in the
blob, the cluster derived from entry 0 is `(1, 1)`, the lookup of `s` in it returns
entry 1, and `bej_dict_name_at` on its name offset returns `name`. -/
theorem dict_entries_spec (d : Nat → Byte) (n : Nat) (D : bej_dict)
    (h : bej_dict_load d n = some D) :
    (∀ i, i < D.n → D.ent.getD i default =
      { fmt := d (12 + 10 * i)
        seq := (d (12 + 10 * i + 1)).val + 256 * (d (12 + 10 * i + 2)).val
        child_off := (d (12 + 10 * i + 3)).val + 256 * (d (12 + 10 * i + 4)).val
        child_cnt := (d (12 + 10 * i + 5)).val + 256 * (d (12 + 10 * i + 6)).val
        name_len := d (12 + 10 * i + 7)
        name_off := (d (12 + 10 * i + 8)).val + 256 * (d (12 + 10 * i + 9)).val }) ∧
    (∀ (s : Nat) (name : List Byte), 2 ≤ D.n →
      (D.ent.getD 0 default).child_off = 22 → (D.ent.getD 0 default).child_cnt = 1 →
      (D.ent.getD 1 default).seq = s →
      (D.ent.getD 1 default).name_off ≠ 0 →
      (D.ent.getD 1 default).name_off + name.length < n →
      (∀ j, j < name.length →
        d ((D.ent.getD 1 default).name_off + j) = name.getD j 0 ∧
        d ((D.ent.getD 1 default).name_off + j) ≠ 0) →
      d ((D.ent.getD 1 default).name_off + name.length) = 0 →
      child_cluster D (D.ent.getD 0 default) = ⟨1, 1⟩ ∧
      bej_cluster_lookup_seq D ⟨1, 1⟩ s = some (D.ent.getD 1 default) ∧
      bej_dict_name_at D (D.ent.getD 1 default).name_off = some name) := by
  rw [dict_load_eq] at h
  by_cases hc : n < 12 ∨ n < 12 + 10 * ((d 2).val + 256 * (d 3).val)
  · rw [if_pos hc] at h
    exact absurd h (by simp)
  rw [if_neg hc] at h
  have hD := Option.some.inj h
  obtain ⟨l1, l2, l3⟩ := load_entries_spec d ((d 2).val + 256 * (d 3).val) 12
  subst hD
  refine ⟨?_, ?_⟩
  · intro i hi
    have hi' : i < (d 2).val + 256 * (d 3).val := by
      simpa only [bej_dict.n, l1] using hi
    show (load_entries d _ 12).1.getD i default = _
    rw [l3 i hi']
    simp only [entry_at, le16_eq]
  · intro s name hn h0 h1 hs hoff hfit hname hnul
    refine ⟨?_, lookup_second _ s hn hs, ?_⟩
    · simp only [child_cluster, h0, h1]
      decide
    · have := name_at_found
        { ent := (load_entries d ((d 2).val + 256 * (d 3).val) 12).1, entries_ofs := 12,
          names_ofs := (load_entries d ((d 2).val + 256 * (d 3).val) 12).2, blob := d,
          blob_n := n } ((load_entries d ((d 2).val + 256 * (d 3).val) 12).1.getD 1 default).name_off
        (((load_entries d ((d 2).val + 256 * (d 3).val) 12).1.getD 1 default).name_off
        + name.length) hoff (by omega) hfit hnul
        (fun j hj1 hj2 => by
          have := (hname (j - ((load_entries d ((d 2).val + 256 * (d 3).val) 12).1.getD 1
            default).name_off) (by omega)).2
          rwa [Nat.add_sub_cancel' hj1] at this)
      rw [this, Nat.add_sub_cancel_left]
      congr 1
      exact map_range_eq d _ name (fun j hj => (hname j hj).1)

theorem dict_entries_spec_witness :
    bej_dict_load (mem_of test_dict) 41 = some D_test ∧
    child_cluster D_test (D_test.ent.getD 0 default) = ⟨1, 1⟩ ∧
    bej_cluster_lookup_seq D_test ⟨1, 1⟩ 1 = some (D_test.ent.getD 1 default) ∧
    bej_dict_name_at D_test (D_test.ent.getD 1 default).name_off = some (ascii "Foo") :=
  ⟨rfl, (dict_entries_spec (mem_of test_dict) 41 D_test rfl).2 1 (ascii "Foo") (by decide)
    (by decide) (by decide) (by decide) (by decide) (by decide) (by decide) (by decide)⟩

/-! ## The payload skip (C4, C5, C10) -/

/-- C4 (failing inputs): on `bej_skip_forward` the annotation header ends at the end of
the 22-byte stream, the skip accepts `L = 2^32 - 1` with no byte remaining, the decode
returns success and the cursor is left `2^32 - 1` bytes past the end; on
`bej_skip_backward` the skip accepts `L = 2^64 - 1` and moves the cursor from 26 back
to 25, and the decode returns success. -/
theorem skip_leaves_buffer : ∀ k,
    (skip_payload ⟨mem_of bej_skip_forward, 22, 22⟩ (2 ^ 32 - 1)).map (fun b => b.p)
      = some (22 + (2 ^ 32 - 1)) ∧
    (bej_decode_to_json (1 + k) (mem_of bej_skip_forward) 22 D_empty).st = Status.ok ∧
    (bej_decode_to_json (1 + k) (mem_of bej_skip_forward) 22 D_empty).br.n = 22 ∧
    (bej_decode_to_json (1 + k) (mem_of bej_skip_forward) 22 D_empty).br.p = 4294967317 ∧
    (skip_payload ⟨mem_of bej_skip_backward, 26, 26⟩ (2 ^ 64 - 1)).map (fun b => b.p)
      = some 25 ∧
    (bej_decode_to_json (1 + k) (mem_of bej_skip_backward) 26 D_empty).st = Status.ok ∧
    (bej_decode_to_json (1 + k) (mem_of bej_skip_backward) 26 D_empty).br.p = 25 := by
  intro k
  rw [decode_to_json_fuel 1 k _ _ _ (by decide), decode_to_json_fuel 1 k _ _ _ (by decide)]
  exact ⟨by decide, by decide, by decide, by decide, by decide, by decide, by decide⟩

/-- C5 (failing input): `set_plain` decodes to an object with the one key `seq_0`;
`set_annotated`, the same payload with an annotation tuple of `2^31 - 1` payload bytes
inserted before the member (all of them present) and the count raised, is rejected. -/
theorem annotation_insert_rejected : ∀ k,
    (decode_value_set (1 + k) bej_jw_init ⟨mem_of set_plain, 5, 0⟩ D_empty ⟨0, 0⟩).st
      = Status.ok ∧
    (decode_value_set (1 + k) bej_jw_init ⟨mem_of set_plain, 5, 0⟩ D_empty ⟨0, 0⟩).jw.f
      = ascii "\x7b\n      \"seq_0\": null\n   \x7d" ∧
    (read_header ⟨set_annotated, 2 ^ 31 + 12, 2⟩).map (fun r => (r.1, r.2.1, r.2.2.1, r.2.2.2.p))
      = some (1, 0, 2 ^ 31 - 1, 10) ∧
    10 + (2 ^ 31 - 1) + 3 = 2 ^ 31 + 12 ∧
    (List.range 3).map (fun j => set_annotated (10 + (2 ^ 31 - 1) + j))
      = (List.range 3).map (fun j => mem_of set_plain (2 + j)) ∧
    (decode_value_set (1 + k) bej_jw_init ⟨set_annotated, 2 ^ 31 + 12, 0⟩ D_empty ⟨0, 0⟩).st
      = Status.fail := by
  intro k
  rw [decode_value_set_fuel 1 k _ _ _ _ (by decide),
    decode_value_set_fuel 1 k _ _ _ _ (by decide)]
  exact ⟨by decide, by decide, by decide, by decide, by decide, by decide⟩

theorem to_int_small (n : Nat) (h : n < 2 ^ 31) : to_int (sub64 n 0) = (n : Int) := by
  have h1 : sub64 n 0 = n := by
    simp only [sub64]
    omega
  have h2 : n % 2 ^ 32 = n := Nat.mod_eq_of_lt (by omega)
  simp only [to_int, h1, h2]
  rw [if_pos h]

theorem br_u8_at (bej : Nat → Byte) (n p : Nat) (h : p < n) :
    bej_br_u8 ⟨bej, n, p⟩ = some (bej p, ⟨bej, n, wrap64 (p + 1)⟩) := by
  unfold bej_br_u8
  rw [if_neg (by simpa using h)]

theorem br_u8_end (bej : Nat → Byte) (n p : Nat) (h : n ≤ p) :
    bej_br_u8 ⟨bej, n, p⟩ = none := by
  unfold bej_br_u8
  rw [if_pos (by simpa using h)]

theorem decode_rejects_run (fuel : Nat) (bej : Nat → Byte) (n : Nat) (D : bej_dict)
    (h : n < 7 ∨ ∃ S F L br2, read_header ⟨bej, n, 7⟩ = some (S, F, L, br2) ∧
      F.val >>> 4 ≠ 0) :
    ∃ br, bej_decode_to_json fuel bej n D = ⟨Status.fail, bej_jw_init, br⟩ := by
  have hp : wrap64 (wrap64 (0 + 4) + 2) = 6 := by decide
  have h7 : wrap64 (6 + 1) = 7 := by decide
  unfold bej_decode_to_json
  dsimp only [bej_br_init]
  rw [hp]
  by_cases hleft : bej_br_left ⟨bej, n, 0⟩ < 7
  · rw [if_pos hleft]
    exact ⟨_, rfl⟩
  · rw [if_neg hleft]
    rcases h with h | ⟨S, F, L, br2, hh, hF⟩
    · exfalso
      apply hleft
      unfold bej_br_left
      rw [to_int_small n (by omega)]
      exact_mod_cast h
    · by_cases h6 : n ≤ 6
      · rw [br_u8_end bej n 6 h6]
        exact ⟨_, rfl⟩
      · rw [br_u8_at bej n 6 (by omega), h7]
        dsimp only
        rw [hh]
        dsimp only
        rw [if_pos hF]
        exact ⟨_, rfl⟩

/-- The part of C10 that holds: a stream shorter than the 7-byte header, or one whose
top-level tuple has a format nibble other than Set, is rejected with nothing written. -/
theorem decode_rejects_short_or_non_set (fuel : Nat) (bej : Nat → Byte) (n : Nat)
    (D : bej_dict)
    (h : n < 7 ∨ ∃ S F L br2, read_header ⟨bej, n, 7⟩ = some (S, F, L, br2) ∧
      F.val >>> 4 ≠ 0) :
    (bej_decode_to_json fuel bej n D).st = Status.fail ∧
    (bej_decode_to_json fuel bej n D).jw.f = [] := by
  obtain ⟨br, hbr⟩ := decode_rejects_run fuel bej n D h
  rw [hbr]
  exact ⟨rfl, rfl⟩

/-- C10 (failing input): the two 23-byte streams `bej_header_reread 0x20` and
`bej_header_reread 0x30` differ in header byte 1 only; both decodes return success and
their outputs differ, the second member being read from the header bytes after the
first member's skip has moved the cursor to position 0. -/
theorem header_bytes_reread : ∀ k,
    (∀ i, i ≠ 1 → mem_of (bej_header_reread 0x20) i = mem_of (bej_header_reread 0x30) i) ∧
    (skip_payload ⟨mem_of (bej_header_reread 0x20), 23, 23⟩ (2 ^ 64 - 23)).map (fun b => b.p)
      = some 0 ∧
    (bej_decode_to_json (1 + k) (mem_of (bej_header_reread 0x20)) 23 D_empty).st
      = Status.ok ∧
    (bej_decode_to_json (1 + k) (mem_of (bej_header_reread 0x20)) 23 D_empty).jw.f
      = ascii "\x7b\n      \"seq_0\": null,\n   \"seq_0\": null\n   \x7d\n" ∧
    (bej_decode_to_json (1 + k) (mem_of (bej_header_reread 0x30)) 23 D_empty).st
      = Status.ok ∧
    (bej_decode_to_json (1 + k) (mem_of (bej_header_reread 0x30)) 23 D_empty).jw.f
      = ascii "\x7b\n      \"seq_0\": null,\n   \"seq_0\": 0\n   \x7d\n" := by
  intro k
  rw [decode_to_json_fuel 1 k _ _ _ (by decide), decode_to_json_fuel 1 k _ _ _ (by decide)]
  refine ⟨?_, by decide, by decide, by decide, by decide, by decide⟩
  intro i hi
  simp only [mem_of, bej_header_reread]
  rcases i with _ | _ | i
  · rfl
  · exact absurd rfl hi
  · rfl

/-! ## Cluster descent (C11) -/

theorem member_value_set (descend : bej_jsonw → bej_br → bej_cluster → Run) (D : bej_dict)
    (de : Option bej_dict_entry) (L : Nat) (jw : bej_jsonw) (br : bej_br) :
    decode_member_value descend D de 0 L jw br = descend jw br (descent_cluster D de) := by
  unfold decode_member_value
  rw [if_neg (by decide), if_neg (by decide), if_pos rfl]

theorem lookup_empty_cluster (D : bej_dict) (seq : Nat) :
    bej_cluster_lookup_seq D ⟨0, 0⟩ seq = none := by
  have h : ¬ (wrap32 (0 + 0) > D.n) := by
    simp [wrap32]
  simp only [bej_cluster_lookup_seq, bej_cluster_lookup_idx, bej_cluster_lookup_traced]
  rw [if_neg h]
  rfl

theorem header_fields (S : Nat) (F : Byte) (hS : S % 2 = 0) :
    ¬ (S &&& 1 ≠ 0) ∧ wrap16 (S >>> 1) = S / 2 % 65536 ∧ F.val >>> 4 = F.val / 16 := by
  refine ⟨?_, ?_, ?_⟩
  · rw [and_one_eq_mod]; omega
  · rw [Nat.shiftRight_eq_div_pow, wrap16]
    norm_num
  · exact Nat.shiftRight_eq_div_pow _ _

theorem decode_member_plain (descend : bej_jsonw → bej_br → bej_cluster → Run)
    (D : bej_dict) (c : bej_cluster) (jw : bej_jsonw) (br br3 : bej_br) (S L : Nat) (F : Byte)
    (hdr : read_header br = some (S, F, L, br3)) (hS : S % 2 = 0) :
    decode_member descend D c jw br =
      decode_member_value descend D (bej_cluster_lookup_seq D c (S / 2 % 65536))
        (F.val / 16) L
        (bej_jw_key jw (member_name D (bej_cluster_lookup_seq D c (S / 2 % 65536))
          (S / 2 % 65536))) br3 := by
  obtain ⟨h1, h2, h3⟩ := header_fields S F hS
  unfold decode_member
  rw [hdr]
  dsimp only
  rw [if_neg h1, h2, h3]

theorem child_cluster_plain (D : bej_dict) (e : bej_dict_entry)
    (h1 : D.entries_ofs ≤ e.child_off) (h2 : e.child_off < 65536) :
    child_cluster D e = ⟨(e.child_off - D.entries_ofs) / 10, e.child_cnt⟩ := by
  have hs : sub64 e.child_off D.entries_ofs = e.child_off - D.entries_ofs := by
    simp only [sub64]
    omega
  simp only [child_cluster, hs, wrap32]
  congr 1
  omega

/-- C11: a non-annotation Set member whose format nibble is Set and whose lookup returns
an entry `e` with `child_off != 0` has its payload decoded by `decode_value_set` against
the cluster `(((size_t)e.child_off - entries_ofs) / 10, e.child_cnt)`, which for an offset
at or after the entries table is `((e.child_off - entries_ofs) / 10, e.child_cnt)`; on a
lookup miss or `child_off = 0` it is decoded against `(0, 0)`, in which every lookup
misses, so each non-annotation member there gets the key `seq_<n>`; and the round after
a member that decoded successfully runs against the same outer cluster. -/
theorem cluster_descent (fuel : Nat) (D : bej_dict) (c : bej_cluster) (jw : bej_jsonw)
    (br br3 : bej_br) (S L : Nat) (F : Byte)
    (hdr : read_header br = some (S, F, L, br3)) (hS : S % 2 = 0) (hF : F.val / 16 = 0) :
    (∀ e, bej_cluster_lookup_seq D c (S / 2 % 65536) = some e → e.child_off ≠ 0 →
      decode_member (fun jw br c => decode_value_set fuel jw br D c) D c jw br =
        decode_value_set fuel (bej_jw_key jw (member_name D (some e) (S / 2 % 65536))) br3 D
          ⟨(e.child_off + 2 ^ 64 - D.entries_ofs % 2 ^ 64) % 2 ^ 64 / 10 % 2 ^ 32,
           e.child_cnt⟩ ∧
      (D.entries_ofs ≤ e.child_off → e.child_off < 65536 →
        (e.child_off + 2 ^ 64 - D.entries_ofs % 2 ^ 64) % 2 ^ 64 / 10 % 2 ^ 32 =
          (e.child_off - D.entries_ofs) / 10)) ∧
    ((bej_cluster_lookup_seq D c (S / 2 % 65536) = none ∨
        ∃ e, bej_cluster_lookup_seq D c (S / 2 % 65536) = some e ∧ e.child_off = 0) →
      decode_member (fun jw br c => decode_value_set fuel jw br D c) D c jw br =
        decode_value_set fuel
          (bej_jw_key jw (member_name D (bej_cluster_lookup_seq D c (S / 2 % 65536))
            (S / 2 % 65536))) br3 D ⟨0, 0⟩) ∧
    (∀ (descend : bej_jsonw → bej_br → bej_cluster → Run) (jw2 : bej_jsonw)
        (br2 br5 : bej_br) (S2 L2 : Nat) (F2 : Byte),
      read_header br2 = some (S2, F2, L2, br5) → S2 % 2 = 0 →
      decode_member descend D ⟨0, 0⟩ jw2 br2 =
        decode_member_value descend D none (F2.val / 16) L2
          (bej_jw_key jw2 (ascii "seq_" ++ decimal (S2 / 2 % 65536))) br5) ∧
    (∀ (descend : bej_jsonw → bej_br → bej_cluster → Run) (rem : Nat) (jw2 : bej_jsonw)
        (br2 : bej_br),
      (decode_member descend D c jw2 br2).st = Status.ok →
      decode_members descend D c (rem + 1) jw2 br2 =
        decode_members descend D c rem (decode_member descend D c jw2 br2).jw
          (decode_member descend D c jw2 br2).br) := by
  have hm := decode_member_plain (fun jw br c => decode_value_set fuel jw br D c) D c jw br
    br3 S L F hdr hS
  rw [hF, member_value_set] at hm
  refine ⟨?_, ?_, ?_, ?_⟩
  · intro e he hoff
    refine ⟨?_, ?_⟩
    · rw [hm, he]
      simp only [descent_cluster, hoff, ne_eq, not_false_eq_true, if_true, child_cluster,
        sub64, wrap32]
    · intro h1 h2
      omega
  · intro h
    rw [hm]
    rcases h with h | ⟨e, he, h0⟩
    · rw [h]
      rfl
    · rw [he]
      simp only [descent_cluster, h0, ne_eq, not_true_eq_false, if_false]
  · intro descend jw2 br2 br5 S2 L2 F2 hdr2 hS2
    rw [decode_member_plain descend D ⟨0, 0⟩ jw2 br2 br5 S2 L2 F2 hdr2 hS2,
      lookup_empty_cluster]
    rfl
  · intro descend rem jw2 br2 hok
    rw [decode_members]
    simp only [hok]

theorem cluster_descent_witness :
    read_header ⟨mem_of bej_S2, 27, 14⟩ = some (0, 0x00, 7, ⟨mem_of bej_S2, 27, 19⟩) ∧
    bej_cluster_lookup_seq D_S2 ⟨1, 1⟩ (0 / 2 % 65536) = some ⟨0x00, 0, 32, 1, 2, 47⟩ ∧
    decode_member (fun jw br c => decode_value_set 1 jw br D_S2 c) D_S2 ⟨1, 1⟩
        (bej_jw_begin_obj bej_jw_init) ⟨mem_of bej_S2, 27, 14⟩ =
      decode_value_set 1 (bej_jw_key (bej_jw_begin_obj bej_jw_init)
        (member_name D_S2 (some ⟨0x00, 0, 32, 1, 2, 47⟩) (0 / 2 % 65536)))
        ⟨mem_of bej_S2, 27, 19⟩ D_S2
        ⟨((32 : Nat) + 2 ^ 64 - D_S2.entries_ofs % 2 ^ 64) % 2 ^ 64 / 10 % 2 ^ 32, 1⟩ ∧
    (bej_decode_to_json 2 (mem_of bej_S2) 27 D_S2).st = Status.ok ∧
    (bej_decode_to_json 2 (mem_of bej_S2) 27 D_S2).jw.f =
      ascii "\x7b\n      \"N\": \x7b\n            \"X\": 7\n      \x7d\n   \x7d\n" :=
  ⟨rfl, by decide,
   ((cluster_descent 1 D_S2 ⟨1, 1⟩ (bej_jw_begin_obj bej_jw_init) ⟨mem_of bej_S2, 27, 14⟩
      ⟨mem_of bej_S2, 27, 19⟩ 0 7 0x00 rfl (by decide) (by decide)).1
      ⟨0x00, 0, 32, 1, 2, 47⟩ (by decide) (by decide)).1,
   by decide, by decide⟩

/-! ## Enum members (C12, C13) -/

theorem skip_payload_ok (br : bej_br) (L : Nat) (hn : br.n < 2 ^ 64) (hp : br.p ≤ br.n)
    (hrem : br.n - br.p < 2 ^ 31) (hL : L ≤ br.n - br.p) :
    skip_payload br L = some { br with p := br.p + L } := by
  have hs : sub64 br.n br.p = br.n - br.p := by
    simp only [sub64]
    omega
  have h1 : (br.n - br.p) % 2 ^ 32 = br.n - br.p := Nat.mod_eq_of_lt (by omega)
  have h2 : L % 2 ^ 32 = L := Nat.mod_eq_of_lt (by omega)
  have hL31 : L < 2 ^ 31 := by omega
  have hw : wrap64 (br.p + L) = br.p + L := Nat.mod_eq_of_lt (by omega)
  have hlt : ¬ (bej_br_left br < to_int L) := by
    simp only [bej_br_left, to_int, hs, h1, h2]
    rw [if_pos hrem, if_pos hL31]
    exact_mod_cast Nat.not_lt.mpr hL
  unfold skip_payload
  rw [if_neg hlt, hw]

theorem member_value_enum (descend : bej_jsonw → bej_br → bej_cluster → Run) (D : bej_dict)
    (de : Option bej_dict_entry) (L : Nat) (jw : bej_jsonw) (br : bej_br) :
    decode_member_value descend D de 4 L jw br =
      match bej_read_nnint br with
      | none => ⟨Status.fail, jw, br⟩
      | some (opt_idx, _) =>
        match skip_payload br L with
        | none => ⟨Status.fail, jw, br⟩
        | some br1 =>
          match enum_optname D de opt_idx with
          | none => ⟨Status.fault, jw, br1⟩
          | some optname => ⟨Status.ok, bej_jw_str jw optname, br1⟩ := by
  unfold decode_member_value
  rw [if_neg (by decide), if_neg (by decide), if_neg (by decide), if_neg (by decide),
    if_pos rfl]

/-- C12 (as amended): for an Enum member whose `L` payload bytes are available on a
reader with fewer than `2^31` bytes remaining, whose payload starts with a readable nnint
ordinal `k <= 65535`, and whose entry `e` has `child_off != 0`, `child_cnt != 0` and a
child cluster in which the lookup of `k` (the first entry with `seq = k`) returns an
entry with a non-zero name offset that `bej_dict_name_at` resolves: the decoder writes
that name as the JSON string and leaves the cursor exactly `L` bytes after the start of
the payload, whatever the encoded width of the ordinal. -/
theorem enum_member_resolved (descend : bej_jsonw → bej_br → bej_cluster → Run)
    (D : bej_dict) (e opt : bej_dict_entry) (L k : Nat) (jw : bej_jsonw) (br bv : bej_br)
    (name : List Byte)
    (hn : br.n < 2 ^ 64) (hp : br.p ≤ br.n) (hrem : br.n - br.p < 2 ^ 31)
    (hL : L ≤ br.n - br.p)
    (hk : bej_read_nnint br = some (k, bv)) (hk16 : k ≤ 65535)
    (hoff : e.child_off ≠ 0) (hcnt : e.child_cnt ≠ 0)
    (hopt : bej_cluster_lookup_seq D (child_cluster D e) k = some opt)
    (hno : opt.name_off ≠ 0) (hname : bej_dict_name_at D opt.name_off = some name) :
    decode_member_value descend D (some e) 4 L jw br =
      ⟨Status.ok, bej_jw_str jw name, { br with p := br.p + L }⟩ := by
  have hw : wrap16 k = k := Nat.mod_eq_of_lt (by omega)
  have hname2 : enum_optname D (some e) k = some name := by
    simp only [enum_optname, hoff, hcnt, ne_eq, not_false_eq_true, and_self, if_true, hw,
      hopt, hno, hname]
  rw [member_value_enum, hk]
  dsimp only
  rw [skip_payload_ok br L hn hp hrem hL]
  dsimp only
  rw [hname2]

theorem enum_member_resolved_witness :
    bej_read_nnint ⟨mem_of bej_S4, 21, 19⟩ = some (1, ⟨mem_of bej_S4, 21, 21⟩) ∧
    bej_cluster_lookup_seq D_S4 (child_cluster D_S4 ⟨0x40, 0, 32, 2, 6, 57⟩) 1
      = some ⟨0x00, 1, 0, 0, 3, 67⟩ ∧
    bej_dict_name_at D_S4 67 = some (ascii "On") ∧
    decode_member_value (fun jw br _ => ⟨Status.fail, jw, br⟩) D_S4
        (some ⟨0x40, 0, 32, 2, 6, 57⟩) 4 2 bej_jw_init ⟨mem_of bej_S4, 21, 19⟩ =
      ⟨Status.ok, bej_jw_str bej_jw_init (ascii "On"), ⟨mem_of bej_S4, 21, 19 + 2⟩⟩ :=
  ⟨rfl, by decide, by decide,
   enum_member_resolved (fun jw br _ => ⟨Status.fail, jw, br⟩) D_S4 ⟨0x40, 0, 32, 2, 6, 57⟩
     ⟨0x00, 1, 0, 0, 3, 67⟩ 2 1 bej_jw_init ⟨mem_of bej_S4, 21, 19⟩ ⟨mem_of bej_S4, 21, 21⟩
     (ascii "On") (by decide) (by decide) (by decide) (by decide) rfl (by decide) (by decide)
     (by decide) (by decide) (by decide) (by decide)⟩

/-- C12 (counterexample): in `D_enum_dup` the child cluster `(2, 2)` of the Enum entry
holds an entry with sequence number 1 and the resolvable name `On` (index 3), but the
first entry with sequence number 1 (index 2) has `name_off = 0`; for the Enum member of
`bej_S4` (ordinal 1, `L = 2`, 2 bytes remaining) the decoder writes `EnumOption`, not
`On`. -/
theorem enum_first_match_unnamed :
    bej_dict_load (mem_of dict_enum_dup) 66 = some D_enum_dup ∧
    child_cluster D_enum_dup (D_enum_dup.ent.getD 1 default) = ⟨2, 2⟩ ∧
    (D_enum_dup.ent.getD 3 default).seq = 1 ∧
    bej_dict_name_at D_enum_dup (D_enum_dup.ent.getD 3 default).name_off
      = some (ascii "On") ∧
    (bej_read_nnint ⟨mem_of bej_S4, 21, 19⟩).map (fun r => r.1) = some 1 ∧
    (decode_member_value (fun jw br _ => ⟨Status.fail, jw, br⟩) D_enum_dup
      (D_enum_dup.ent.getD 1 default) 4 2 bej_jw_init ⟨mem_of bej_S4, 21, 19⟩).st
      = Status.ok ∧
    (decode_member_value (fun jw br _ => ⟨Status.fail, jw, br⟩) D_enum_dup
      (D_enum_dup.ent.getD 1 default) 4 2 bej_jw_init ⟨mem_of bej_S4, 21, 19⟩).jw
      = bej_jw_str bej_jw_init (ascii "EnumOption") ∧
    (decode_member_value (fun jw br _ => ⟨Status.fail, jw, br⟩) D_enum_dup
      (D_enum_dup.ent.getD 1 default) 4 2 bej_jw_init ⟨mem_of bej_S4, 21, 19⟩).jw
      ≠ bej_jw_str bej_jw_init (ascii "On") :=
  ⟨rfl, by decide, by decide, by decide, by decide, by decide, by decide, by decide⟩

theorem enum_optname_default (D : bej_dict) (de : Option bej_dict_entry) (k : Nat)
    (h : de = none ∨ ∃ e, de = some e ∧
      (e.child_off = 0 ∨ e.child_cnt = 0 ∨
        bej_cluster_lookup_seq D (child_cluster D e) (wrap16 k) = none ∨
        ∃ opt, bej_cluster_lookup_seq D (child_cluster D e) (wrap16 k) = some opt ∧
          opt.name_off = 0)) :
    enum_optname D de k = some (ascii "EnumOption") := by
  rcases h with h | ⟨e, he, h⟩
  · rw [h]; rfl
  · rw [he]
    unfold enum_optname
    dsimp only
    by_cases hc : e.child_off ≠ 0 ∧ e.child_cnt ≠ 0
    · rw [if_pos hc]
      rcases h with h | h | h | ⟨opt, ho, h0⟩
      · exact absurd h hc.1
      · exact absurd h hc.2
      · rw [h]
      · rw [ho]
        dsimp only
        rw [if_neg (by simpa using h0)]
    · rw [if_neg hc]

/-- C13 (failing input): in `D_enum_bad` the option with sequence number 1 has the name
offset 200, outside the 53-byte blob, so `bej_dict_name_at` returns NULL; decoding
`bej_S4` (an Enum member with ordinal 1) passes that NULL to `bej_jw_str`, which reads
through it: the run leaves defined behaviour instead of writing `EnumOption`. -/
theorem enum_null_name_faults : ∀ k,
    bej_dict_load (mem_of dict_enum_bad) 53 = some D_enum_bad ∧
    bej_dict_name_at D_enum_bad 200 = none ∧
    enum_optname D_enum_bad (D_enum_bad.ent.getD 1 default) 1 = none ∧
    (bej_decode_to_json (1 + k) (mem_of bej_S4) 21 D_enum_bad).st = Status.fault := by
  intro k
  rw [decode_to_json_fuel 1 k _ _ _ (by decide)]
  exact ⟨rfl, by decide, by decide, by decide⟩

/-! ## Integer payloads (C15, C16, C17) -/

theorem int_loop_spec (k : Nat) :
    ∀ (i v : Nat) (br : bej_br), i + k ≤ 8 → v < 2 ^ (8 * i) → br.p + k ≤ br.n →
      br.n < 2 ^ 63 →
      int_loop k i v br =
        some (v + ∑ j ∈ Finset.range k, (br.d (br.p + j)).val * 256 ^ (i + j),
              { br with p := br.p + k }) ∧
      v + ∑ j ∈ Finset.range k, (br.d (br.p + j)).val * 256 ^ (i + j) < 2 ^ (8 * (i + k)) := by
  induction k with
  | zero =>
    intro i v br _ hv _ _
    exact ⟨by simp [int_loop], by simpa using hv⟩
  | succ k ih =>
    intro i v br hik hv hav hn
    have hu : bej_br_u8 br = some (br.d br.p, { br with p := br.p + 1 }) := by
      have hw : wrap64 (br.p + 1) = br.p + 1 := Nat.mod_eq_of_lt (by omega)
      unfold bej_br_u8
      rw [if_neg (by omega), hw]
    have hw8 : wrap64 (8 * i) = 8 * i := Nat.mod_eq_of_lt (by omega)
    have hx := (br.d br.p).isLt
    have hpow : (256 : Nat) ^ i = 2 ^ (8 * i) := by
      rw [show (256 : Nat) = 2 ^ 8 by norm_num, ← pow_mul]
    have hor : v ||| shl64 (br.d br.p).val (8 * i) = v + (br.d br.p).val * 256 ^ i := by
      calc v ||| shl64 (br.d br.p).val (8 * i)
          = 2 ^ (8 * i) * (br.d br.p).val ||| v := by
            rw [shl64_byte _ _ (by omega), Nat.or_comm]
        _ = 2 ^ (8 * i) * (br.d br.p).val + v := (Nat.mul_add_lt_is_or hv _).symm
        _ = v + (br.d br.p).val * 256 ^ i := by rw [hpow]; ring
    have hv2 : v + (br.d br.p).val * 256 ^ i < 2 ^ (8 * (i + 1)) := by
      have : (2:Nat) ^ (8 * (i + 1)) = 2 ^ (8 * i) * 256 := by
        rw [show 8 * (i + 1) = 8 * i + 8 by ring, pow_add]; norm_num
      rw [this, hpow]
      have hpos : 0 < (2:Nat) ^ (8 * i) := Nat.two_pow_pos _
      nlinarith
    obtain ⟨ih1, ih2⟩ := ih (i + 1) (v + (br.d br.p).val * 256 ^ i) { br with p := br.p + 1 }
      (by omega) hv2 (by simp only; omega) hn
    have hsum : v + ∑ j ∈ Finset.range (k + 1), (br.d (br.p + j)).val * 256 ^ (i + j)
        = v + (br.d br.p).val * 256 ^ i
          + ∑ j ∈ Finset.range k, (br.d (br.p + 1 + j)).val * 256 ^ (i + 1 + j) := by
      rw [Finset.sum_range_succ']
      simp only [Nat.add_zero]
      have : ∀ j, (br.d (br.p + (j + 1))).val * 256 ^ (i + (j + 1))
          = (br.d (br.p + 1 + j)).val * 256 ^ (i + 1 + j) := by
        intro j
        rw [show br.p + (j + 1) = br.p + 1 + j by omega, show i + (j + 1) = i + 1 + j by omega]
      simp only [this]
      omega
    dsimp only at ih1 ih2
    refine ⟨?_, ?_⟩
    · rw [int_loop, hu]
      dsimp only
      rw [hw8, hor, ih1, hsum, show br.p + (k + 1) = br.p + 1 + k by omega]
    · rw [hsum, show i + (k + 1) = i + 1 + k by omega]
      exact ih2

theorem to_i64_small (x : Nat) (h : x < 2 ^ 63) : to_i64 x = (x : Int) := by
  have h1 : x % 2 ^ 64 = x := Nat.mod_eq_of_lt (by omega)
  simp only [to_i64, h1]
  rw [if_pos h]

/-- C15: for an Integer payload of `L <= 8` bytes that is available (on a buffer of fewer
than `2^63` bytes), `decode_value_int` consumes exactly `L` bytes and writes the decimal
rendering of the little-endian sum of the bytes read as a signed 64-bit value: for
`L <= 7` that is the sum itself, never negative (`L = 0` writes `0`); for `L = 8` it is
the sum when below `2^63` and the sum minus `2^64` otherwise. -/
theorem int_payload_spec (jw : bej_jsonw) (br : bej_br) (L : Nat) (hL : L ≤ 8)
    (hn : br.n < 2 ^ 63) (hav : br.p + L ≤ br.n) :
    decode_value_int jw br L =
      ⟨Status.ok,
       bej_jw_int jw (to_i64 (∑ j ∈ Finset.range L, (br.d (br.p + j)).val * 256 ^ j)),
       { br with p := br.p + L }⟩ ∧
    (L ≤ 7 →
      bej_jw_int jw (to_i64 (∑ j ∈ Finset.range L, (br.d (br.p + j)).val * 256 ^ j)) =
        fputs (decimal (∑ j ∈ Finset.range L, (br.d (br.p + j)).val * 256 ^ j)) jw) ∧
    (L = 0 →
      bej_jw_int jw (to_i64 (∑ j ∈ Finset.range L, (br.d (br.p + j)).val * 256 ^ j)) =
        fputs (ascii "0") jw) ∧
    (L = 8 →
      to_i64 (∑ j ∈ Finset.range L, (br.d (br.p + j)).val * 256 ^ j) =
        if ∑ j ∈ Finset.range L, (br.d (br.p + j)).val * 256 ^ j < 2 ^ 63
        then ((∑ j ∈ Finset.range L, (br.d (br.p + j)).val * 256 ^ j : Nat) : Int)
        else ((∑ j ∈ Finset.range L, (br.d (br.p + j)).val * 256 ^ j : Nat) : Int) - 2 ^ 64) := by
  obtain ⟨h1, h2⟩ := int_loop_spec L 0 0 br (by omega) (by norm_num) hav hn
  simp only [Nat.zero_add] at h1 h2
  refine ⟨?_, ?_, ?_, ?_⟩
  · unfold decode_value_int
    rw [h1]
  · intro h7
    have hlt : ∑ j ∈ Finset.range L, (br.d (br.p + j)).val * 256 ^ j < 2 ^ 63 :=
      lt_of_lt_of_le h2 (Nat.pow_le_pow_right (by norm_num) (by omega))
    rw [to_i64_small _ hlt]
    unfold bej_jw_int
    rw [if_neg (by exact_mod_cast Nat.not_lt_zero _)]
    rfl
  · intro h0
    subst h0
    rw [Finset.range_zero, Finset.sum_empty]
    rfl
  · intro h8
    have h64 : (∑ j ∈ Finset.range L, (br.d (br.p + j)).val * 256 ^ j) % 2 ^ 64
        = ∑ j ∈ Finset.range L, (br.d (br.p + j)).val * 256 ^ j := by
      apply Nat.mod_eq_of_lt
      rw [h8] at h2
      rw [h8]
      exact h2
    simp only [to_i64, h64]

theorem int_payload_spec_witness :
    (1 : Nat) ≤ 8 ∧ (1 : Nat) < 2 ^ 63 ∧ 0 + 1 ≤ 1 ∧
    decode_value_int bej_jw_init ⟨mem_of [0xFF], 1, 0⟩ 1 =
      ⟨Status.ok,
       bej_jw_int bej_jw_init
         (to_i64 (∑ j ∈ Finset.range 1, ((mem_of [0xFF]) (0 + j)).val * 256 ^ j)),
       ⟨mem_of [0xFF], 1, 0 + 1⟩⟩ ∧
    (decode_value_int bej_jw_init ⟨mem_of [0xFF], 1, 0⟩ 1).jw.f = ascii "255" :=
  ⟨by decide, by decide, by decide,
   (int_payload_spec bej_jw_init ⟨mem_of [0xFF], 1, 0⟩ 1 (by decide) (by decide)
     (by decide)).1,
   by decide⟩

/-- C16 (failing input): an Integer payload of `L = 9` bytes, all available, is accepted:
`decode_value_int` returns success, consumes the 9 bytes and writes a number. -/
theorem int_nine_bytes_accepted :
    (decode_value_int bej_jw_init ⟨mem_of [1, 0, 0, 0, 0, 0, 0, 0, 2], 9, 0⟩ 9).st
      = Status.ok ∧
    (decode_value_int bej_jw_init ⟨mem_of [1, 0, 0, 0, 0, 0, 0, 0, 2], 9, 0⟩ 9).br.p = 9 ∧
    (decode_value_int bej_jw_init ⟨mem_of [1, 0, 0, 0, 0, 0, 0, 0, 2], 9, 0⟩ 9).jw.f
      = ascii "3" ∧
    (bej_decode_to_json 1
      (mem_of [0, 0, 0, 0, 0, 0, 0, 1, 0, 0x00, 1, 14, 1, 1, 1, 0, 0x30, 1, 9,
               1, 0, 0, 0, 0, 0, 0, 0, 2]) 28 D_empty).st = Status.ok := by
  exact ⟨by decide, by decide, by decide, by decide⟩

/-- C17 (failing input): on the 10 bytes `09 01 02 03 04 05 06 07 08 09` the length byte
is 9 and `bej_read_nnint` returns success, leaving the cursor after the 10 bytes. -/
theorem nnint_nine_bytes_accepted :
    (bej_read_nnint ⟨mem_of [9, 1, 2, 3, 4, 5, 6, 7, 8, 9], 10, 0⟩).isSome = true ∧
    (bej_read_nnint ⟨mem_of [9, 1, 2, 3, 4, 5, 6, 7, 8, 9], 10, 0⟩).map (fun r => r.2.p)
      = some 10 := by
  exact ⟨by decide, by decide⟩

/-! ## String payloads and escaping (C18, C19) -/

theorem set_zero_self (s : List Byte) (i : Nat) (h : s.getD i 0 = 0) : s.set i 0 = s := by
  by_cases hi : i < s.length
  · have hg : s[i] = 0 := by
      simpa [List.getD_eq_getElem?_getD, hi] using h
    apply List.ext_getElem
    · simp
    · intro j h1 h2
      by_cases hj : i = j
      · subst hj
        simp [hg]
      · simp [List.getElem_set, hj]
  · exact List.set_eq_of_length_le (by omega)

theorem strip_loop_id (i : Nat) : ∀ s : List Byte, strip_loop i s = s := by
  induction i with
  | zero => intro s; rfl
  | succ i ih =>
    intro s
    by_cases h : s.getD i 0 = 0
    · simp only [strip_loop, h, if_true]
      rw [ih, set_zero_self s i h]
    · simp only [strip_loop, h, if_false]

theorem str_chars_terminated (s : List Byte) :
    str_chars (s ++ [0]) = str_chars (s.takeWhile (fun c => decide (c ≠ 0))) := by
  induction s with
  | nil => simp [str_chars]
  | cons c cs ih =>
    by_cases hc : c = 0
    · simp [str_chars, hc]
    · rw [List.cons_append, List.takeWhile_cons_of_pos (by simpa using hc)]
      simp only [str_chars, hc, if_false]
      congr 1

theorem str_chars_escape (s : List Byte) (h : ∀ c ∈ s, c ≠ 0) :
    str_chars s = json_escape s := by
  induction s with
  | nil => rfl
  | cons c cs ih =>
    have hc : c ≠ 0 := h c (List.mem_cons_self _ _)
    have ih1 := ih (fun x hx => h x (List.mem_cons_of_mem _ hx))
    simp only [str_chars, hc, if_false, ih1, json_escape, List.flatMap_cons]
    by_cases h34 : c = 34
    · simp [h34]
    · by_cases h92 : c = 92
      · simp [h92]
      · simp [h34, h92]

theorem takeWhile_nonzero (s : List Byte) :
    ∀ c ∈ s.takeWhile (fun c => decide (c ≠ 0)), c ≠ 0 := by
  intro c hc
  have := List.mem_takeWhile_imp hc
  simpa using this

theorem br_get_ok (br : bej_br) (L : Nat) (hn : br.n < 2 ^ 63) (hav : br.p + L ≤ br.n) :
    bej_br_get br L = Get.ok ((List.range' br.p L).map br.d) { br with p := br.p + L } := by
  have hw : wrap64 (br.p + L) = br.p + L := Nat.mod_eq_of_lt (by omega)
  unfold bej_br_get
  rw [hw, if_neg (by omega), if_neg (by omega)]

theorem strip_trailing_zeros_tail (s : List Byte) (z : Nat) (h : ∀ c ∈ s, c ≠ 0) :
    strip_trailing_zeros (s ++ List.replicate z 0) = s ∧
    (s ++ List.replicate z 0).takeWhile (fun c => decide (c ≠ 0)) = s := by
  constructor
  · unfold strip_trailing_zeros
    rw [List.reverse_append, List.reverse_replicate,
      List.dropWhile_append_of_pos (by
        intro a ha
        simpa using (List.eq_of_mem_replicate ha))]
    have : List.dropWhile (fun c => decide (c = 0)) s.reverse = s.reverse := by
      cases hr : s.reverse with
      | nil => rfl
      | cons a t =>
        have ha : a ∈ s := by
          rw [← List.mem_reverse, hr]
          exact List.mem_cons_self _ _
        rw [List.dropWhile_cons_of_neg (by simpa using h a ha)]
    rw [this, List.reverse_reverse]
  · rw [List.takeWhile_append_of_pos (by
      intro a ha
      simpa using h a ha)]
    cases z with
    | zero => simp
    | succ z => simp [List.replicate_succ]

/-- C18 (as amended): for a String payload of `L` available bytes (on a buffer of fewer
than `2^63 - 1` bytes, so that the `L + 1` bytes of the copy can be allocated)
`decode_value_string` consumes exactly `L` bytes and writes, quoted and escaped, the
payload bytes before the first zero byte; when the zero bytes of the
payload all lie at its end this is the payload with all of its trailing zero bytes
removed and nothing else removed; `L = 0` writes the empty string. -/
theorem string_payload_spec (jw : bej_jsonw) (br : bej_br) (L : Nat)
    (hn : br.n + 1 < 2 ^ 63) (hav : br.p + L ≤ br.n) :
    decode_value_string jw br L =
      ⟨Status.ok,
       fputs ([34] ++ json_escape
         (((List.range' br.p L).map br.d).takeWhile (fun c => decide (c ≠ 0))) ++ [34]) jw,
       { br with p := br.p + L }⟩ ∧
    (∀ (s : List Byte) (z : Nat), (List.range' br.p L).map br.d = s ++ List.replicate z 0 →
      (∀ c ∈ s, c ≠ 0) →
      ((List.range' br.p L).map br.d).takeWhile (fun c => decide (c ≠ 0)) =
        strip_trailing_zeros ((List.range' br.p L).map br.d)) ∧
    (L = 0 → decode_value_string jw br L = ⟨Status.ok, fputs (ascii "\"\"") jw, br⟩) := by
  have hm : malloc_ok (wrap64 (L + 1)) = true := by
    have hlt : L + 1 < 2 ^ 63 := by omega
    have hw : wrap64 (L + 1) = L + 1 := Nat.mod_eq_of_lt (by omega)
    rw [hw]
    exact decide_eq_true hlt
  have hmain : decode_value_string jw br L =
      ⟨Status.ok,
       fputs ([34] ++ json_escape
         (((List.range' br.p L).map br.d).takeWhile (fun c => decide (c ≠ 0))) ++ [34]) jw,
       { br with p := br.p + L }⟩ := by
    unfold decode_value_string
    rw [if_pos hm, br_get_ok br L (by omega) hav]
    dsimp only
    rw [strip_loop_id, bej_jw_str, str_chars_terminated,
      str_chars_escape _ (takeWhile_nonzero _)]
  refine ⟨hmain, ?_, ?_⟩
  · intro s z hs hnz
    rw [hs, (strip_trailing_zeros_tail s z hnz).1, (strip_trailing_zeros_tail s z hnz).2]
  · intro h0
    subst h0
    rw [hmain]
    rfl

theorem string_payload_spec_witness :
    (4 : Nat) + 1 < 2 ^ 63 ∧ 0 + 4 ≤ 4 ∧
    decode_value_string bej_jw_init ⟨mem_of [0x61, 0x62, 0, 0], 4, 0⟩ 4 =
      ⟨Status.ok,
       fputs ([34] ++ json_escape
         (((List.range' 0 4).map (mem_of [0x61, 0x62, 0, 0])).takeWhile
           (fun c => decide (c ≠ 0))) ++ [34]) bej_jw_init,
       ⟨mem_of [0x61, 0x62, 0, 0], 4, 0 + 4⟩⟩ ∧
    (decode_value_string bej_jw_init ⟨mem_of [0x61, 0x62, 0, 0], 4, 0⟩ 4).jw.f
      = ascii "\"ab\"" :=
  ⟨by decide, by decide,
   (string_payload_spec bej_jw_init ⟨mem_of [0x61, 0x62, 0, 0], 4, 0⟩ 4 (by decide)
     (by decide)).1,
   by decide⟩

/-- C18 (counterexample): the 3-byte payload `61 00 62` has no trailing zero byte, so
with its trailing zero bytes removed it is still `61 00 62`; `decode_value_string`
consumes the 3 bytes and writes the string `a`. -/
theorem string_embedded_zero_truncated :
    (decode_value_string bej_jw_init ⟨mem_of [0x61, 0, 0x62], 3, 0⟩ 3).st = Status.ok ∧
    (decode_value_string bej_jw_init ⟨mem_of [0x61, 0, 0x62], 3, 0⟩ 3).br.p = 3 ∧
    (decode_value_string bej_jw_init ⟨mem_of [0x61, 0, 0x62], 3, 0⟩ 3).jw.f
      = [34, 0x61, 34] ∧
    strip_trailing_zeros [0x61, 0, 0x62] = [0x61, 0, 0x62] ∧
    (decode_value_string bej_jw_init ⟨mem_of [0x61, 0, 0x62], 3, 0⟩ 3).jw.f
      ≠ [34] ++ json_escape (strip_trailing_zeros [0x61, 0, 0x62]) ++ [34] := by
  exact ⟨by decide, by decide, by decide, by decide, by decide⟩

/-- The half of C19 that holds: `bej_jw_str` on a NUL-free string writes a quote, the
string escaped as specified, and a quote. -/
theorem jw_str_escapes (j : bej_jsonw) (s : List Byte) (h : ∀ c ∈ s, c ≠ 0) :
    bej_jw_str j s = fputs ([34] ++ json_escape s ++ [34]) j := by
  rw [bej_jw_str, str_chars_escape s h]

/-- C19 (failing input): for the NUL-free key `a\nb` (bytes `61 0A 62`) `bej_jw_key`
writes the newline byte raw between the quotes, where `bej_jw_str` writes the two
characters `\n`. -/
theorem key_newline_raw :
    (bej_jw_key bej_jw_init [0x61, 10, 0x62]).f = [34, 0x61, 10, 0x62, 34, 58, 32] ∧
    json_escape [0x61, 10, 0x62] = [0x61, 92, 110, 0x62] ∧
    (bej_jw_key bej_jw_init [0x61, 10, 0x62]).f
      ≠ [34] ++ json_escape [0x61, 10, 0x62] ++ [34] ++ ascii ": " ∧
    (bej_jw_str bej_jw_init [0x61, 10, 0x62]).f
      = [34] ++ json_escape [0x61, 10, 0x62] ++ [34] := by
  exact ⟨by decide, by decide, by decide, by decide⟩

/-! ## Payload skips on large streams (C14, C20) -/

/-- C14 (failing input): in `bej_large_array` (`2^32 + 8` bytes) the Array member's
single element (header at 18, Null, `Le = 0`) is readable and `2^32 - 13` bytes remain
behind its header; the skip check fails and the decode returns failure. The same Array
in the 30-byte stream `bej_small_array` is written as `[null]`. -/
theorem array_rejected_on_large_stream : ∀ k,
    (read_header ⟨bej_large_array, 2 ^ 32 + 8, 18⟩).map
        (fun r => (r.1, r.2.1, r.2.2.1, r.2.2.2.p)) = some (0, 0x20, 0, 21) ∧
    (skip_payload ⟨bej_large_array, 2 ^ 32 + 8, 21⟩ 0).isNone = true ∧
    (read_header ⟨bej_large_array, 2 ^ 32 + 8, 21⟩).map
        (fun r => (r.1, r.2.1, r.2.2.1, r.2.2.2.p)) = some (2, 0x50, 2 ^ 32 - 21, 29) ∧
    29 + (2 ^ 32 - 21) = 2 ^ 32 + 8 ∧
    (bej_decode_to_json (1 + k) bej_large_array (2 ^ 32 + 8) D_empty).st = Status.fail ∧
    (bej_decode_to_json (1 + k) bej_large_array (2 ^ 32 + 8) D_empty).jw.f =
      ascii "\x7b\n      \"seq_0\": [" ∧
    (bej_decode_to_json (1 + k) (mem_of bej_small_array) 30 D_empty).st = Status.ok ∧
    (bej_decode_to_json (1 + k) (mem_of bej_small_array) 30 D_empty).jw.f =
      ascii "\x7b\n      \"seq_0\": [null],\n   \"seq_1\": \"a\"\n   \x7d\n" := by
  intro k
  rw [decode_to_json_fuel 1 k _ _ _ (by decide), decode_to_json_fuel 1 k _ _ _ (by decide)]
  exact ⟨by decide, by decide, by decide, by decide, by decide, by decide, by decide,
    by decide⟩

/-- C20 (failing input): in `bej_large_null` (`2^32 + 8` bytes) the Null member (header
at 12, `L = 0`) has `2^32 - 7` bytes remaining behind its header; the skip check fails
and the decode returns failure after the key has been written. The same member in the
24-byte stream `bej_small_null` is written as `null` and the String member after it is
decoded. -/
theorem null_member_rejected_on_large_stream : ∀ k,
    (read_header ⟨bej_large_null, 2 ^ 32 + 8, 12⟩).map
        (fun r => (r.1, r.2.1, r.2.2.1, r.2.2.2.p)) = some (0, 0x20, 0, 15) ∧
    (skip_payload ⟨bej_large_null, 2 ^ 32 + 8, 15⟩ 0).isNone = true ∧
    (read_header ⟨bej_large_null, 2 ^ 32 + 8, 15⟩).map
        (fun r => (r.1, r.2.1, r.2.2.1, r.2.2.2.p)) = some (2, 0x50, 2 ^ 32 - 15, 23) ∧
    23 + (2 ^ 32 - 15) = 2 ^ 32 + 8 ∧
    (bej_decode_to_json (1 + k) bej_large_null (2 ^ 32 + 8) D_empty).st = Status.fail ∧
    (bej_decode_to_json (1 + k) bej_large_null (2 ^ 32 + 8) D_empty).jw.f =
      ascii "\x7b\n      \"seq_0\": " ∧
    (bej_decode_to_json (1 + k) (mem_of bej_small_null) 24 D_empty).st = Status.ok ∧
    (bej_decode_to_json (1 + k) (mem_of bej_small_null) 24 D_empty).jw.f =
      ascii "\x7b\n      \"seq_0\": null,\n   \"seq_1\": \"a\"\n   \x7d\n" := by
  intro k
  rw [decode_to_json_fuel 1 k _ _ _ (by decide), decode_to_json_fuel 1 k _ _ _ (by decide)]
  exact ⟨by decide, by decide, by decide, by decide, by decide, by decide, by decide,
    by decide⟩

/-- The part of C20 that holds on streams with fewer than `2^31` bytes remaining: a
member with format nibble 2 or 6..15 whose `L` payload bytes are available is written as
`null` and the cursor advances by exactly `L`, whatever the payload bytes are. -/
theorem null_member_skipped (descend : bej_jsonw → bej_br → bej_cluster → Run)
    (D : bej_dict) (de : Option bej_dict_entry) (fmt L : Nat) (jw : bej_jsonw) (br : bej_br)
    (hfmt : fmt = 2 ∨ 6 ≤ fmt) (hn : br.n < 2 ^ 64) (hp : br.p ≤ br.n)
    (hrem : br.n - br.p < 2 ^ 31) (hL : L ≤ br.n - br.p) :
    decode_member_value descend D de fmt L jw br =
      ⟨Status.ok, fputs (ascii "null") jw, { br with p := br.p + L }⟩ := by
  unfold decode_member_value
  rw [if_neg (by omega), if_neg (by omega), if_neg (by omega), if_neg (by omega),
    if_neg (by omega), skip_payload_ok br L hn hp hrem hL]

/-! ## Reader bounds (C24) -/

theorem br_get_fail (br : bej_br) (k : Nat) (hk : br.p + k < 2 ^ 64) (h : br.n < br.p + k) :
    bej_br_get br k = Get.fail := by
  have hw : wrap64 (br.p + k) = br.p + k := Nat.mod_eq_of_lt hk
  unfold bej_br_get
  rw [hw, if_pos (by omega)]

/-- C24 (failing input): on the cursor `p = 1`, `n = 1` the request `k = 2^64 - 1`
passes the check `p + k > n` (the `size_t` sum wraps to 0) although no byte remains, and
the copy of `2^64 - 1` bytes runs past the buffer; `decode_value_string` reaches this
with a String tuple declaring `L = 2^64 - 1` (`bej_string_wrap`). -/
theorem br_get_wraps : ∀ m,
    wrap64 (1 + (2 ^ 64 - 1)) = 0 ∧
    (bej_br_get ⟨mem_of [0x61], 1, 1⟩ (2 ^ 64 - 1)).st = Status.fault ∧
    (bej_br_get ⟨mem_of [0x61], 1, 1⟩ 1).st = Status.fail ∧
    (read_header ⟨mem_of bej_string_wrap, 23, 12⟩).map
        (fun r => (r.1, r.2.1, r.2.2.1, r.2.2.2.p)) = some (0, 0x50, 2 ^ 64 - 1, 23) ∧
    (bej_decode_to_json (1 + m) (mem_of bej_string_wrap) 23 D_empty).st = Status.fault := by
  intro m
  rw [decode_to_json_fuel 1 m _ _ _ (by decide)]
  exact ⟨by decide, by decide, by decide, by decide, by decide⟩

/-! ## Sequence numbers modulo 2^16 (C27) -/

theorem enum_optname_mod (D : bej_dict) (de : Option bej_dict_entry) (k : Nat) :
    enum_optname D de k = enum_optname D de (k % 65536) := by
  have h : wrap16 (k % 65536) = wrap16 k := by
    simp only [wrap16]
    norm_num
  unfold enum_optname
  rw [h]

/-- C27: for a non-annotation member with sequence field `S` the key handed to the
writer is the name resolved for `(S / 2) mod 65536` (dictionary name, or `seq_` followed
by the decimal digits of that reduced number), so two sequence fields with the same
annotation bit whose halves agree modulo 65536 give the same decoding of the member; and
the Enum branch looks up `opt_idx mod 65536`. -/
theorem seq_reduced_mod_65536 (descend : bej_jsonw → bej_br → bej_cluster → Run)
    (D : bej_dict) (c : bej_cluster) (jw : bej_jsonw) (br br3 : bej_br) (S L : Nat) (F : Byte)
    (hdr : read_header br = some (S, F, L, br3)) (hS : S % 2 = 0) :
    decode_member descend D c jw br =
      decode_member_value descend D (bej_cluster_lookup_seq D c (S / 2 % 65536))
        (F.val / 16) L
        (bej_jw_key jw (member_name D (bej_cluster_lookup_seq D c (S / 2 % 65536))
          (S / 2 % 65536))) br3 ∧
    (∀ (br1 : bej_br) (S1 : Nat), read_header br1 = some (S1, F, L, br3) → S1 % 2 = 0 →
      S1 / 2 % 65536 = S / 2 % 65536 →
      decode_member descend D c jw br1 = decode_member descend D c jw br) ∧
    (bej_cluster_lookup_seq D c (S / 2 % 65536) = none →
      member_name D (bej_cluster_lookup_seq D c (S / 2 % 65536)) (S / 2 % 65536)
        = ascii "seq_" ++ decimal (S / 2 % 65536)) ∧
    S / 2 % 65536 < 65536 ∧
    (∀ (de : Option bej_dict_entry) (k : Nat),
      enum_optname D de k = enum_optname D de (k % 65536)) := by
  have h1 := decode_member_plain descend D c jw br br3 S L F hdr hS
  refine ⟨h1, ?_, ?_, Nat.mod_lt _ (by norm_num), fun de k => enum_optname_mod D de k⟩
  · intro br1 S1 hdr1 hS1 hmod
    rw [h1, decode_member_plain descend D c jw br1 br3 S1 L F hdr1 hS1, hmod]
  · intro hnone
    rw [hnone]
    rfl

theorem seq_reduced_mod_65536_witness :
    read_header ⟨mem_of bej_S6_high, 22, 14⟩
      = some (131270, 0x30, 1, ⟨mem_of bej_S6_high, 22, 21⟩) ∧
    131270 / 2 % 65536 = 99 ∧
    decode_member (fun jw br _ => ⟨Status.fail, jw, br⟩) D_test ⟨1, 1⟩ bej_jw_init
        ⟨mem_of bej_S6_high, 22, 14⟩ =
      decode_member_value (fun jw br _ => ⟨Status.fail, jw, br⟩) D_test
        (bej_cluster_lookup_seq D_test ⟨1, 1⟩ (131270 / 2 % 65536))
        ((0x30 : Byte).val / 16) 1
        (bej_jw_key bej_jw_init (member_name D_test
          (bej_cluster_lookup_seq D_test ⟨1, 1⟩ (131270 / 2 % 65536))
          (131270 / 2 % 65536))) ⟨mem_of bej_S6_high, 22, 21⟩ ∧
    (bej_decode_to_json 1 (mem_of bej_S6_high) 22 D_test).jw.f
      = ascii "\x7b\n      \"seq_99\": 3\n   \x7d\n" :=
  ⟨rfl, by decide,
   (seq_reduced_mod_65536 (fun jw br _ => ⟨Status.fail, jw, br⟩) D_test ⟨1, 1⟩ bej_jw_init
      ⟨mem_of bej_S6_high, 22, 14⟩ ⟨mem_of bej_S6_high, 22, 21⟩ 131270 1 0x30
      rfl (by decide)).1,
   by decide⟩

/-! ## Termination (C26) -/

theorem decode_members_succ (descend : bej_jsonw → bej_br → bej_cluster → Run)
    (D : bej_dict) (c : bej_cluster) (rem : Nat) (jw : bej_jsonw) (br : bej_br) :
    decode_members descend D c (rem + 1) jw br =
      match (decode_member descend D c jw br).st with
      | Status.ok => decode_members descend D c rem (decode_member descend D c jw br).jw
          (decode_member descend D c jw br).br
      | _ => decode_member descend D c jw br := rfl

theorem member_value_skip (descend : bej_jsonw → bej_br → bej_cluster → Run) (D : bej_dict)
    (de : Option bej_dict_entry) (fmt L : Nat) (jw : bej_jsonw) (br : bej_br)
    (hfmt : fmt = 2 ∨ 6 ≤ fmt) :
    decode_member_value descend D de fmt L jw br =
      match skip_payload br L with
      | none => ⟨Status.fail, jw, br⟩
      | some br1 => ⟨Status.ok, fputs (ascii "null") jw, br1⟩ := by
  unfold decode_member_value
  rw [if_neg (by omega), if_neg (by omega), if_neg (by omega), if_neg (by omega),
    if_neg (by omega)]

theorem reenter_no_result (fuel : Nat) : ∀ jw : bej_jsonw,
    (decode_value_set fuel jw ⟨mem_of bej_reenter, 23, 10⟩ D_empty ⟨0, 0⟩).st
      = Status.nofuel := by
  have hcount : bej_read_nnint ⟨mem_of bej_reenter, 23, 10⟩
      = some (2, ⟨mem_of bej_reenter, 23, 12⟩) := rfl
  have hdr1 : read_header ⟨mem_of bej_reenter, 23, 12⟩
      = some (0, 0x20, 2 ^ 64 - 16, ⟨mem_of bej_reenter, 23, 23⟩) := rfl
  have hskip : skip_payload ⟨mem_of bej_reenter, 23, 23⟩ (2 ^ 64 - 16)
      = some ⟨mem_of bej_reenter, 23, 7⟩ := rfl
  have hdr2 : read_header ⟨mem_of bej_reenter, 23, 7⟩
      = some (0, 0x00, 0, ⟨mem_of bej_reenter, 23, 10⟩) := rfl
  have hf1 : ((0x20 : Byte).val / 16) = 2 := by decide
  have hf2 : ((0x00 : Byte).val / 16) = 0 := by decide
  have hc : descent_cluster D_empty none = ⟨0, 0⟩ := rfl
  have hm1 := fun (descend : bej_jsonw → bej_br → bej_cluster → Run) (j : bej_jsonw) =>
    decode_member_plain descend D_empty ⟨0, 0⟩ j _ _ 0 (2 ^ 64 - 16) 0x20 hdr1 (by decide)
  have hm2 := fun (descend : bej_jsonw → bej_br → bej_cluster → Run) (j : bej_jsonw) =>
    decode_member_plain descend D_empty ⟨0, 0⟩ j _ _ 0 0 0x00 hdr2 (by decide)
  induction fuel with
  | zero => intro jw; rfl
  | succ fuel ih =>
    intro jw
    rw [decode_value_set_succ, hcount]
    dsimp only
    rw [show (2 : Nat) = 1 + 1 from rfl, decode_members_succ, hm1, hf1,
      member_value_skip _ _ _ 2 _ _ _ (Or.inl rfl), hskip]
    dsimp only
    rw [show (1 : Nat) = 0 + 1 from rfl, decode_members_succ, hm2, hf2, member_value_set,
      lookup_empty_cluster, hc]
    generalize hX : decode_value_set fuel _ _ _ _ = r
    have hr : r.st = Status.nofuel := by
      rw [← hX]
      exact ih _
    rw [hr]
    dsimp only
    rw [hr]
    exact hr

theorem decode_run_set (fuel : Nat) (bej : Nat → Byte) (n : Nat) (D : bej_dict)
    (S : Nat) (F : Byte) (L : Nat) (br2 : bej_br)
    (hleft : ¬ bej_br_left ⟨bej, n, 0⟩ < 7) (h6 : 6 < n)
    (hdr : read_header ⟨bej, n, 7⟩ = some (S, F, L, br2)) (hF : F.val >>> 4 = 0) :
    bej_decode_to_json fuel bej n D =
      match (decode_value_set fuel bej_jw_init br2 D (root_cluster D)).st with
      | Status.ok =>
        ⟨Status.ok,
         fputs (ascii "\n") (decode_value_set fuel bej_jw_init br2 D (root_cluster D)).jw,
         (decode_value_set fuel bej_jw_init br2 D (root_cluster D)).br⟩
      | _ => decode_value_set fuel bej_jw_init br2 D (root_cluster D) := by
  have hp : wrap64 (wrap64 (0 + 4) + 2) = 6 := by decide
  have h7 : wrap64 (6 + 1) = 7 := by decide
  unfold bej_decode_to_json
  dsimp only [bej_br_init]
  rw [hp, if_neg hleft, br_u8_at bej n 6 h6, h7]
  dsimp only
  rw [hdr]
  dsimp only
  rw [if_neg (not_not.mpr hF)]

/-- C26 (failing input): on the 23-byte stream `bej_reenter` the Null member declares
`L = 2^64 - 16`; the check `bej_br_left < (int)L` compares `0` with `-16` and passes, and
`p += L` wraps the cursor from 23 back to 7, the start of the top-level Set tuple; the
second member is then read there, is that Set tuple, and `decode_value_set` is entered
again on the cursor 10 with the same cluster: the recursion repeats the same state, so
no bound on the recursion depth produces a result. -/
theorem skip_reenters_set : ∀ fuel,
    (skip_payload ⟨mem_of bej_reenter, 23, 23⟩ (2 ^ 64 - 16)).map (fun b => b.p) = some 7 ∧
    (read_header ⟨mem_of bej_reenter, 23, 7⟩).map
        (fun r => (r.1, r.2.1, r.2.2.1, r.2.2.2.p)) = some (0, 0x00, 0, 10) ∧
    (bej_decode_to_json fuel (mem_of bej_reenter) 23 D_empty).st = Status.nofuel := by
  intro fuel
  refine ⟨by decide, by decide, ?_⟩
  have hdr : read_header ⟨mem_of bej_reenter, 23, 7⟩
      = some (0, 0x00, 0, ⟨mem_of bej_reenter, 23, 10⟩) := rfl
  have hrun : bej_decode_to_json fuel (mem_of bej_reenter) 23 D_empty
      = decode_value_set fuel bej_jw_init ⟨mem_of bej_reenter, 23, 10⟩ D_empty ⟨0, 0⟩ := by
    rw [decode_run_set fuel _ 23 D_empty 0 0x00 0 _ (by decide) (by decide) hdr (by decide)]
    have h := reenter_no_result fuel bej_jw_init
    have hroot : root_cluster D_empty = ⟨0, 0⟩ := rfl
    rw [hroot]
    generalize decode_value_set fuel _ _ _ _ = r at h ⊢
    rw [h]
  rw [hrun]
  exact reenter_no_result fuel bej_jw_init

/-! ## Top-level tuple (C22) -/

/-- C22 (counterexample): the 22-byte stream `bej_trailing` has a top-level Set tuple
declaring `L = 99` and two bytes after its member list; it decodes successfully with the
cursor at 20, two bytes before the end of the input. -/
theorem trailing_bytes_accepted :
    (read_header ⟨mem_of bej_trailing, 22, 7⟩).map
        (fun r => (r.1, r.2.1, r.2.2.1, r.2.2.2.p)) = some (0, 0x00, 99, 12) ∧
    (bej_decode_to_json 1 (mem_of bej_trailing) 22 D_empty).st = Status.ok ∧
    (bej_decode_to_json 1 (mem_of bej_trailing) 22 D_empty).br.p = 20 ∧
    (bej_decode_to_json 1 (mem_of bej_trailing) 22 D_empty).jw.f
      = ascii "\x7b\n      \"seq_99\": 3\n   \x7d\n" :=
  ⟨by decide, by decide, by decide, by decide⟩

/-! ## Declared length and cursor (C21) -/

theorem int_loop_pos (k : Nat) :
    ∀ (i v : Nat) (br : bej_br) (v1 : Nat) (br1 : bej_br), br.n < 2 ^ 64 →
      int_loop k i v br = some (v1, br1) →
      br1.p = br.p + k ∧ (br.p ≤ br.n → br.p + k ≤ br.n) ∧ br1.n = br.n := by
  induction k with
  | zero =>
    intro i v br v1 br1 _ h
    have h1 : br = br1 := by
      unfold int_loop at h
      injection h with h
      injection h
    rw [← h1]
    omega
  | succ k ih =>
    intro i v br v1 br1 hn h
    unfold int_loop at h
    by_cases hp : br.p < br.n
    · have hu := br_u8_at br.d br.n br.p hp
      have hw : wrap64 (br.p + 1) = br.p + 1 := Nat.mod_eq_of_lt (by omega)
      rw [hw] at hu
      change bej_br_u8 br = _ at hu
      rw [hu] at h
      dsimp only at h
      have h2 := ih _ _ ⟨br.d, br.n, br.p + 1⟩ v1 br1 hn h
      dsimp only at h2
      omega
    · have hu := br_u8_end br.d br.n br.p (by omega)
      change bej_br_u8 br = _ at hu
      rw [hu] at h
      exact Option.noConfusion h

theorem skip_payload_pos (br br1 : bej_br) (L : Nat) (hn : br.n < 2 ^ 64)
    (hav : br.p + L ≤ br.n) (h : skip_payload br L = some br1) : br1.p = br.p + L := by
  have hw : wrap64 (br.p + L) = br.p + L := Nat.mod_eq_of_lt (by omega)
  unfold skip_payload at h
  by_cases hlt : bej_br_left br < to_int L
  · rw [if_pos hlt] at h
    exact Option.noConfusion h
  · rw [if_neg hlt, hw] at h
    injection h with h
    rw [← h]

/-- C21 (counterexample): in the 16-byte stream `bej_set_len` the member at offset 12 is
a Set tuple with even sequence field and declared length `L = 0`, its payload starts at
15; the decode succeeds and the cursor after the member's value is 16, not `15 + 0`. -/
theorem set_member_length_ignored :
    (read_header ⟨mem_of bej_set_len, 16, 12⟩).map
        (fun r => (r.1, r.2.1, r.2.2.1, r.2.2.2.p)) = some (0, 0x00, 0, 15) ∧
    (decode_member (fun jw br c => decode_value_set 1 jw br D_empty c) D_empty ⟨0, 0⟩
        (bej_jw_begin_obj bej_jw_init) ⟨mem_of bej_set_len, 16, 12⟩).st = Status.ok ∧
    (decode_member (fun jw br c => decode_value_set 1 jw br D_empty c) D_empty ⟨0, 0⟩
        (bej_jw_begin_obj bej_jw_init) ⟨mem_of bej_set_len, 16, 12⟩).br.p = 16 ∧
    (bej_decode_to_json 2 (mem_of bej_set_len) 16 D_empty).st = Status.ok ∧
    (bej_decode_to_json 2 (mem_of bej_set_len) 16 D_empty).br.p = 16 :=
  ⟨by decide, by decide, by decide, by decide, by decide⟩

/-- C21 (amended): when the value of a non-annotation member with format nibble `fmt`
and declared length `L` is decoded successfully from a cursor `br` (buffer shorter than
`2^64`): for an Integer or String member the cursor ends at payload start plus `L`, inside
the buffer when it started inside; for every other format except Set and Array the
cursor ends at payload start plus `L` whenever the `L` payload bytes lie inside the
buffer; for a Set or Array member the declared length is not used: the decoding is the
same for every `L`. -/
theorem member_length_authority (descend : bej_jsonw → bej_br → bej_cluster → Run)
    (D : bej_dict) (de : Option bej_dict_entry) (fmt L : Nat) (jw : bej_jsonw) (br : bej_br)
    (r : Run) (hn : br.n < 2 ^ 64)
    (hr : decode_member_value descend D de fmt L jw br = r) (hok : r.st = Status.ok) :
    (fmt = 3 ∨ fmt = 5 → r.br.p = br.p + L ∧ (br.p ≤ br.n → br.p + L ≤ br.n)) ∧
    (fmt ≠ 0 → fmt ≠ 1 → br.p + L ≤ br.n → r.br.p = br.p + L) ∧
    (fmt = 0 ∨ fmt = 1 → ∀ L1,
      decode_member_value descend D de fmt L1 jw br
        = decode_member_value descend D de fmt L jw br) := by
  have hint : fmt = 3 → r.br.p = br.p + L ∧ (br.p ≤ br.n → br.p + L ≤ br.n) := by
    intro h3
    unfold decode_member_value at hr
    rw [if_pos h3] at hr
    unfold decode_value_int at hr
    cases hl : int_loop L 0 0 br with
    | none =>
      rw [hl] at hr
      rw [← hr] at hok
      exact Status.noConfusion hok
    | some q =>
      obtain ⟨v1, br1⟩ := q
      rw [hl] at hr
      have h2 := int_loop_pos L 0 0 br v1 br1 hn hl
      rw [← hr]
      exact ⟨h2.1, h2.2.1⟩
  have hstr : fmt = 5 → r.br.p = br.p + L ∧ (br.p ≤ br.n → br.p + L ≤ br.n) := by
    intro h5
    unfold decode_member_value at hr
    rw [if_neg (by omega), if_pos h5] at hr
    unfold decode_value_string at hr
    by_cases hm : malloc_ok (wrap64 (L + 1)) = true
    · rw [if_pos hm] at hr
      unfold bej_br_get at hr
      by_cases h1 : wrap64 (br.p + L) > br.n
      · rw [if_pos h1] at hr
        rw [← hr] at hok
        exact Status.noConfusion hok
      · rw [if_neg h1] at hr
        by_cases h2 : br.p + L > br.n
        · rw [if_pos h2] at hr
          rw [← hr] at hok
          exact Status.noConfusion hok
        · rw [if_neg h2] at hr
          have hw : wrap64 (br.p + L) = br.p + L := Nat.mod_eq_of_lt (by omega)
          rw [hw] at hr
          rw [← hr]
          exact ⟨rfl, fun _ => by omega⟩
    · rw [if_neg hm] at hr
      rw [← hr] at hok
      exact Status.noConfusion hok
  refine ⟨fun h => h.elim hint hstr, ?_, ?_⟩
  · intro h0 h1 hav
    by_cases h3 : fmt = 3
    · exact (hint h3).1
    by_cases h5 : fmt = 5
    · exact (hstr h5).1
    by_cases h4 : fmt = 4
    · unfold decode_member_value at hr
      rw [if_neg h3, if_neg h5, if_neg h0, if_neg h1, if_pos h4] at hr
      cases hnn : bej_read_nnint br with
      | none =>
        rw [hnn] at hr
        rw [← hr] at hok
        exact Status.noConfusion hok
      | some q =>
        obtain ⟨opt_idx, brx⟩ := q
        rw [hnn] at hr
        dsimp only at hr
        cases hs : skip_payload br L with
        | none =>
          rw [hs] at hr
          rw [← hr] at hok
          exact Status.noConfusion hok
        | some br1 =>
          rw [hs] at hr
          dsimp only at hr
          have hpos := skip_payload_pos br br1 L hn hav hs
          cases he : enum_optname D de opt_idx with
          | none =>
            rw [he] at hr
            rw [← hr] at hok
            exact Status.noConfusion hok
          | some optname =>
            rw [he] at hr
            rw [← hr]
            exact hpos
    · rw [member_value_skip descend D de fmt L jw br (by omega)] at hr
      cases hs : skip_payload br L with
      | none =>
        rw [hs] at hr
        rw [← hr] at hok
        exact Status.noConfusion hok
      | some br1 =>
        rw [hs] at hr
        rw [← hr]
        exact skip_payload_pos br br1 L hn hav hs
  · intro h L1
    rcases h with h | h
    · rw [h, member_value_set, member_value_set]
    · unfold decode_member_value
      rw [if_neg (by omega), if_neg (by omega), if_neg (by omega), if_pos h,
        if_neg (by omega), if_neg (by omega), if_neg (by omega), if_pos h]

theorem member_length_authority_witness :
    (20 : Nat) < 2 ^ 64 ∧
    (decode_member_value (fun jw br _ => ⟨Status.fail, jw, br⟩) D_test none 3 1 bej_jw_init
        ⟨mem_of bej_S6, 20, 19⟩).st = Status.ok ∧
    ((3 = 3 ∨ 3 = 5 →
       (decode_member_value (fun jw br _ => ⟨Status.fail, jw, br⟩) D_test none 3 1 bej_jw_init
         ⟨mem_of bej_S6, 20, 19⟩).br.p = 19 + 1 ∧ (19 ≤ 20 → 19 + 1 ≤ 20)) ∧
     (3 ≠ 0 → 3 ≠ 1 → 19 + 1 ≤ 20 →
       (decode_member_value (fun jw br _ => ⟨Status.fail, jw, br⟩) D_test none 3 1 bej_jw_init
         ⟨mem_of bej_S6, 20, 19⟩).br.p = 19 + 1) ∧
     (3 = 0 ∨ 3 = 1 → ∀ L1,
       decode_member_value (fun jw br _ => ⟨Status.fail, jw, br⟩) D_test none 3 L1 bej_jw_init
           ⟨mem_of bej_S6, 20, 19⟩
         = decode_member_value (fun jw br _ => ⟨Status.fail, jw, br⟩) D_test none 3 1
           bej_jw_init ⟨mem_of bej_S6, 20, 19⟩)) :=
  ⟨by decide, by decide,
   member_length_authority (fun jw br _ => ⟨Status.fail, jw, br⟩) D_test none 3 1 bej_jw_init
     ⟨mem_of bej_S6, 20, 19⟩ _ (by decide) rfl (by decide)⟩

/-! ## Nesting depth (C23) -/

theorem read_nnint_zero (d : Nat → Byte) (n p : Nat) (hn : n < 2 ^ 63) (hp : p < n)
    (h0 : d p = 0) : bej_read_nnint ⟨d, n, p⟩ = some (0, ⟨d, n, p + 1⟩) := by
  have h := read_nnint_ok ⟨d, n, p⟩ hn hp (by
    dsimp only
    rw [h0]
    exact hp)
  dsimp only at h
  rw [h0] at h
  exact h

theorem read_nnint_one (d : Nat → Byte) (n p : Nat) (hn : n < 2 ^ 63) (hp : p + 1 < n)
    (h1 : d p = 1) : bej_read_nnint ⟨d, n, p⟩ = some ((d (p + 1)).val, ⟨d, n, p + 2⟩) := by
  have h := read_nnint_ok ⟨d, n, p⟩ hn (by dsimp only; omega) (by
    dsimp only
    rw [h1]
    exact hp)
  dsimp only at h
  rw [h1] at h
  have hv := (nnint_value_sum ⟨d, n, p + 1⟩ (by dsimp only; omega) 1 (by omega)).1
  simp at hv
  rw [h]
  have h11 : ((1 : Byte).val) = 1 := rfl
  rw [h11, hv]

theorem read_header_zero (d : Nat → Byte) (n p : Nat) (hn : n < 2 ^ 63) (hp : p + 2 < n)
    (h0 : d p = 0) (h1 : d (p + 1) = 0) (h2 : d (p + 2) = 0) :
    read_header ⟨d, n, p⟩ = some (0, 0, 0, ⟨d, n, p + 3⟩) := by
  have hw : wrap64 (p + 1 + 1) = p + 2 := Nat.mod_eq_of_lt (by omega)
  unfold read_header
  rw [read_nnint_zero d n p hn (by omega) h0]
  dsimp only
  rw [br_u8_at d n (p + 1) (by omega), hw]
  dsimp only
  rw [read_nnint_zero d n (p + 2) hn (by omega) h2, h1]

theorem nested_set_payload_length (k : Nat) : (nested_set_payload k).length = 5 * k + 1 := by
  induction k with
  | zero => rfl
  | succ k ih =>
    simp only [nested_set_payload, List.length_append, ih, List.length_cons, List.length_nil]
    omega

theorem nested_sets_run (k : Nat) :
    ∀ (d : Nat → Byte) (n p : Nat) (jw : bej_jsonw) (D : bej_dict) (c : bej_cluster),
      n < 2 ^ 63 → p + 5 * k + 1 ≤ n →
      (∀ i, i < 5 * k + 1 → d (p + i) = (nested_set_payload k).getD i 0) →
      ∃ jw1, decode_value_set (k + 1) jw ⟨d, n, p⟩ D c
        = ⟨Status.ok, jw1, ⟨d, n, p + 5 * k + 1⟩⟩ := by
  induction k with
  | zero =>
    intro d n p jw D c hn hav hd
    have h0 : d p = 0 := hd 0 (by omega)
    rw [decode_value_set_succ, read_nnint_zero d n p hn (by omega) h0]
    exact ⟨_, rfl⟩
  | succ k ih =>
    intro d n p jw D c hn hav hd
    have hb : ∀ i, i < 5 → d (p + i) = ([1, 1, 0, 0x00, 0] : List Byte).getD i 0 := by
      intro i hi
      rw [hd i (by omega)]
      simp only [nested_set_payload]
      rw [List.getD_append _ _ _ _ (by simpa using hi)]
    have h0 : d p = 1 := hb 0 (by omega)
    have h1 : d (p + 1) = 1 := hb 1 (by omega)
    have h2 : d (p + 2) = 0 := hb 2 (by omega)
    have h3 : d (p + 2 + 1) = 0 := hb 3 (by omega)
    have h4 : d (p + 2 + 2) = 0 := hb 4 (by omega)
    have hrest : ∀ i, i < 5 * k + 1 → d (p + 2 + 3 + i) = (nested_set_payload k).getD i 0 := by
      intro i hi
      have h := hd (5 + i) (by omega)
      simp only [nested_set_payload] at h
      rw [List.getD_append_right _ _ _ _ (by simp)] at h
      simp only [List.length_cons, List.length_nil, Nat.add_sub_cancel_left] at h
      rw [← h]
      congr 1
      omega
    obtain ⟨jw1, hrun⟩ := ih d n (p + 2 + 3)
      (bej_jw_key (bej_jw_begin_obj jw)
        (member_name D (bej_cluster_lookup_seq D c (0 / 2 % 65536)) (0 / 2 % 65536)))
      D (descent_cluster D (bej_cluster_lookup_seq D c (0 / 2 % 65536)))
      hn (by omega) hrest
    have hf : ((0 : Byte).val / 16) = 0 := by decide
    have hone : ((1 : Byte).val) = 0 + 1 := rfl
    rw [decode_value_set_succ, read_nnint_one d n p hn (by omega) h0, h1]
    dsimp only
    rw [hone, decode_members_succ,
      decode_member_plain _ D c _ _ _ 0 0 0
        (read_header_zero d n (p + 2) hn (by omega) h2 h3 h4) (by decide),
      hf, member_value_set]
    rw [hrun]
    refine ⟨bej_jw_end_obj jw1, ?_⟩
    have hp : p + 2 + 3 + 5 * k + 1 = p + 5 * (k + 1) + 1 := by omega
    rw [← hp]
    rfl

theorem nested_sets_deep (k : Nat) :
    ∀ (d : Nat → Byte) (n p : Nat) (jw : bej_jsonw) (D : bej_dict) (c : bej_cluster),
      n < 2 ^ 63 → p + 5 * k + 1 ≤ n →
      (∀ i, i < 5 * k + 1 → d (p + i) = (nested_set_payload k).getD i 0) →
      ∃ jw1 br1, decode_value_set k jw ⟨d, n, p⟩ D c = ⟨Status.nofuel, jw1, br1⟩ := by
  induction k with
  | zero =>
    intro d n p jw D c _ _ _
    exact ⟨_, _, rfl⟩
  | succ k ih =>
    intro d n p jw D c hn hav hd
    have hb : ∀ i, i < 5 → d (p + i) = ([1, 1, 0, 0x00, 0] : List Byte).getD i 0 := by
      intro i hi
      rw [hd i (by omega)]
      simp only [nested_set_payload]
      rw [List.getD_append _ _ _ _ (by simpa using hi)]
    have h0 : d p = 1 := hb 0 (by omega)
    have h1 : d (p + 1) = 1 := hb 1 (by omega)
    have h2 : d (p + 2) = 0 := hb 2 (by omega)
    have h3 : d (p + 2 + 1) = 0 := hb 3 (by omega)
    have h4 : d (p + 2 + 2) = 0 := hb 4 (by omega)
    have hrest : ∀ i, i < 5 * k + 1 → d (p + 2 + 3 + i) = (nested_set_payload k).getD i 0 := by
      intro i hi
      have h := hd (5 + i) (by omega)
      simp only [nested_set_payload] at h
      rw [List.getD_append_right _ _ _ _ (by simp)] at h
      simp only [List.length_cons, List.length_nil, Nat.add_sub_cancel_left] at h
      rw [← h]
      congr 1
      omega
    obtain ⟨jw1, br1, hrun⟩ := ih d n (p + 2 + 3)
      (bej_jw_key (bej_jw_begin_obj jw)
        (member_name D (bej_cluster_lookup_seq D c (0 / 2 % 65536)) (0 / 2 % 65536)))
      D (descent_cluster D (bej_cluster_lookup_seq D c (0 / 2 % 65536)))
      hn (by omega) hrest
    have hf : ((0 : Byte).val / 16) = 0 := by decide
    have hone : ((1 : Byte).val) = 0 + 1 := rfl
    rw [decode_value_set_succ, read_nnint_one d n p hn (by omega) h0, h1]
    dsimp only
    rw [hone, decode_members_succ,
      decode_member_plain _ D c _ _ _ 0 0 0
        (read_header_zero d n (p + 2) hn (by omega) h2 h3 h4) (by decide),
      hf, member_value_set]
    rw [hrun]
    exact ⟨_, _, rfl⟩

theorem nested_stream_bytes (k : Nat) :
    mem_of (bej_nested k) 7 = 0 ∧ mem_of (bej_nested k) (7 + 1) = 0 ∧
    mem_of (bej_nested k) (7 + 2) = 0 ∧
    ∀ i, i < 5 * k + 1 → mem_of (bej_nested k) (7 + 3 + i) = (nested_set_payload k).getD i 0 := by
  refine ⟨rfl, rfl, rfl, ?_⟩
  intro i _
  simp only [mem_of, bej_nested]
  rw [List.getD_append_right _ _ _ _ (by simp)]
  simp only [List.length_cons, List.length_nil]
  congr 1
  omega

theorem nested_decode_run (k : Nat) (D : bej_dict) (hk : 5 * k + 11 < 2 ^ 31) :
    (∃ jw, bej_decode_to_json (k + 1) (mem_of (bej_nested k)) (5 * k + 11) D
      = ⟨Status.ok, jw, ⟨mem_of (bej_nested k), 5 * k + 11, 5 * k + 11⟩⟩) ∧
    (∃ jw br, bej_decode_to_json k (mem_of (bej_nested k)) (5 * k + 11) D
      = ⟨Status.nofuel, jw, br⟩) := by
  obtain ⟨b7, b8, b9, brest⟩ := nested_stream_bytes k
  have hleft : ¬ bej_br_left ⟨mem_of (bej_nested k), 5 * k + 11, 0⟩ < 7 := by
    unfold bej_br_left
    rw [to_int_small (5 * k + 11) hk]
    omega
  have hdr := read_header_zero (mem_of (bej_nested k)) (5 * k + 11) 7 (by omega) (by omega)
    b7 b8 b9
  have hF : ((0 : Byte).val >>> 4) = 0 := by decide
  obtain ⟨jw1, h1⟩ := nested_sets_run k (mem_of (bej_nested k)) (5 * k + 11) (7 + 3)
    bej_jw_init D (root_cluster D) (by omega) (by omega) brest
  obtain ⟨jw2, br2, h2⟩ := nested_sets_deep k (mem_of (bej_nested k)) (5 * k + 11) (7 + 3)
    bej_jw_init D (root_cluster D) (by omega) (by omega) brest
  constructor
  · rw [decode_run_set (k + 1) _ _ D 0 0 0 _ hleft (by omega) hdr hF, h1]
    refine ⟨fputs (ascii "\n") jw1, ?_⟩
    have hp : 7 + 3 + 5 * k + 1 = 5 * k + 11 := by omega
    rw [← hp]
  · rw [decode_run_set k _ _ D 0 0 0 _ hleft (by omega) hdr hF, h2]
    exact ⟨_, _, rfl⟩

/-- C23 (counterexample): the 336-byte stream `bej_nested 65` holds 65 Set tuples nested
in one another inside the top-level Set, 66 levels in all; `bej_decode_to_json` returns
success on it. -/
theorem sets_nested_66_accepted :
    (bej_nested 65).length = 336 ∧
    (bej_decode_to_json 66 (mem_of (bej_nested 65)) 336 D_empty).st = Status.ok ∧
    (bej_decode_to_json 66 (mem_of (bej_nested 65)) 336 D_empty).br.p = 336 := by
  obtain ⟨jw, h⟩ := (nested_decode_run 65 D_empty (by norm_num)).1
  have h1 : bej_decode_to_json 66 (mem_of (bej_nested 65)) 336 D_empty
      = ⟨Status.ok, jw, ⟨mem_of (bej_nested 65), 336, 336⟩⟩ := h
  rw [h1]
  exact ⟨by rw [bej_nested, List.length_append, nested_set_payload_length]; rfl, rfl, rfl⟩

/-- C23 (amended): the decoder has no depth limit. For every `k` and every dictionary the
stream `bej_nested k` (`k` Set tuples nested in one another inside the top-level Set,
shorter than `2^31` bytes) is decoded successfully up to its last byte, and the
recursion of `decode_value_set` goes `k + 1` calls deep: a bound of `k` calls is used up,
a bound of `k + 1` or more is not. -/
theorem nested_sets_accepted (k : Nat) (D : bej_dict) (hk : 5 * k + 11 < 2 ^ 31) (m : Nat) :
    (bej_decode_to_json (k + 1 + m) (mem_of (bej_nested k)) (5 * k + 11) D).st = Status.ok ∧
    (bej_decode_to_json (k + 1 + m) (mem_of (bej_nested k)) (5 * k + 11) D).br.p
      = 5 * k + 11 ∧
    (bej_decode_to_json k (mem_of (bej_nested k)) (5 * k + 11) D).st = Status.nofuel := by
  obtain ⟨⟨jw, h1⟩, ⟨jw2, br2, h2⟩⟩ := nested_decode_run k D hk
  rw [decode_to_json_fuel (k + 1) m _ _ _ (by rw [h1]; exact Status.noConfusion), h1, h2]
  exact ⟨rfl, rfl, rfl⟩

theorem nested_sets_accepted_witness :
    5 * 2 + 11 < 2 ^ 31 ∧
    ((bej_decode_to_json (2 + 1 + 0) (mem_of (bej_nested 2)) (5 * 2 + 11) D_test).st
      = Status.ok ∧
     (bej_decode_to_json (2 + 1 + 0) (mem_of (bej_nested 2)) (5 * 2 + 11) D_test).br.p
      = 5 * 2 + 11 ∧
     (bej_decode_to_json 2 (mem_of (bej_nested 2)) (5 * 2 + 11) D_test).st
      = Status.nofuel) :=
  ⟨by norm_num, nested_sets_accepted 2 D_test (by norm_num) 0⟩

/-! ## Structure of the output (C25) -/

theorem run_match_ok (r1 k r : Run)
    (h : (match r1.st with
      | Status.ok => k
      | _ => r1) = r) (hok : r.st = Status.ok) : r1.st = Status.ok ∧ k = r := by
  cases hst : r1.st with
  | ok =>
    rw [hst] at h
    exact ⟨rfl, h⟩
  | fail =>
    rw [hst] at h
    dsimp only at h
    rw [← h, hst] at hok
    exact Status.noConfusion hok
  | fault =>
    rw [hst] at h
    dsimp only at h
    rw [← h, hst] at hok
    exact Status.noConfusion hok
  | nofuel =>
    rw [hst] at h
    dsimp only at h
    rw [← h, hst] at hok
    exact Status.noConfusion hok

theorem fputs_fputs (a b : List Byte) (j : bej_jsonw) :
    fputs b (fputs a j) = fputs (a ++ b) j := by
  simp only [fputs, List.append_assoc]

theorem fputs_eq (a : List Byte) (j : bej_jsonw) :
    fputs a j = ⟨j.f ++ a, j.ind, j.need_comma⟩ := rfl

theorem value_int_ok (jw : bej_jsonw) (br : bej_br) (L : Nat) (r : Run)
    (hr : decode_value_int jw br L = r) (hok : r.st = Status.ok) :
    ∃ v br1, int_loop L 0 0 br = some (v, br1) ∧
      r = ⟨Status.ok, fputs (render_scalar (JScalar.int (to_i64 v))) jw, br1⟩ := by
  unfold decode_value_int at hr
  cases hl : int_loop L 0 0 br with
  | none =>
    rw [hl] at hr
    rw [← hr] at hok
    exact Status.noConfusion hok
  | some q =>
    obtain ⟨v, br1⟩ := q
    rw [hl] at hr
    exact ⟨v, br1, rfl, hr.symm⟩

theorem value_string_ok (jw : bej_jsonw) (br : bej_br) (L : Nat) (r : Run)
    (hr : decode_value_string jw br L = r) (hok : r.st = Status.ok) :
    ∃ bytes br1, bej_br_get br L = Get.ok bytes br1 ∧ malloc_ok (wrap64 (L + 1)) = true ∧
      r = ⟨Status.ok, fputs (render_scalar (JScalar.str (bytes ++ [0]))) jw, br1⟩ := by
  unfold decode_value_string at hr
  by_cases hm : malloc_ok (wrap64 (L + 1)) = true
  · rw [if_pos hm] at hr
    cases hg : bej_br_get br L with
    | fail =>
      rw [hg] at hr
      rw [← hr] at hok
      exact Status.noConfusion hok
    | fault =>
      rw [hg] at hr
      rw [← hr] at hok
      exact Status.noConfusion hok
    | ok bytes br1 =>
      rw [hg] at hr
      dsimp only at hr
      rw [strip_loop_id] at hr
      exact ⟨bytes, br1, rfl, hm, hr.symm⟩
  · rw [if_neg hm] at hr
    rw [← hr] at hok
    exact Status.noConfusion hok

theorem value_skip_ok (jw : bej_jsonw) (br : bej_br) (L : Nat) (r : Run)
    (hr : (match skip_payload br L with
      | none => (⟨Status.fail, jw, br⟩ : Run)
      | some br1 => ⟨Status.ok, fputs (ascii "null") jw, br1⟩) = r)
    (hok : r.st = Status.ok) :
    ∃ br1, skip_payload br L = some br1 ∧
      r = ⟨Status.ok, fputs (render_scalar JScalar.null) jw, br1⟩ := by
  cases hs : skip_payload br L with
  | none =>
    rw [hs] at hr
    rw [← hr] at hok
    exact Status.noConfusion hok
  | some br1 =>
    rw [hs] at hr
    exact ⟨br1, rfl, hr.symm⟩

theorem run_match_eq (r1 k : Run) (h : r1.st = Status.ok) :
    (match r1.st with
      | Status.ok => k
      | _ => r1) = k := by
  rw [h]

theorem br_left_in_buffer (d : Nat → Byte) (n p : Nat) (hp : p ≤ n) (hn : n < 2 ^ 31) :
    bej_br_left ⟨d, n, p⟩ = ((n - p : Nat) : Int) := by
  have hs : sub64 n p = n - p := by
    simp only [sub64]
    omega
  have h1 : (n - p) % 2 ^ 32 = n - p := Nat.mod_eq_of_lt (by omega)
  have h2 : n - p < 2 ^ 31 := by omega
  simp only [bej_br_left, to_int, hs, h1]
  rw [if_pos h2]

theorem u8_ext (d d1 : Nat → Byte) (n n1 : Nat) (hle : n ≤ n1) (hn1 : n1 < 2 ^ 31)
    (hd : ∀ i, i < n → d1 i = d i) (p : Nat) (b : Byte) (br1 : bej_br)
    (h : bej_br_u8 ⟨d, n, p⟩ = some (b, br1)) :
    ∃ q, br1 = ⟨d, n, q⟩ ∧ q ≤ n ∧ bej_br_u8 ⟨d1, n1, p⟩ = some (b, ⟨d1, n1, q⟩) := by
  by_cases hp : p < n
  · have hw : wrap64 (p + 1) = p + 1 := Nat.mod_eq_of_lt (by omega)
    rw [br_u8_at d n p hp, hw] at h
    injection h with h
    injection h with hb hbr
    refine ⟨p + 1, hbr.symm, by omega, ?_⟩
    rw [br_u8_at d1 n1 p (by omega), hw, hd p hp, hb]
  · rw [br_u8_end d n p (by omega)] at h
    exact Option.noConfusion h

theorem nnint_value_ext (d d1 : Nat → Byte) (n n1 p : Nat) (hn : n < 2 ^ 31)
    (hd : ∀ i, i < n → d1 i = d i) (N : Nat) (hN : p + N ≤ n) :
    nnint_value ⟨d1, n1, p⟩ N = nnint_value ⟨d, n, p⟩ N := by
  induction N with
  | zero => rfl
  | succ N ih =>
    have hw : wrap64 (p + N) = p + N := Nat.mod_eq_of_lt (by omega)
    rw [nnint_value_succ, nnint_value_succ, ih (by omega)]
    dsimp only
    rw [hw, hd (p + N) (by omega)]

theorem nnint_ext (d d1 : Nat → Byte) (n n1 : Nat) (hle : n ≤ n1) (hn1 : n1 < 2 ^ 31)
    (hd : ∀ i, i < n → d1 i = d i) (p v : Nat) (br1 : bej_br)
    (h : bej_read_nnint ⟨d, n, p⟩ = some (v, br1)) :
    ∃ q, br1 = ⟨d, n, q⟩ ∧ q ≤ n ∧ bej_read_nnint ⟨d1, n1, p⟩ = some (v, ⟨d1, n1, q⟩) := by
  unfold bej_read_nnint at h
  cases hu : bej_br_u8 ⟨d, n, p⟩ with
  | none =>
    rw [hu] at h
    exact Option.noConfusion h
  | some x =>
    obtain ⟨N, b1⟩ := x
    obtain ⟨q1, hb1, hq1, hu1⟩ := u8_ext d d1 n n1 hle hn1 hd p N b1 hu
    rw [hu, hb1] at h
    dsimp only at h
    have hN := N.isLt
    have hw : wrap64 (q1 + N.val) = q1 + N.val := Nat.mod_eq_of_lt (by omega)
    rw [hw] at h
    by_cases hc : q1 + N.val > n
    · rw [if_pos hc] at h
      exact Option.noConfusion h
    · rw [if_neg hc] at h
      injection h with h
      injection h with hv hbr
      refine ⟨q1 + N.val, hbr.symm, by omega, ?_⟩
      unfold bej_read_nnint
      rw [hu1]
      dsimp only
      rw [hw, if_neg (by omega), nnint_value_ext d d1 n n1 q1 (by omega) hd N.val (by omega),
        hv]

theorem header_ext (d d1 : Nat → Byte) (n n1 : Nat) (hle : n ≤ n1) (hn1 : n1 < 2 ^ 31)
    (hd : ∀ i, i < n → d1 i = d i) (p S : Nat) (F : Byte) (L : Nat) (br3 : bej_br)
    (h : read_header ⟨d, n, p⟩ = some (S, F, L, br3)) :
    ∃ q, br3 = ⟨d, n, q⟩ ∧ q ≤ n ∧
      read_header ⟨d1, n1, p⟩ = some (S, F, L, ⟨d1, n1, q⟩) := by
  unfold read_header at h
  cases h1 : bej_read_nnint ⟨d, n, p⟩ with
  | none =>
    rw [h1] at h
    exact Option.noConfusion h
  | some x1 =>
    obtain ⟨S1, b1⟩ := x1
    obtain ⟨q1, hb1, _, e1⟩ := nnint_ext d d1 n n1 hle hn1 hd p S1 b1 h1
    rw [h1, hb1] at h
    dsimp only at h
    cases h2 : bej_br_u8 ⟨d, n, q1⟩ with
    | none =>
      rw [h2] at h
      exact Option.noConfusion h
    | some x2 =>
      obtain ⟨F1, b2⟩ := x2
      obtain ⟨q2, hb2, _, e2⟩ := u8_ext d d1 n n1 hle hn1 hd q1 F1 b2 h2
      rw [h2, hb2] at h
      dsimp only at h
      cases h3 : bej_read_nnint ⟨d, n, q2⟩ with
      | none =>
        rw [h3] at h
        exact Option.noConfusion h
      | some x3 =>
        obtain ⟨L1, b3⟩ := x3
        obtain ⟨q3, hb3, hq3, e3⟩ := nnint_ext d d1 n n1 hle hn1 hd q2 L1 b3 h3
        rw [h3, hb3] at h
        dsimp only at h
        injection h with h
        injection h with hS h
        injection h with hF h
        injection h with hL hbr
        refine ⟨q3, hbr.symm, hq3, ?_⟩
        unfold read_header
        rw [e1]
        dsimp only
        rw [e2]
        dsimp only
        rw [e3, hS, hF, hL]

theorem skip_ext (d d1 : Nat → Byte) (n n1 : Nat) (hle : n ≤ n1) (hn1 : n1 < 2 ^ 31)
    (p L : Nat) (br1 : bej_br) (hp : p ≤ n)
    (h : skip_payload ⟨d, n, p⟩ L = some br1) :
    ∃ q, br1 = ⟨d, n, q⟩ ∧ skip_payload ⟨d1, n1, p⟩ L = some ⟨d1, n1, q⟩ := by
  unfold skip_payload at h ⊢
  rw [br_left_in_buffer d n p hp (by omega)] at h
  rw [br_left_in_buffer d1 n1 p (by omega) hn1]
  generalize to_int L = x at h ⊢
  by_cases hlt : ((n - p : Nat) : Int) < x
  · rw [if_pos hlt] at h
    exact Option.noConfusion h
  · rw [if_neg hlt] at h
    injection h with h
    refine ⟨wrap64 (p + L), h.symm, ?_⟩
    rw [if_neg (by omega)]

theorem int_loop_ext (d d1 : Nat → Byte) (n n1 : Nat) (hle : n ≤ n1) (hn1 : n1 < 2 ^ 31)
    (hd : ∀ i, i < n → d1 i = d i) (k : Nat) :
    ∀ (i v p v1 : Nat) (br1 : bej_br), int_loop k i v ⟨d, n, p⟩ = some (v1, br1) →
      ∃ q, br1 = ⟨d, n, q⟩ ∧ int_loop k i v ⟨d1, n1, p⟩ = some (v1, ⟨d1, n1, q⟩) := by
  induction k with
  | zero =>
    intro i v p v1 br1 h
    unfold int_loop at h
    injection h with h
    injection h with hv hbr
    exact ⟨p, hbr.symm, by rw [int_loop, hv]⟩
  | succ k ih =>
    intro i v p v1 br1 h
    unfold int_loop at h
    cases hu : bej_br_u8 ⟨d, n, p⟩ with
    | none =>
      rw [hu] at h
      exact Option.noConfusion h
    | some x =>
      obtain ⟨b, b1⟩ := x
      obtain ⟨q1, hb1, _, e1⟩ := u8_ext d d1 n n1 hle hn1 hd p b b1 hu
      rw [hu, hb1] at h
      dsimp only at h
      obtain ⟨q, hq, e⟩ := ih _ _ q1 v1 br1 h
      refine ⟨q, hq, ?_⟩
      unfold int_loop
      rw [e1]
      exact e

theorem get_ext (d d1 : Nat → Byte) (n n1 : Nat) (hle : n ≤ n1) (hn1 : n1 < 2 ^ 31)
    (hd : ∀ i, i < n → d1 i = d i) (p L : Nat) (bytes : List Byte) (br1 : bej_br)
    (h : bej_br_get ⟨d, n, p⟩ L = Get.ok bytes br1) :
    ∃ q, br1 = ⟨d, n, q⟩ ∧ bej_br_get ⟨d1, n1, p⟩ L = Get.ok bytes ⟨d1, n1, q⟩ := by
  unfold bej_br_get at h
  by_cases h1 : wrap64 (p + L) > n
  · rw [if_pos h1] at h
    exact Get.noConfusion h
  · rw [if_neg h1] at h
    by_cases h2 : p + L > n
    · rw [if_pos h2] at h
      exact Get.noConfusion h
    · rw [if_neg h2] at h
      injection h with hb hbr
      have hw : wrap64 (p + L) = p + L := Nat.mod_eq_of_lt (by omega)
      refine ⟨wrap64 (p + L), hbr.symm, ?_⟩
      have hmap : (List.range' p L).map d1 = (List.range' p L).map d := by
        apply List.map_congr_left
        intro i hi
        rw [List.mem_range'_1] at hi
        exact hd i (by omega)
      unfold bej_br_get
      dsimp only
      rw [hw, if_neg (by omega), if_neg (by omega), hmap, ← hb]

theorem value_int_ext (d d1 : Nat → Byte) (n n1 : Nat) (hle : n ≤ n1) (hn1 : n1 < 2 ^ 31)
    (hd : ∀ i, i < n → d1 i = d i) (jw : bej_jsonw) (p L : Nat) (r : Run)
    (hr : decode_value_int jw ⟨d, n, p⟩ L = r) (hok : r.st = Status.ok) :
    ∃ q, r.br = ⟨d, n, q⟩ ∧
      decode_value_int jw ⟨d1, n1, p⟩ L = ⟨Status.ok, r.jw, ⟨d1, n1, q⟩⟩ := by
  obtain ⟨v, br1, hl, hrun⟩ := value_int_ok jw _ L r hr hok
  obtain ⟨q, hq, e⟩ := int_loop_ext d d1 n n1 hle hn1 hd L 0 0 p v br1 hl
  refine ⟨q, by rw [hrun, hq], ?_⟩
  unfold decode_value_int
  rw [e, hrun]
  rfl

theorem value_string_ext (d d1 : Nat → Byte) (n n1 : Nat) (hle : n ≤ n1) (hn1 : n1 < 2 ^ 31)
    (hd : ∀ i, i < n → d1 i = d i) (jw : bej_jsonw) (p L : Nat) (r : Run)
    (hr : decode_value_string jw ⟨d, n, p⟩ L = r) (hok : r.st = Status.ok) :
    ∃ q, r.br = ⟨d, n, q⟩ ∧
      decode_value_string jw ⟨d1, n1, p⟩ L = ⟨Status.ok, r.jw, ⟨d1, n1, q⟩⟩ := by
  obtain ⟨bytes, br1, hg, hm, hrun⟩ := value_string_ok jw _ L r hr hok
  obtain ⟨q, hq, e⟩ := get_ext d d1 n n1 hle hn1 hd p L bytes br1 hg
  refine ⟨q, by rw [hrun, hq], ?_⟩
  unfold decode_value_string
  rw [if_pos hm, e, hrun]
  dsimp only
  rw [strip_loop_id]
  rfl

theorem value_skip_ext (d d1 : Nat → Byte) (n n1 : Nat) (hle : n ≤ n1) (hn1 : n1 < 2 ^ 31)
    (jw : bej_jsonw) (p L : Nat) (r : Run) (hp : p ≤ n)
    (hr : (match skip_payload ⟨d, n, p⟩ L with
      | none => (⟨Status.fail, jw, ⟨d, n, p⟩⟩ : Run)
      | some br1 => ⟨Status.ok, fputs (ascii "null") jw, br1⟩) = r)
    (hok : r.st = Status.ok) :
    ∃ q, r.br = ⟨d, n, q⟩ ∧
      (match skip_payload ⟨d1, n1, p⟩ L with
        | none => (⟨Status.fail, jw, ⟨d1, n1, p⟩⟩ : Run)
        | some br1 => ⟨Status.ok, fputs (ascii "null") jw, br1⟩)
        = ⟨Status.ok, r.jw, ⟨d1, n1, q⟩⟩ := by
  obtain ⟨br1, hs, hrun⟩ := value_skip_ok jw _ L r hr hok
  obtain ⟨q, hq, e⟩ := skip_ext d d1 n n1 hle hn1 p L br1 hp hs
  refine ⟨q, by rw [hrun, hq], ?_⟩
  rw [e, hrun]
  rfl

theorem array_elem_ext (d d1 : Nat → Byte) (n n1 : Nat) (hle : n ≤ n1) (hn1 : n1 < 2 ^ 31)
    (hd : ∀ i, i < n → d1 i = d i) (fmt Le : Nat) (jw : bej_jsonw) (p : Nat) (r : Run)
    (hp : p ≤ n)
    (hr : (if fmt = 3 then decode_value_int jw ⟨d, n, p⟩ Le
      else if fmt = 5 then decode_value_string jw ⟨d, n, p⟩ Le
      else
        match skip_payload ⟨d, n, p⟩ Le with
        | none => (⟨Status.fail, jw, ⟨d, n, p⟩⟩ : Run)
        | some br4 => ⟨Status.ok, fputs (ascii "null") jw, br4⟩) = r)
    (hok : r.st = Status.ok) :
    ∃ q, r.br = ⟨d, n, q⟩ ∧
      (if fmt = 3 then decode_value_int jw ⟨d1, n1, p⟩ Le
      else if fmt = 5 then decode_value_string jw ⟨d1, n1, p⟩ Le
      else
        match skip_payload ⟨d1, n1, p⟩ Le with
        | none => (⟨Status.fail, jw, ⟨d1, n1, p⟩⟩ : Run)
        | some br4 => ⟨Status.ok, fputs (ascii "null") jw, br4⟩)
        = ⟨Status.ok, r.jw, ⟨d1, n1, q⟩⟩ := by
  by_cases h3 : fmt = 3
  · rw [if_pos h3] at hr ⊢
    exact value_int_ext d d1 n n1 hle hn1 hd jw p Le r hr hok
  · rw [if_neg h3] at hr ⊢
    by_cases h5 : fmt = 5
    · rw [if_pos h5] at hr ⊢
      exact value_string_ext d d1 n n1 hle hn1 hd jw p Le r hr hok
    · rw [if_neg h5] at hr ⊢
      exact value_skip_ext d d1 n n1 hle hn1 jw p Le r hp hr hok

theorem array_elems_ext (d d1 : Nat → Byte) (n n1 : Nat) (hle : n ≤ n1) (hn1 : n1 < 2 ^ 31)
    (hd : ∀ i, i < n → d1 i = d i) (rem : Nat) :
    ∀ (k : Nat) (jw : bej_jsonw) (p : Nat) (r : Run),
      decode_array_elems rem k jw ⟨d, n, p⟩ = r → r.st = Status.ok →
      ∃ q, r.br = ⟨d, n, q⟩ ∧
        decode_array_elems rem k jw ⟨d1, n1, p⟩ = ⟨Status.ok, r.jw, ⟨d1, n1, q⟩⟩ := by
  induction rem with
  | zero =>
    intro k jw p r hr _
    refine ⟨p, by rw [← hr]; rfl, ?_⟩
    rw [← hr]
    rfl
  | succ rem ih =>
    intro k jw p r hr hok
    unfold decode_array_elems at hr
    cases h1 : bej_read_nnint ⟨d, n, p⟩ with
    | none =>
      rw [h1] at hr
      rw [← hr] at hok
      exact Status.noConfusion hok
    | some x1 =>
      obtain ⟨Se, b1⟩ := x1
      obtain ⟨q1, hb1, _, e1⟩ := nnint_ext d d1 n n1 hle hn1 hd p Se b1 h1
      rw [h1, hb1] at hr
      dsimp only at hr
      cases h2 : bej_br_u8 ⟨d, n, q1⟩ with
      | none =>
        rw [h2] at hr
        rw [← hr] at hok
        exact Status.noConfusion hok
      | some x2 =>
        obtain ⟨Fe, b2⟩ := x2
        obtain ⟨q2, hb2, _, e2⟩ := u8_ext d d1 n n1 hle hn1 hd q1 Fe b2 h2
        rw [h2, hb2] at hr
        dsimp only at hr
        cases h3 : bej_read_nnint ⟨d, n, q2⟩ with
        | none =>
          rw [h3] at hr
          rw [← hr] at hok
          exact Status.noConfusion hok
        | some x3 =>
          obtain ⟨Le, b3⟩ := x3
          obtain ⟨q3, hb3, hq3, e3⟩ := nnint_ext d d1 n n1 hle hn1 hd q2 Le b3 h3
          rw [h3, hb3] at hr
          dsimp only at hr
          obtain ⟨hst, hrest⟩ := run_match_ok _ _ r hr hok
          obtain ⟨q4, hq4, e4⟩ := array_elem_ext d d1 n n1 hle hn1 hd (Fe.val >>> 4) Le
            (if k > 0 then fputs (ascii ", ") jw else jw) q3 _ hq3 rfl hst
          rw [hq4] at hrest
          obtain ⟨q, hq, e⟩ := ih _ _ q4 r hrest hok
          refine ⟨q, hq, ?_⟩
          unfold decode_array_elems
          rw [e1]
          dsimp only
          rw [e2]
          dsimp only
          rw [e3]
          dsimp only
          rw [e4]
          exact e

theorem member_value_ext (d d1 : Nat → Byte) (n n1 : Nat) (hle : n ≤ n1) (hn1 : n1 < 2 ^ 31)
    (hd : ∀ i, i < n → d1 i = d i)
    (descend : bej_jsonw → bej_br → bej_cluster → Run)
    (hdesc : ∀ jw p c r, descend jw ⟨d, n, p⟩ c = r → r.st = Status.ok →
      ∃ q, r.br = ⟨d, n, q⟩ ∧ descend jw ⟨d1, n1, p⟩ c = ⟨Status.ok, r.jw, ⟨d1, n1, q⟩⟩)
    (D : bej_dict) (de : Option bej_dict_entry) (fmt L : Nat) (jw : bej_jsonw) (p : Nat)
    (r : Run) (hp : p ≤ n)
    (hr : decode_member_value descend D de fmt L jw ⟨d, n, p⟩ = r)
    (hok : r.st = Status.ok) :
    ∃ q, r.br = ⟨d, n, q⟩ ∧
      decode_member_value descend D de fmt L jw ⟨d1, n1, p⟩
        = ⟨Status.ok, r.jw, ⟨d1, n1, q⟩⟩ := by
  by_cases h3 : fmt = 3
  · unfold decode_member_value at hr ⊢
    rw [if_pos h3] at hr ⊢
    exact value_int_ext d d1 n n1 hle hn1 hd jw p L r hr hok
  by_cases h5 : fmt = 5
  · unfold decode_member_value at hr ⊢
    rw [if_neg h3, if_pos h5] at hr ⊢
    exact value_string_ext d d1 n n1 hle hn1 hd jw p L r hr hok
  by_cases h0 : fmt = 0
  · rw [h0, member_value_set] at hr ⊢
    exact hdesc jw p _ r hr hok
  by_cases h1 : fmt = 1
  · unfold decode_member_value at hr ⊢
    rw [if_neg h3, if_neg h5, if_neg h0, if_pos h1] at hr ⊢
    cases hn : bej_read_nnint ⟨d, n, p⟩ with
    | none =>
      rw [hn] at hr
      rw [← hr] at hok
      exact Status.noConfusion hok
    | some x =>
      obtain ⟨cnt, b1⟩ := x
      obtain ⟨q1, hb1, _, e1⟩ := nnint_ext d d1 n n1 hle hn1 hd p cnt b1 hn
      rw [hn, hb1] at hr
      dsimp only at hr
      obtain ⟨hst, hrest⟩ := run_match_ok _ _ r hr hok
      obtain ⟨q, hq, e⟩ := array_elems_ext d d1 n n1 hle hn1 hd cnt 0 _ q1 _ rfl hst
      refine ⟨q, by rw [← hrest]; exact hq, ?_⟩
      rw [e1]
      dsimp only
      rw [e, ← hrest]
  by_cases h4 : fmt = 4
  · unfold decode_member_value at hr ⊢
    rw [if_neg h3, if_neg h5, if_neg h0, if_neg h1, if_pos h4] at hr ⊢
    cases hn : bej_read_nnint ⟨d, n, p⟩ with
    | none =>
      rw [hn] at hr
      rw [← hr] at hok
      exact Status.noConfusion hok
    | some x =>
      obtain ⟨opt_idx, b1⟩ := x
      obtain ⟨q1, _, _, e1⟩ := nnint_ext d d1 n n1 hle hn1 hd p opt_idx b1 hn
      rw [hn] at hr
      dsimp only at hr
      cases hs : skip_payload ⟨d, n, p⟩ L with
      | none =>
        rw [hs] at hr
        rw [← hr] at hok
        exact Status.noConfusion hok
      | some br1 =>
        obtain ⟨q, hq, e⟩ := skip_ext d d1 n n1 hle hn1 p L br1 hp hs
        rw [hs, hq] at hr
        dsimp only at hr
        cases he : enum_optname D de opt_idx with
        | none =>
          rw [he] at hr
          rw [← hr] at hok
          exact Status.noConfusion hok
        | some optname =>
          rw [he] at hr
          refine ⟨q, by rw [← hr], ?_⟩
          rw [e1]
          dsimp only
          rw [e]
          dsimp only
          rw [he, ← hr]
  · rw [member_value_skip descend D de fmt L jw _ (by omega)] at hr ⊢
    exact value_skip_ext d d1 n n1 hle hn1 jw p L r hp hr hok

theorem member_ext (d d1 : Nat → Byte) (n n1 : Nat) (hle : n ≤ n1) (hn1 : n1 < 2 ^ 31)
    (hd : ∀ i, i < n → d1 i = d i)
    (descend : bej_jsonw → bej_br → bej_cluster → Run)
    (hdesc : ∀ jw p c r, descend jw ⟨d, n, p⟩ c = r → r.st = Status.ok →
      ∃ q, r.br = ⟨d, n, q⟩ ∧ descend jw ⟨d1, n1, p⟩ c = ⟨Status.ok, r.jw, ⟨d1, n1, q⟩⟩)
    (D : bej_dict) (c : bej_cluster) (jw : bej_jsonw) (p : Nat) (r : Run)
    (hr : decode_member descend D c jw ⟨d, n, p⟩ = r) (hok : r.st = Status.ok) :
    ∃ q, r.br = ⟨d, n, q⟩ ∧
      decode_member descend D c jw ⟨d1, n1, p⟩ = ⟨Status.ok, r.jw, ⟨d1, n1, q⟩⟩ := by
  cases hdr : read_header ⟨d, n, p⟩ with
  | none =>
    unfold decode_member at hr
    rw [hdr] at hr
    rw [← hr] at hok
    exact Status.noConfusion hok
  | some x =>
    obtain ⟨S, F, L, br3⟩ := x
    obtain ⟨q3, hb3, hq3, e3⟩ := header_ext d d1 n n1 hle hn1 hd p S F L br3 hdr
    rw [hb3] at hdr
    by_cases hS : S % 2 = 0
    · rw [decode_member_plain descend D c jw _ _ S L F hdr hS] at hr
      rw [decode_member_plain descend D c jw _ _ S L F e3 hS]
      exact member_value_ext d d1 n n1 hle hn1 hd descend hdesc D _ _ L _ q3 r hq3 hr hok
    · have hann : S &&& 1 ≠ 0 := by
        rw [and_one_eq_mod]
        exact hS
      unfold decode_member at hr ⊢
      rw [hdr] at hr
      rw [e3]
      dsimp only at hr ⊢
      rw [if_pos hann] at hr ⊢
      cases hs : skip_payload ⟨d, n, q3⟩ L with
      | none =>
        rw [hs] at hr
        rw [← hr] at hok
        exact Status.noConfusion hok
      | some br4 =>
        obtain ⟨q, hq, e⟩ := skip_ext d d1 n n1 hle hn1 q3 L br4 hq3 hs
        rw [hs, hq] at hr
        refine ⟨q, by rw [← hr], ?_⟩
        rw [e, ← hr]

theorem members_ext (d d1 : Nat → Byte) (n n1 : Nat) (hle : n ≤ n1) (hn1 : n1 < 2 ^ 31)
    (hd : ∀ i, i < n → d1 i = d i)
    (descend : bej_jsonw → bej_br → bej_cluster → Run)
    (hdesc : ∀ jw p c r, descend jw ⟨d, n, p⟩ c = r → r.st = Status.ok →
      ∃ q, r.br = ⟨d, n, q⟩ ∧ descend jw ⟨d1, n1, p⟩ c = ⟨Status.ok, r.jw, ⟨d1, n1, q⟩⟩)
    (D : bej_dict) (c : bej_cluster) (rem : Nat) :
    ∀ (jw : bej_jsonw) (p : Nat) (r : Run),
      decode_members descend D c rem jw ⟨d, n, p⟩ = r → r.st = Status.ok →
      ∃ q, r.br = ⟨d, n, q⟩ ∧
        decode_members descend D c rem jw ⟨d1, n1, p⟩ = ⟨Status.ok, r.jw, ⟨d1, n1, q⟩⟩ := by
  induction rem with
  | zero =>
    intro jw p r hr _
    refine ⟨p, by rw [← hr]; rfl, ?_⟩
    rw [← hr]
    rfl
  | succ rem ih =>
    intro jw p r hr hok
    rw [decode_members_succ] at hr ⊢
    obtain ⟨hst, hrest⟩ := run_match_ok _ _ r hr hok
    obtain ⟨q1, hq1, e1⟩ := member_ext d d1 n n1 hle hn1 hd descend hdesc D c jw p _ rfl hst
    rw [hq1] at hrest
    obtain ⟨q, hq, e⟩ := ih _ q1 r hrest hok
    refine ⟨q, hq, ?_⟩
    rw [e1]
    exact e

theorem value_set_ext (d d1 : Nat → Byte) (n n1 : Nat) (hle : n ≤ n1) (hn1 : n1 < 2 ^ 31)
    (hd : ∀ i, i < n → d1 i = d i) (D : bej_dict) (fuel : Nat) :
    ∀ (jw : bej_jsonw) (p : Nat) (c : bej_cluster) (r : Run),
      decode_value_set fuel jw ⟨d, n, p⟩ D c = r → r.st = Status.ok →
      ∃ q, r.br = ⟨d, n, q⟩ ∧
        decode_value_set fuel jw ⟨d1, n1, p⟩ D c = ⟨Status.ok, r.jw, ⟨d1, n1, q⟩⟩ := by
  induction fuel with
  | zero =>
    intro jw p c r hr hok
    rw [← hr] at hok
    exact Status.noConfusion hok
  | succ fuel ih =>
    intro jw p c r hr hok
    rw [decode_value_set_succ] at hr ⊢
    cases hn : bej_read_nnint ⟨d, n, p⟩ with
    | none =>
      rw [hn] at hr
      rw [← hr] at hok
      exact Status.noConfusion hok
    | some x =>
      obtain ⟨count, b1⟩ := x
      obtain ⟨q1, hb1, _, e1⟩ := nnint_ext d d1 n n1 hle hn1 hd p count b1 hn
      rw [hn, hb1] at hr
      dsimp only at hr
      obtain ⟨hst, hrest⟩ := run_match_ok _ _ r hr hok
      obtain ⟨q, hq, e⟩ := members_ext d d1 n n1 hle hn1 hd _
        (fun jw p c r h1 h2 => ih jw p c r h1 h2) D c count _ q1 _ rfl hst
      refine ⟨q, by rw [← hrest]; exact hq, ?_⟩
      rw [e1]
      dsimp only
      rw [e, ← hrest]

theorem decode_ok_inv (fuel : Nat) (bej : Nat → Byte) (n : Nat) (D : bej_dict)
    (r : Run) (hr : bej_decode_to_json fuel bej n D = r) (hok : r.st = Status.ok) :
    ¬ bej_br_left ⟨bej, n, 0⟩ < 7 ∧ 6 < n ∧
    ∃ S F L br2, read_header ⟨bej, n, 7⟩ = some (S, F, L, br2) ∧ F.val >>> 4 = 0 ∧
      (decode_value_set fuel bej_jw_init br2 D (root_cluster D)).st = Status.ok ∧
      r = ⟨Status.ok,
        fputs (ascii "\n") (decode_value_set fuel bej_jw_init br2 D (root_cluster D)).jw,
        (decode_value_set fuel bej_jw_init br2 D (root_cluster D)).br⟩ := by
  have hp : wrap64 (wrap64 (0 + 4) + 2) = 6 := by decide
  have h7 : wrap64 (6 + 1) = 7 := by decide
  by_cases hleft : bej_br_left ⟨bej, n, 0⟩ < 7
  · exfalso
    unfold bej_decode_to_json at hr
    dsimp only [bej_br_init] at hr
    rw [hp, if_pos hleft] at hr
    rw [← hr] at hok
    exact Status.noConfusion hok
  by_cases h6 : 6 < n
  · cases hdr : read_header ⟨bej, n, 7⟩ with
    | none =>
      exfalso
      unfold bej_decode_to_json at hr
      dsimp only [bej_br_init] at hr
      rw [hp, if_neg hleft, br_u8_at bej n 6 h6, h7] at hr
      dsimp only at hr
      rw [hdr] at hr
      rw [← hr] at hok
      exact Status.noConfusion hok
    | some q =>
      obtain ⟨S, F, L, br2⟩ := q
      by_cases hF : F.val >>> 4 = 0
      · refine ⟨hleft, h6, S, F, L, br2, rfl, hF, ?_⟩
        rw [decode_run_set fuel bej n D S F L br2 hleft h6 hdr hF] at hr
        obtain ⟨hst, hrest⟩ := run_match_ok _ _ r hr hok
        exact ⟨hst, hrest.symm⟩
      · exfalso
        obtain ⟨br, hbr⟩ := decode_rejects_run fuel bej n D
          (Or.inr ⟨S, F, L, br2, hdr, hF⟩)
        rw [hbr] at hr
        rw [← hr] at hok
        exact Status.noConfusion hok
  · exfalso
    unfold bej_decode_to_json at hr
    dsimp only [bej_br_init] at hr
    rw [hp, if_neg hleft, br_u8_end bej n 6 (by omega)] at hr
    rw [← hr] at hok
    exact Status.noConfusion hok

/-- C22 (amended): `bej_decode_to_json` returns success exactly when the stream has at
least 7 bytes by the `int` view of its length, the header of one tuple is readable at
offset 7 with format nibble Set, and the member list after that header is decoded
successfully by `decode_value_set` against the root cluster: no condition on the length
field `L` of that tuple and none on where the member list ends. On success a newline is
written after the object and the cursor stays where the member list ended. Bytes after
the top-level tuple are accepted: when a stream is decoded successfully, every stream of
fewer than `2^31` bytes that continues it with further bytes is decoded successfully
too, with the same output and the same final cursor. -/
theorem top_level_set_decoded (fuel : Nat) (bej : Nat → Byte) (n : Nat) (D : bej_dict)
    (r : Run) (hr : bej_decode_to_json fuel bej n D = r) :
    (r.st = Status.ok ↔
      ¬ bej_br_left ⟨bej, n, 0⟩ < 7 ∧ 6 < n ∧
      ∃ S F L br2, read_header ⟨bej, n, 7⟩ = some (S, F, L, br2) ∧ F.val >>> 4 = 0 ∧
        (decode_value_set fuel bej_jw_init br2 D (root_cluster D)).st = Status.ok) ∧
    (r.st = Status.ok → ∀ S F L br2, read_header ⟨bej, n, 7⟩ = some (S, F, L, br2) →
      r.jw = fputs (ascii "\n") (decode_value_set fuel bej_jw_init br2 D (root_cluster D)).jw ∧
      r.br = (decode_value_set fuel bej_jw_init br2 D (root_cluster D)).br) ∧
    (r.st = Status.ok → ∀ (d1 : Nat → Byte) (n1 : Nat), n ≤ n1 → n1 < 2 ^ 31 →
      (∀ i, i < n → d1 i = bej i) →
      bej_decode_to_json fuel d1 n1 D = ⟨Status.ok, r.jw, ⟨d1, n1, r.br.p⟩⟩) := by
  refine ⟨⟨?_, ?_⟩, ?_, ?_⟩
  · intro hok
    obtain ⟨hleft, h6, S, F, L, br2, hdr, hF, hst, _⟩ := decode_ok_inv fuel bej n D r hr hok
    exact ⟨hleft, h6, S, F, L, br2, hdr, hF, hst⟩
  · intro h
    obtain ⟨hleft, h6, S, F, L, br2, hdr, hF, hst⟩ := h
    rw [← hr, decode_run_set fuel bej n D S F L br2 hleft h6 hdr hF, run_match_eq _ _ hst]
  · intro hok S F L br2 hdr
    obtain ⟨_, _, S1, F1, L1, br1, hdr1, _, _, hrun⟩ := decode_ok_inv fuel bej n D r hr hok
    rw [hdr] at hdr1
    injection hdr1 with h
    injection h with _ h
    injection h with _ h
    injection h with _ hbr
    rw [hrun, hbr]
    exact ⟨rfl, rfl⟩
  · intro hok d1 n1 hle hn1 hd
    obtain ⟨_, h6, S, F, L, br2, hdr, hF, hst, hrun⟩ := decode_ok_inv fuel bej n D r hr hok
    obtain ⟨q2, hb2, _, e2⟩ := header_ext bej d1 n n1 hle hn1 hd 7 S F L br2 hdr
    rw [hb2] at hst hrun
    obtain ⟨q, hq, e⟩ := value_set_ext bej d1 n n1 hle hn1 hd D fuel bej_jw_init q2
      (root_cluster D) _ rfl hst
    have hleft1 : ¬ bej_br_left ⟨d1, n1, 0⟩ < 7 := by
      rw [br_left_in_buffer d1 n1 0 (by omega) hn1]
      omega
    rw [decode_run_set fuel d1 n1 D S F L _ hleft1 (by omega) e2 hF, e, hrun, hq]

theorem top_level_set_decoded_witness :
    (bej_decode_to_json 1 (mem_of bej_S6) 20 D_test).st = Status.ok ∧
    (¬ bej_br_left ⟨mem_of bej_S6, 20, 0⟩ < 7 ∧ 6 < 20 ∧
      ∃ S F L br2, read_header ⟨mem_of bej_S6, 20, 7⟩ = some (S, F, L, br2) ∧
        F.val >>> 4 = 0 ∧
        (decode_value_set 1 bej_jw_init br2 D_test (root_cluster D_test)).st = Status.ok) ∧
    (bej_decode_to_json 1 (mem_of bej_S6) 20 D_test).br.p = 20 ∧
    bej_decode_to_json 1 (mem_of (bej_S6 ++ [0xAA, 0xBB])) 22 D_test
      = ⟨Status.ok, (bej_decode_to_json 1 (mem_of bej_S6) 20 D_test).jw,
         ⟨mem_of (bej_S6 ++ [0xAA, 0xBB]), 22,
          (bej_decode_to_json 1 (mem_of bej_S6) 20 D_test).br.p⟩⟩ :=
  ⟨by decide,
   (top_level_set_decoded 1 (mem_of bej_S6) 20 D_test _ rfl).1.1 (by decide),
   by decide,
   (top_level_set_decoded 1 (mem_of bej_S6) 20 D_test _ rfl).2.2 (by decide)
     (mem_of (bej_S6 ++ [0xAA, 0xBB])) 22 (by decide) (by decide) (by decide)⟩

end Bej
